import Mathlib

/-!
c-neural-network: a two-layer perceptron trained by backpropagation with momentum.

Shallow embedding of `src/neural.c` (and the parts of `src/main.c` it needs).

* A C `double` is an element of a type `α` that carries the arithmetic
  operations the source uses (`0`, `1`, `+`, `-`, `*`, `/`, unary minus).
  The library function `exp` of `<math.h>` is not part of the repository and
  is a parameter `exp : α → α` of every function that reaches `sigmoid`.
* A heap buffer (`double*`) is a `List α`; the `uint32_t` shape fields are
  natural numbers and every `uint32_t` expression is reduced modulo `2 ^ 32`.
* A `for` loop is `forLoop`, which threads the whole mutable state through
  the loop body, iteration `0` first.
* A file is the list of its bytes; `fopen` failing is `none`.

The embedding and the lemmas about it use no law of arithmetic, so they hold for every
interpretation of the operations on `double`.  The claims that compare the code with a
formula of real arithmetic (a sum, a product written without brackets, `0 * v + d = d`)
are stated over a field.
-/

namespace NeuralNet

/-! ## Machine-level helpers -/

/-- Unsigned 32-bit wrap-around: the value a `uint32_t` expression has. -/
def u32 (n : Nat) : Nat := n % 2 ^ 32

/-- Read `buf[i]`.  Reading outside the buffer is undefined in C; the model returns `0`. -/
def rd {α : Type} [Zero α] (buf : List α) (i : Nat) : α := buf.getD i 0

/-- Store `buf[i] = v`.  Storing outside the buffer is undefined in C; the model drops it. -/
def wr {α : Type} (buf : List α) (i : Nat) (v : α) : List α := buf.set i v

/-- The loop `for (uint32_t i = 0; i < n; i++) body`, as a state transformer:
`body 0` runs first and `body (n - 1)` last. -/
def forLoop {σ : Type} : Nat → (Nat → σ → σ) → σ → σ
  | 0, _, s => s
  | n + 1, body, s => body n (forLoop n body s)

/-! ## Data model (`src/neural.h`) -/

/-- The C struct `Network`: shape, parameters and activation scratch buffers. -/
structure Network (α : Type) where
  n_inputs : Nat
  n_hidden : Nat
  n_outputs : Nat
  weights_hidden : List α
  biases_hidden : List α
  weights_output : List α
  biases_output : List α
  hidden : List α
  output : List α
deriving DecidableEq, Repr

/-- The C struct `Trainer`: gradient and momentum buffers. -/
structure Trainer (α : Type) where
  grad_hidden : List α
  grad_output : List α
  velocity_hidden : List α
  velocity_output : List α
deriving DecidableEq, Repr

/-- A network whose buffers are the ones `network_init` allocates and on which every
array access of `network_predict` and `trainer_train` stays inside its buffer:
the shape fields are `uint32_t` values, each buffer holds exactly as many elements as
the shape asks for, and the two element counts fit in a `uint32_t`. -/
def Network.WF {α : Type} (nw : Network α) : Prop :=
  nw.n_inputs < 2 ^ 32 ∧ nw.n_hidden < 2 ^ 32 ∧ nw.n_outputs < 2 ^ 32 ∧
  nw.n_inputs * nw.n_hidden < 2 ^ 32 ∧ nw.n_hidden * nw.n_outputs < 2 ^ 32 ∧
  nw.weights_hidden.length = nw.n_inputs * nw.n_hidden ∧
  nw.biases_hidden.length = nw.n_hidden ∧
  nw.weights_output.length = nw.n_hidden * nw.n_outputs ∧
  nw.biases_output.length = nw.n_outputs ∧
  nw.hidden.length = nw.n_hidden ∧
  nw.output.length = nw.n_outputs

instance {α : Type} (nw : Network α) : Decidable nw.WF := by
  unfold Network.WF; infer_instance

/-- A network whose six buffers have the sizes `network_init` passes to `calloc`: the two
weight matrices hold `n_inputs * n_hidden` and `n_hidden * n_outputs` elements, the products
being computed in `uint32_t`.  Every well-formed network is of this kind. -/
def Network.Allocated {α : Type} (nw : Network α) : Prop :=
  nw.n_inputs < 2 ^ 32 ∧ nw.n_hidden < 2 ^ 32 ∧ nw.n_outputs < 2 ^ 32 ∧
  nw.weights_hidden.length = u32 (nw.n_inputs * nw.n_hidden) ∧
  nw.biases_hidden.length = nw.n_hidden ∧
  nw.weights_output.length = u32 (nw.n_hidden * nw.n_outputs) ∧
  nw.biases_output.length = nw.n_outputs ∧
  nw.hidden.length = nw.n_hidden ∧
  nw.output.length = nw.n_outputs

instance {α : Type} (nw : Network α) : Decidable nw.Allocated := by
  unfold Network.Allocated; infer_instance

/-- A trainer whose buffers are the ones `trainer_init` allocates for the network. -/
def Trainer.WF {α : Type} (tr : Trainer α) (nw : Network α) : Prop :=
  tr.grad_hidden.length = nw.n_hidden ∧
  tr.grad_output.length = nw.n_outputs ∧
  tr.velocity_hidden.length = nw.n_inputs * nw.n_hidden ∧
  tr.velocity_output.length = nw.n_hidden * nw.n_outputs

instance {α : Type} (tr : Trainer α) (nw : Network α) : Decidable (tr.WF nw) := by
  unfold Trainer.WF; infer_instance

/-! ## Forward pass (`src/neural.c`, lines 8-14 and 65-84) -/

section Arithmetic

variable {α : Type} [Zero α] [One α] [Add α] [Sub α] [Mul α] [Div α] [Neg α]

/-- The C function `sigmoid`: `1.0 / (1.0 + exp(-x))`. -/
def sigmoid (exp : α → α) (x : α) : α := 1 / (1 + exp (-x))

/-- The C function `sigmoid_prim`: `f * (1.0 - f)`. -/
def sigmoid_prim (f : α) : α := f * (1 - f)

/-- The C function `network_predict`. -/
def network_predict (exp : α → α) (network : Network α) (input : List α) : Network α :=
  -- Hidden layer activations
  let network := forLoop network.n_hidden (fun j network =>
    let sum : α := 0
    let sum := forLoop network.n_inputs (fun i sum =>
      sum + rd input i * rd network.weights_hidden (u32 (i * network.n_hidden + j))) sum
    let sum := sum + rd network.biases_hidden j
    { network with hidden := wr network.hidden j (sigmoid exp sum) }) network
  -- Output layer activations
  forLoop network.n_outputs (fun k network =>
    let sum : α := 0
    let sum := forLoop network.n_hidden (fun j sum =>
      sum + rd network.hidden j * rd network.weights_output (u32 (j * network.n_outputs + k))) sum
    let sum := sum + rd network.biases_output k
    { network with output := wr network.output k (sigmoid exp sum) }) network

/-! ## Training step (`src/neural.c`, lines 87-152) -/

/-- The C function `trainer_train`; `y` is the target vector.  The two structures it
mutates through its pointer arguments are returned as a pair. -/
def trainer_train (exp : α → α) (trainer : Trainer α) (network : Network α)
    (input : List α) (y : List α) (lr : α) (momentum : α) : Trainer α × Network α :=
  -- Forward pass
  let network := network_predict exp network input
  -- Compute output layer gradient
  let trainer := forLoop network.n_outputs (fun k trainer =>
    let g := (rd network.output k - rd y k) * sigmoid_prim (rd network.output k)
    { trainer with grad_output := wr trainer.grad_output k g }) trainer
  -- Compute hidden layer gradient
  let trainer := forLoop network.n_hidden (fun j trainer =>
    let sum : α := 0
    let sum := forLoop network.n_outputs (fun k sum =>
      sum + rd trainer.grad_output k * rd network.weights_output (u32 (j * network.n_outputs + k))) sum
    { trainer with grad_hidden := wr trainer.grad_hidden j (sum * sigmoid_prim (rd network.hidden j)) }) trainer
  -- Update output weights with momentum
  let st : Trainer α × Network α := forLoop network.n_hidden (fun j st =>
    forLoop st.2.n_outputs (fun k st =>
      let trainer := st.1
      let network := st.2
      let idx := u32 (j * network.n_outputs + k)
      let delta := lr * rd trainer.grad_output k * rd network.hidden j
      let v := momentum * rd trainer.velocity_output idx + delta
      let trainer := { trainer with velocity_output := wr trainer.velocity_output idx v }
      let w := rd network.weights_output idx - rd trainer.velocity_output idx
      let network := { network with weights_output := wr network.weights_output idx w }
      (trainer, network)) st) (trainer, network)
  let trainer := st.1
  let network := st.2
  -- Update output biases
  let network := forLoop network.n_outputs (fun k network =>
    let b := rd network.biases_output k - lr * rd trainer.grad_output k
    { network with biases_output := wr network.biases_output k b }) network
  -- Update hidden weights with momentum
  let st : Trainer α × Network α := forLoop network.n_inputs (fun i st =>
    forLoop st.2.n_hidden (fun j st =>
      let trainer := st.1
      let network := st.2
      let idx := u32 (i * network.n_hidden + j)
      let delta := lr * rd trainer.grad_hidden j * rd input i
      let v := momentum * rd trainer.velocity_hidden idx + delta
      let trainer := { trainer with velocity_hidden := wr trainer.velocity_hidden idx v }
      let w := rd network.weights_hidden idx - rd trainer.velocity_hidden idx
      let network := { network with weights_hidden := wr network.weights_hidden idx w }
      (trainer, network)) st) (trainer, network)
  let trainer := st.1
  let network := st.2
  -- Update hidden biases
  let network := forLoop network.n_hidden (fun j network =>
    let b := rd network.biases_hidden j - lr * rd trainer.grad_hidden j
    { network with biases_hidden := wr network.biases_hidden j b }) network
  (trainer, network)

end Arithmetic

/-! ## Checkpoint files (`src/neural.c`, lines 161-201) -/

/-- One byte of a file or of an object in memory. -/
abbrev Byte := Fin 256

/-- The object representation of a `double`: the eight bytes `fwrite` copies out of memory
and `fread` copies back in.  Copying the bytes of a value out and in again restores it. -/
class DoubleRep (α : Type) where
  toBytes : α → List Byte
  ofBytes : List Byte → α
  toBytes_length : ∀ x, (toBytes x).length = 8
  ofBytes_toBytes : ∀ x, ofBytes (toBytes x) = x

/-- The object representation of a `uint32_t` (host byte order, least significant first). -/
def le32 (n : Nat) : List Byte :=
  [⟨n % 256, Nat.mod_lt _ (by decide)⟩, ⟨n / 256 % 256, Nat.mod_lt _ (by decide)⟩,
   ⟨n / 65536 % 256, Nat.mod_lt _ (by decide)⟩, ⟨n / 16777216 % 256, Nat.mod_lt _ (by decide)⟩]

/-- The `uint32_t` value held by a four-byte object. -/
def de32 (bs : List Byte) : Nat :=
  (bs.getD 0 0).val + 256 * (bs.getD 1 0).val + 65536 * (bs.getD 2 0).val
    + 16777216 * (bs.getD 3 0).val

/-- The bytes of an array of `double`. -/
def encodeArr {α : Type} [DoubleRep α] : List α → List Byte
  | [] => []
  | x :: xs => DoubleRep.toBytes x ++ encodeArr xs

/-- The array of `n` elements of type `double` held by a block of bytes. -/
def decodeArr {α : Type} [DoubleRep α] : Nat → List Byte → List α
  | 0, _ => []
  | n + 1, bs => DoubleRep.ofBytes (bs.take 8) :: decodeArr n (bs.drop 8)

/-- The C library call `fwrite(ptr, size, count, file)` on a stream open for writing:
the first `size * count` bytes of the object at `ptr` are appended to the stream. -/
def fwrite (object : List Byte) (size count : Nat) (stream : List Byte) : List Byte :=
  stream ++ object.take (size * count)

/-- The C library call `fread(ptr, size, count, file)` on a stream open for reading:
the next `size * count` bytes of the stream, or as many as are left, overwrite the front of
the object at `ptr`; an element the stream ends in the middle of keeps its remaining old
bytes.  Returns the object and the unread rest of the stream. -/
def fread (object : List Byte) (size count : Nat) (stream : List Byte) : List Byte × List Byte :=
  let got := stream.take (size * count)
  ((got ++ object.drop got.length).take object.length, stream.drop (size * count))

/-- A line written to `stderr`. -/
inductive Diag where
  | perror (tag : String)
  | message (text : String)
deriving DecidableEq, Repr

/-- What a call of `network_load` leaves behind: its return value, the network it was given
a pointer to, and what it wrote to `stderr`. -/
structure LoadResult (α : Type) where
  ret : Int
  network : Network α
  stderr : List Diag

/-- The C function `network_save`.  `fopen_ok` tells whether `fopen(filename, "wb")`
succeeds and `file` is the content of the named file before the call, `none` when there is
no such file.  Returns the content of the file after the call and the lines written to
`stderr`.  The source does not look at what `fwrite` returns; on an open stream every
`fwrite` is taken to write all its bytes. -/
def network_save {α : Type} [DoubleRep α] (network : Network α) (fopen_ok : Bool)
    (file : Option (List Byte)) : Option (List Byte) × List Diag :=
  if !fopen_ok then
    (file, [Diag.perror "fopen"])
  else
    let stream : List Byte := []
    let stream := fwrite (le32 network.n_inputs) 4 1 stream
    let stream := fwrite (le32 network.n_hidden) 4 1 stream
    let stream := fwrite (le32 network.n_outputs) 4 1 stream
    let stream := fwrite (encodeArr network.weights_hidden) 8
      (u32 (network.n_inputs * network.n_hidden)) stream
    let stream := fwrite (encodeArr network.biases_hidden) 8 network.n_hidden stream
    let stream := fwrite (encodeArr network.weights_output) 8
      (u32 (network.n_hidden * network.n_outputs)) stream
    let stream := fwrite (encodeArr network.biases_output) 8 network.n_outputs stream
    (some stream, [])

/-- The C function `network_load`.  `file` is the content of the named file, `none` when
`fopen(filename, "rb")` fails.  `junk` holds the indeterminate values of the three
uninitialised locals `n_inputs`, `n_hidden`, `n_outputs` before the `fread` calls. -/
def network_load {α : Type} [DoubleRep α] (network : Network α) (file : Option (List Byte))
    (junk : Nat × Nat × Nat) : LoadResult α :=
  match file with
  | none => { ret := -1, network := network, stderr := [Diag.perror "fopen"] }
  | some stream =>
    let r := fread (le32 junk.1) 4 1 stream
    let n_inputs := de32 r.1
    let r := fread (le32 junk.2.1) 4 1 r.2
    let n_hidden := de32 r.1
    let r := fread (le32 junk.2.2) 4 1 r.2
    let n_outputs := de32 r.1
    if n_inputs ≠ network.n_inputs ∨ n_hidden ≠ network.n_hidden ∨
        n_outputs ≠ network.n_outputs then
      { ret := -1, network := network,
        stderr := [Diag.message "Network dimensions mismatch!\n"] }
    else
      let r := fread (encodeArr network.weights_hidden) 8
        (u32 (network.n_inputs * network.n_hidden)) r.2
      let network := { network with
        weights_hidden := decodeArr network.weights_hidden.length r.1 }
      let r := fread (encodeArr network.biases_hidden) 8 network.n_hidden r.2
      let network := { network with
        biases_hidden := decodeArr network.biases_hidden.length r.1 }
      let r := fread (encodeArr network.weights_output) 8
        (u32 (network.n_hidden * network.n_outputs)) r.2
      let network := { network with
        weights_output := decodeArr network.weights_output.length r.1 }
      let r := fread (encodeArr network.biases_output) 8 network.n_outputs r.2
      let network := { network with
        biases_output := decodeArr network.biases_output.length r.1 }
      { ret := 0, network := network, stderr := [] }

/-! ## Initialisation (`src/neural.c`, lines 16-53 and 86-99) -/

section Initialisation

variable {α : Type} [Zero α] [One α] [Sub α] [Mul α] [Div α] [NatCast α] {ρ : Type}

/-- The C function `network_init`.  The function pointer `rand` acts on a state of type
`ρ`: a call made in state `s` returns `(rand s).1` and leaves the state `(rand s).2`; `s` is
the state before the call of `network_init`.  The library function `sqrt` of `<math.h>` is
a parameter.  `calloc_ok` tells whether all six `calloc` calls succeed; when one fails the
process exits and there is no result.  The constants `6.0` and `2.0` and the conversion of
the `uint32_t` sum to `double` are casts from the natural numbers.  Returns the network and
the state of `rand` after the call. -/
def network_init (n_inputs n_hidden n_outputs : Nat) (rand : ρ → α × ρ) (s : ρ)
    (sqrt : α → α) (calloc_ok : Bool) : Option (Network α × ρ) :=
  let network : Network α :=
    { n_inputs := n_inputs, n_hidden := n_hidden, n_outputs := n_outputs,
      weights_hidden := List.replicate (u32 (n_inputs * n_hidden)) 0,
      biases_hidden := List.replicate n_hidden 0,
      weights_output := List.replicate (u32 (n_hidden * n_outputs)) 0,
      biases_output := List.replicate n_outputs 0,
      hidden := List.replicate n_hidden 0,
      output := List.replicate n_outputs 0 }
  if !calloc_ok then
    none
  else
    -- Xavier initialization for weights
    let limit_hidden := sqrt (((6 : Nat) : α) / ((u32 (n_inputs + n_hidden) : Nat) : α))
    let st := forLoop (u32 (n_inputs * n_hidden)) (fun i (st : Network α × ρ) =>
      let r := rand st.2
      let w := (r.1 * ((2 : Nat) : α) - 1) * limit_hidden
      ({ st.1 with weights_hidden := wr st.1.weights_hidden i w }, r.2)) (network, s)
    let limit_output := sqrt (((6 : Nat) : α) / ((u32 (n_hidden + n_outputs) : Nat) : α))
    let st := forLoop (u32 (n_hidden * n_outputs)) (fun i (st : Network α × ρ) =>
      let r := rand st.2
      let w := (r.1 * ((2 : Nat) : α) - 1) * limit_output
      ({ st.1 with weights_output := wr st.1.weights_output i w }, r.2)) st
    some st

/-- The C function `trainer_init`.  `calloc_ok` tells whether all four `calloc` calls
succeed; when one fails the process exits and there is no result. -/
def trainer_init (network : Network α) (calloc_ok : Bool) : Option (Trainer α) :=
  if !calloc_ok then
    none
  else
    some { grad_hidden := List.replicate network.n_hidden 0,
           grad_output := List.replicate network.n_outputs 0,
           velocity_hidden := List.replicate (u32 (network.n_inputs * network.n_hidden)) 0,
           velocity_output := List.replicate (u32 (network.n_hidden * network.n_outputs)) 0 }

/-- The state a random source is in after `t` calls made from state `s`. -/
def randState (rand : ρ → α × ρ) (s : ρ) (t : Nat) : ρ :=
  forLoop t (fun _ s => (rand s).2) s

/-- The value of call number `t + 1` of a random source started in state `s`. -/
def randDraw (rand : ρ → α × ρ) (s : ρ) (t : Nat) : α :=
  (rand (randState rand s t)).1

end Initialisation

/-! ## The driver's random source and training loop (`src/main.c`, lines 7-18, 136-143) -/

/-- The global `P` of `src/main.c`. -/
def P : Nat := 2147483647

/-- The global `A` of `src/main.c`. -/
def A : Nat := 16807

/-- The C function `Rand` of `src/main.c`, acting on the global `current`: the product is
formed in `uint64_t`, the remainder is stored back into the `uint32_t` global.  Returns
the value and the new `current`. -/
def Rand {α : Type} [NatCast α] [Div α] (current : Nat) : α × Nat :=
  let current := u32 (current * A % 2 ^ 64 % P)
  (((current : Nat) : α) / ((P : Nat) : α), current)

/-- The training loops of `main`: `n` consecutive calls of `trainer_train` on one trainer and
one network with fixed momentum, call number `t + 1` being made on the input, the target and
the learning rate `examples t`. -/
def train_loop {α : Type} [Zero α] [One α] [Add α] [Sub α] [Mul α] [Div α] [Neg α]
    (exp : α → α) (momentum : α) (examples : Nat → List α × List α × α) (n : Nat)
    (st : Trainer α × Network α) : Trainer α × Network α :=
  forLoop n (fun t st =>
    trainer_train exp st.1 st.2 (examples t).1 (examples t).2.1 (examples t).2.2 momentum) st

/-! ## The error the training step descends

The source never computes its error function.  These definitions follow the words of the
specification: the squared error `E = 1/2 · Σ_k (output[k] - target[k])²`, as a function
of the outputs, of the sums fed to `sigmoid` by the output units, of the sums fed to
`sigmoid` by the hidden units, and of the network. -/

section ErrorFunction

variable {α : Type} [Field α]

/-- The squared error of `n` outputs against their targets. -/
def squaredError (n : Nat) (output target : Nat → α) : α :=
  1 / 2 * ∑ k ∈ Finset.range n, (output k - target k) ^ 2

/-- The squared error as a function of the pre-activation sums `z` of the output units. -/
def errorAtOutputSums (exp : α → α) (n_outputs : Nat) (target : Nat → α) (z : Nat → α) : α :=
  squaredError n_outputs (fun k => sigmoid exp (z k)) target

/-- The squared error as a function of the pre-activation sums `a` of the hidden units,
the output layer being that of `network`. -/
def errorAtHiddenSums (exp : α → α) (network : Network α) (target : Nat → α) (a : Nat → α) : α :=
  errorAtOutputSums exp network.n_outputs target (fun k =>
    (∑ j ∈ Finset.range network.n_hidden,
      sigmoid exp (a j) * rd network.weights_output (j * network.n_outputs + k))
    + rd network.biases_output k)

/-- The squared error of the forward pass of `network` on `input` against the target `y`. -/
def predictError (exp : α → α) (network : Network α) (input y : List α) : α :=
  squaredError network.n_outputs (rd (network_predict exp network input).output) (rd y)

end ErrorFunction

/-! ## The loops of the source, buffer by buffer

Each definition below is one loop of `network_predict` or `trainer_train`, run on the one
buffer (or the two buffers) it writes.  `network_predict_eq` and `trainer_train_eq` show
that the functions above are made of these loops. -/

section ClosedForms

variable {α : Type} [Zero α] [One α] [Add α] [Sub α] [Mul α] [Div α] [Neg α]

/-- The sum `network_predict` feeds to `sigmoid` for hidden unit `j`, accumulated in the
order of the source. -/
def hiddenSum (network : Network α) (input : List α) (j : Nat) : α :=
  forLoop network.n_inputs (fun i sum =>
    sum + rd input i * rd network.weights_hidden (u32 (i * network.n_hidden + j))) 0
  + rd network.biases_hidden j

/-- The sum `network_predict` feeds to `sigmoid` for output unit `k`, from the hidden
activations `hid`. -/
def outputSum (network : Network α) (hid : List α) (k : Nat) : α :=
  forLoop network.n_hidden (fun j sum =>
    sum + rd hid j * rd network.weights_output (u32 (j * network.n_outputs + k))) 0
  + rd network.biases_output k

/-- The `hidden` buffer after `network_predict`. -/
def predictHidden (exp : α → α) (network : Network α) (input : List α) : List α :=
  forLoop network.n_hidden (fun j h => wr h j (sigmoid exp (hiddenSum network input j)))
    network.hidden

/-- The `output` buffer after `network_predict`. -/
def predictOutput (exp : α → α) (network : Network α) (input : List α) : List α :=
  forLoop network.n_outputs (fun k o =>
    wr o k (sigmoid exp (outputSum network (predictHidden exp network input) k)))
    network.output

/-- The `grad_output` buffer after `trainer_train`; `p` is the network after the forward pass. -/
def trainGradOutput (p : Network α) (y : List α) (g0 : List α) : List α :=
  forLoop p.n_outputs (fun k g =>
    wr g k ((rd p.output k - rd y k) * sigmoid_prim (rd p.output k))) g0

/-- The `grad_hidden` buffer after `trainer_train`, from the output gradient `go`. -/
def trainGradHidden (p : Network α) (go : List α) (g0 : List α) : List α :=
  forLoop p.n_hidden (fun j g =>
    wr g j (forLoop p.n_outputs (fun k sum =>
        sum + rd go k * rd p.weights_output (u32 (j * p.n_outputs + k))) 0
      * sigmoid_prim (rd p.hidden j))) g0

/-- One momentum update of a `rows × cols` weight matrix: the velocity and weight buffers
after the nested loop, where the raw delta of entry `(r, c)` is `delta r c`. -/
def trainMomentum (rows cols : Nat) (momentum : α) (delta : Nat → Nat → α)
    (vw : List α × List α) : List α × List α :=
  forLoop rows (fun r vw =>
    forLoop cols (fun c vw =>
      let idx := u32 (r * cols + c)
      let v := wr vw.1 idx (momentum * rd vw.1 idx + delta r c)
      (v, wr vw.2 idx (rd vw.2 idx - rd v idx))) vw) vw

/-- A bias buffer after its update loop: `b[t] -= lr * g[t]`. -/
def trainBias (n : Nat) (lr : α) (g : List α) (b0 : List α) : List α :=
  forLoop n (fun t b => wr b t (rd b t - lr * rd g t)) b0

/-- One weight loop of `network_init`, run on the buffer it fills and the state of the
random source: entry `i` gets `(rand() * 2.0 - 1.0) * limit`. -/
def initWeights {ρ : Type} [NatCast α] (n : Nat) (limit : α) (rand : ρ → α × ρ)
    (st : List α × ρ) : List α × ρ :=
  forLoop n (fun i st =>
    let r := rand st.2
    (wr st.1 i ((r.1 * ((2 : Nat) : α) - 1) * limit), r.2)) st

end ClosedForms

/-! ## Concrete instances used to run the model -/

/-- A `double` seen as its 64-bit pattern. -/
abbrev Bits64 := Fin (2 ^ 64)

/-- The eight bytes of a 64-bit pattern, least significant first. -/
def Bits64.bytes (x : Bits64) : List Byte :=
  [⟨x.val % 256, Nat.mod_lt _ (by decide)⟩, ⟨x.val / 2 ^ 8 % 256, Nat.mod_lt _ (by decide)⟩,
   ⟨x.val / 2 ^ 16 % 256, Nat.mod_lt _ (by decide)⟩,
   ⟨x.val / 2 ^ 24 % 256, Nat.mod_lt _ (by decide)⟩,
   ⟨x.val / 2 ^ 32 % 256, Nat.mod_lt _ (by decide)⟩,
   ⟨x.val / 2 ^ 40 % 256, Nat.mod_lt _ (by decide)⟩,
   ⟨x.val / 2 ^ 48 % 256, Nat.mod_lt _ (by decide)⟩,
   ⟨x.val / 2 ^ 56 % 256, Nat.mod_lt _ (by decide)⟩]

/-- The 64-bit pattern held by eight bytes. -/
def Bits64.ofBytes (bs : List Byte) : Bits64 :=
  ⟨((bs.getD 0 0).val + 2 ^ 8 * (bs.getD 1 0).val + 2 ^ 16 * (bs.getD 2 0).val
      + 2 ^ 24 * (bs.getD 3 0).val + 2 ^ 32 * (bs.getD 4 0).val + 2 ^ 40 * (bs.getD 5 0).val
      + 2 ^ 48 * (bs.getD 6 0).val + 2 ^ 56 * (bs.getD 7 0).val) % 2 ^ 64,
    Nat.mod_lt _ (by decide)⟩

instance : DoubleRep Bits64 where
  toBytes := Bits64.bytes
  ofBytes := Bits64.ofBytes
  toBytes_length := fun _ => rfl
  ofBytes_toBytes := fun x => by
    apply Fin.ext
    have h := x.isLt
    simp only [Bits64.ofBytes, Bits64.bytes, List.getD_cons_zero, List.getD_cons_succ]
    omega

/-- A 2-2-1 network of bit patterns: the source of a checkpoint. -/
def ckptA : Network Bits64 :=
  { n_inputs := 2, n_hidden := 2, n_outputs := 1,
    weights_hidden := [0x3FF0000000000000, 0xBFF0000000000000, 0x4000000000000000, 0x7FF8000000000001],
    biases_hidden := [0, 0x8000000000000000],
    weights_output := [0x3FE0000000000000, 0xC008000000000000],
    biases_output := [0x3FB999999999999A],
    hidden := [0, 0], output := [0] }

/-- A 2-2-1 network of bit patterns with other parameters: the target of a load. -/
def ckptB : Network Bits64 :=
  { n_inputs := 2, n_hidden := 2, n_outputs := 1,
    weights_hidden := [1, 2, 3, 4], biases_hidden := [5, 6],
    weights_output := [7, 8], biases_output := [9],
    hidden := [10, 11], output := [12] }

/-- A 3-2-1 network of bit patterns: its shape differs from that of `ckptA`. -/
def ckptC : Network Bits64 :=
  { n_inputs := 3, n_hidden := 2, n_outputs := 1,
    weights_hidden := [1, 2, 3, 4, 5, 6], biases_hidden := [5, 6],
    weights_output := [7, 8], biases_output := [9],
    hidden := [10, 11], output := [12] }

/-- The first 20 bytes of a record of shape 2-2-1: the three shape fields and one `double`
of the nine the shape asks for. -/
def truncatedRecord : List Byte :=
  le32 2 ++ le32 2 ++ le32 1 ++ encodeArr [(0x3FF0000000000000 : Bits64)]

/-- A rational stand-in for `sqrt`, positive on positive arguments, to run `network_init`
on rational numbers. -/
def sqrtQ (x : ℚ) : ℚ := (x + 1) / 2

/-- A rational stand-in for `exp` (the Taylor polynomial of degree two), to run the
arithmetic of the model on rational numbers. -/
def expQ (x : ℚ) : ℚ := 1 + x + x * x / 2

/-- A 2-2-1 network over the rationals. -/
def netQ : Network ℚ :=
  { n_inputs := 2, n_hidden := 2, n_outputs := 1,
    weights_hidden := [1, -1, 1 / 2, 2], biases_hidden := [0, 1],
    weights_output := [1, -2], biases_output := [1 / 2],
    hidden := [0, 0], output := [0] }

/-- A trainer for `netQ` with velocities left by earlier steps. -/
def trainerQ : Trainer ℚ :=
  { grad_hidden := [0, 0], grad_output := [0],
    velocity_hidden := [1 / 10, 0, -1 / 10, 1 / 5], velocity_output := [1 / 4, -1 / 4] }

/-- The training sequence that presents the example `(1, 0) ↦ 1` with learning rate `1/10`
in every call. -/
def examplesQ : Nat → List ℚ × List ℚ × ℚ := fun _ => ([1, 0], [1], 1 / 10)

/-- The rational numbers extended by the special values of IEEE 754 arithmetic, to run the
model on an infinity or a NaN.  Finite results are exact (no rounding, no overflow) and the
sign of a zero is not recorded; the special values follow the standard: `0 · ∞`, `∞ - ∞`,
`0 / 0`, `∞ / ∞` and every operation on a NaN give NaN. -/
inductive ExtQ where
  | fin (q : ℚ)
  | pinf
  | ninf
  | nan
deriving DecidableEq

/-- The infinity of the sign of `q`, NaN when `q` is zero. -/
def ExtQ.signed (q : ℚ) : ExtQ :=
  if q = 0 then ExtQ.nan else if 0 < q then ExtQ.pinf else ExtQ.ninf

/-- Negation on `ExtQ`. -/
def ExtQ.neg : ExtQ → ExtQ
  | ExtQ.fin q => ExtQ.fin (-q)
  | ExtQ.pinf => ExtQ.ninf
  | ExtQ.ninf => ExtQ.pinf
  | ExtQ.nan => ExtQ.nan

/-- Addition on `ExtQ`. -/
def ExtQ.add : ExtQ → ExtQ → ExtQ
  | ExtQ.fin a, ExtQ.fin b => ExtQ.fin (a + b)
  | ExtQ.nan, _ => ExtQ.nan
  | _, ExtQ.nan => ExtQ.nan
  | ExtQ.pinf, ExtQ.ninf => ExtQ.nan
  | ExtQ.ninf, ExtQ.pinf => ExtQ.nan
  | ExtQ.pinf, _ => ExtQ.pinf
  | ExtQ.ninf, _ => ExtQ.ninf
  | ExtQ.fin _, ExtQ.pinf => ExtQ.pinf
  | ExtQ.fin _, ExtQ.ninf => ExtQ.ninf

/-- Multiplication on `ExtQ`. -/
def ExtQ.mul : ExtQ → ExtQ → ExtQ
  | ExtQ.fin a, ExtQ.fin b => ExtQ.fin (a * b)
  | ExtQ.nan, _ => ExtQ.nan
  | _, ExtQ.nan => ExtQ.nan
  | ExtQ.fin a, ExtQ.pinf => ExtQ.signed a
  | ExtQ.fin a, ExtQ.ninf => ExtQ.signed (-a)
  | ExtQ.pinf, ExtQ.fin b => ExtQ.signed b
  | ExtQ.ninf, ExtQ.fin b => ExtQ.signed (-b)
  | ExtQ.pinf, ExtQ.pinf => ExtQ.pinf
  | ExtQ.pinf, ExtQ.ninf => ExtQ.ninf
  | ExtQ.ninf, ExtQ.pinf => ExtQ.ninf
  | ExtQ.ninf, ExtQ.ninf => ExtQ.pinf

/-- Division on `ExtQ`; a finite non-zero value divided by zero is an infinity. -/
def ExtQ.div : ExtQ → ExtQ → ExtQ
  | ExtQ.fin a, ExtQ.fin b => if b = 0 then ExtQ.signed a else ExtQ.fin (a / b)
  | ExtQ.nan, _ => ExtQ.nan
  | _, ExtQ.nan => ExtQ.nan
  | ExtQ.fin _, ExtQ.pinf => ExtQ.fin 0
  | ExtQ.fin _, ExtQ.ninf => ExtQ.fin 0
  | ExtQ.pinf, ExtQ.fin b => if 0 ≤ b then ExtQ.pinf else ExtQ.ninf
  | ExtQ.ninf, ExtQ.fin b => if 0 ≤ b then ExtQ.ninf else ExtQ.pinf
  | ExtQ.pinf, ExtQ.pinf => ExtQ.nan
  | ExtQ.pinf, ExtQ.ninf => ExtQ.nan
  | ExtQ.ninf, ExtQ.pinf => ExtQ.nan
  | ExtQ.ninf, ExtQ.ninf => ExtQ.nan

instance : Zero ExtQ := ⟨ExtQ.fin 0⟩

instance : One ExtQ := ⟨ExtQ.fin 1⟩

instance : Neg ExtQ := ⟨ExtQ.neg⟩

instance : Add ExtQ := ⟨ExtQ.add⟩

instance : Sub ExtQ := ⟨fun a b => ExtQ.add a (ExtQ.neg b)⟩

instance : Mul ExtQ := ⟨ExtQ.mul⟩

instance : Div ExtQ := ⟨ExtQ.div⟩

/-- A 2-2-1 network over the reals. -/
def netR : Network ℝ :=
  { n_inputs := 2, n_hidden := 2, n_outputs := 1,
    weights_hidden := [1, -1, 0, 2], biases_hidden := [0, 1],
    weights_output := [1, -2], biases_output := [3],
    hidden := [0, 0], output := [0] }

/-- A trainer for `netR`. -/
def trainerR : Trainer ℝ :=
  { grad_hidden := [0, 0], grad_output := [0],
    velocity_hidden := [1, 0, -1, 2], velocity_output := [1, -1] }

/-! ## Loop lemmas -/

theorem forLoop_succ {σ : Type} (n : Nat) (body : Nat → σ → σ) (s : σ) :
    forLoop (n + 1) body s = body n (forLoop n body s) := rfl

/-- Invariant rule for `forLoop`. -/
theorem forLoop_inv {σ : Type} (P : Nat → σ → Prop) (n : Nat) (body : Nat → σ → σ) (s : σ)
    (h0 : P 0 s) (hstep : ∀ i, i < n → ∀ s, P i s → P (i + 1) (body i s)) :
    P n (forLoop n body s) := by
  induction n with
  | zero => exact h0
  | succ n ih =>
    exact hstep n (Nat.lt_succ_self n) _ (ih (fun i hi s hs => hstep i (Nat.lt_succ_of_lt hi) s hs))

/-- Two loop bodies that agree on the iterations that run give the same loop. -/
theorem forLoop_congr {σ : Type} (n : Nat) (f g : Nat → σ → σ) (s : σ)
    (h : ∀ i, i < n → ∀ s, f i s = g i s) : forLoop n f s = forLoop n g s := by
  induction n with
  | zero => rfl
  | succ n ih =>
    rw [forLoop_succ, forLoop_succ, ih (fun i hi s => h i (Nat.lt_succ_of_lt hi) s),
      h n (Nat.lt_succ_self n)]

/-- A loop on a large state that only touches the part `φ` exposes is a loop on that part. -/
theorem forLoop_map {σ τ : Type} (φ : τ → σ) (g : Nat → τ → τ) (t : τ) (n : Nat)
    (f : Nat → σ → σ) (h : ∀ i, i < n → ∀ t, f i (φ t) = φ (g i t)) :
    forLoop n f (φ t) = φ (forLoop n g t) := by
  induction n with
  | zero => rfl
  | succ n ih =>
    rw [forLoop_succ, forLoop_succ, ih (fun i hi t => h i (Nat.lt_succ_of_lt hi) t),
      h n (Nat.lt_succ_self n)]

theorem forLoop_add {σ : Type} (a b : Nat) (body : Nat → σ → σ) (s : σ) :
    forLoop (a + b) body s = forLoop b (fun k => body (a + k)) (forLoop a body s) := by
  induction b with
  | zero => rfl
  | succ b ih => rw [← Nat.add_assoc, forLoop_succ, forLoop_succ, ih]

/-- Two nested loops are one loop over the flat index `t = j * m + k`. -/
theorem forLoop_nested {σ : Type} (n m : Nat) (body : Nat → Nat → σ → σ) (s : σ) :
    forLoop n (fun j s => forLoop m (fun k s => body j k s) s) s
      = forLoop (n * m) (fun t s => body (t / m) (t % m) s) s := by
  induction n with
  | zero => simp [forLoop]
  | succ n ih =>
    rw [forLoop_succ, ih, Nat.succ_mul, forLoop_add]
    apply forLoop_congr
    intro k hk s
    have hm : 0 < m := Nat.lt_of_le_of_lt (Nat.zero_le k) hk
    have h1 : (n * m + k) / m = n := by
      rw [Nat.add_comm, Nat.add_mul_div_right _ _ hm, Nat.div_eq_of_lt hk, Nat.zero_add]
    have h2 : (n * m + k) % m = k := by
      rw [Nat.add_comm, Nat.add_mul_mod_self_right, Nat.mod_eq_of_lt hk]
    rw [h1, h2]

/-! ## Buffer lemmas -/

section Buffers

variable {α : Type}

theorem length_wr (buf : List α) (i : Nat) (v : α) : (wr buf i v).length = buf.length := by
  simp [wr]

theorem rd_wr_same [Zero α] (buf : List α) (i : Nat) (v : α) (h : i < buf.length) :
    rd (wr buf i v) i = v := by
  simp [rd, wr, List.getD_eq_getElem?_getD, h]

theorem rd_wr_ne [Zero α] (buf : List α) (i j : Nat) (v : α) (h : i ≠ j) :
    rd (wr buf i v) j = rd buf j := by
  simp [rd, wr, List.getD_eq_getElem?_getD, List.getElem?_set_ne h]

theorem rd_eq_getElem [Zero α] (buf : List α) (i : Nat) (h : i < buf.length) : rd buf i = buf[i] := by
  simp [rd, List.getD_eq_getElem?_getD, h]

/-- Two buffers of one length that read the same everywhere are equal. -/
theorem buf_ext [Zero α] (a b : List α) (hl : a.length = b.length)
    (h : ∀ i, i < a.length → rd a i = rd b i) : a = b := by
  apply List.ext_getElem hl
  intro i h1 h2
  have := h i h1
  rwa [rd_eq_getElem a i h1, rd_eq_getElem b i h2] at this

/-- A loop that rewrites `buf[t]` from its old value, for `t = 0 .. n-1`, keeps the length. -/
theorem length_forLoop_wr (n : Nat) (g : Nat → List α → α) (b0 : List α) :
    (forLoop n (fun t b => wr b t (g t b)) b0).length = b0.length := by
  induction n with
  | zero => rfl
  | succ n ih => rw [forLoop_succ, length_wr, ih]

/-- A loop that rewrites `buf[t]` from its old value leaves the entries from `n` on alone. -/
theorem rd_forLoop_wr_ge [Zero α] (n : Nat) (g : Nat → List α → α) (b0 : List α) (m : Nat) (h : n ≤ m) :
    rd (forLoop n (fun t b => wr b t (g t b)) b0) m = rd b0 m := by
  induction n with
  | zero => rfl
  | succ n ih =>
    rw [forLoop_succ, rd_wr_ne _ _ _ _ (by omega), ih (by omega)]

/-- A loop storing `buf[t] = f t` for `t = 0 .. n-1`. -/
theorem rd_forLoop_wr_const [Zero α] (n : Nat) (f : Nat → α) (b0 : List α) (m : Nat)
    (hm : m < n) (hl : m < b0.length) :
    rd (forLoop n (fun t b => wr b t (f t)) b0) m = f m := by
  induction n with
  | zero => omega
  | succ n ih =>
    rw [forLoop_succ]
    by_cases h : m = n
    · subst h
      rw [rd_wr_same]
      rw [length_forLoop_wr m (fun t _ => f t)]; exact hl
    · rw [rd_wr_ne _ _ _ _ (by omega), ih (by omega)]

/-- A loop performing `buf[t] = g t buf[t]` for `t = 0 .. n-1`. -/
theorem rd_forLoop_wr_upd [Zero α] (n : Nat) (g : Nat → α → α) (b0 : List α) (m : Nat)
    (hm : m < n) (hl : m < b0.length) :
    rd (forLoop n (fun t b => wr b t (g t (rd b t))) b0) m = g m (rd b0 m) := by
  induction n with
  | zero => omega
  | succ n ih =>
    rw [forLoop_succ]
    by_cases h : m = n
    · subst h
      rw [rd_wr_same, rd_forLoop_wr_ge m (fun t b => g t (rd b t)) b0 m (Nat.le_refl m)]
      rw [length_forLoop_wr m (fun t b => g t (rd b t))]; exact hl
    · rw [rd_wr_ne _ _ _ _ (by omega), ih (by omega)]

/-- Running a loop of stores `buf[t] = f t` a second time changes nothing. -/
theorem forLoop_wr_const_idem [Zero α] (n : Nat) (f : Nat → α) (b0 : List α) :
    forLoop n (fun t b => wr b t (f t)) (forLoop n (fun t b => wr b t (f t)) b0)
      = forLoop n (fun t b => wr b t (f t)) b0 := by
  apply buf_ext
  · rw [length_forLoop_wr n (fun t _ => f t)]
  · intro i hi
    rw [length_forLoop_wr n (fun t _ => f t)] at hi
    by_cases h : i < n
    · rw [rd_forLoop_wr_const n f _ i h hi]
      rw [rd_forLoop_wr_const n f _ i h (by rwa [length_forLoop_wr n (fun t _ => f t)] at hi)]
    · rw [rd_forLoop_wr_ge n (fun t _ => f t) _ i (by omega)]

end Buffers

/-! ## The forward pass in closed form -/

section Forward

variable {α : Type} [Zero α] [One α] [Add α] [Mul α] [Div α] [Neg α]

/-- `network_predict` writes `hidden` and `output` and nothing else. -/
theorem network_predict_eq (exp : α → α) (nw : Network α) (input : List α) :
    network_predict exp nw input
      = { nw with hidden := predictHidden exp nw input, output := predictOutput exp nw input } := by
  unfold network_predict
  simp only []
  rw [forLoop_map (fun h : List α => ({ nw with hidden := h } : Network α))
    (fun j h => wr h j (sigmoid exp (hiddenSum nw input j))) nw.hidden]
  · exact forLoop_map
      (fun o : List α => ({ nw with hidden := predictHidden exp nw input, output := o } : Network α))
      (fun k o => wr o k (sigmoid exp (outputSum nw (predictHidden exp nw input) k)))
      nw.output _ _ (fun _ _ _ => rfl)
  · exact fun _ _ _ => rfl

@[simp] theorem predict_n_inputs (exp : α → α) (nw : Network α) (input : List α) :
    (network_predict exp nw input).n_inputs = nw.n_inputs := by rw [network_predict_eq]

@[simp] theorem predict_n_hidden (exp : α → α) (nw : Network α) (input : List α) :
    (network_predict exp nw input).n_hidden = nw.n_hidden := by rw [network_predict_eq]

@[simp] theorem predict_n_outputs (exp : α → α) (nw : Network α) (input : List α) :
    (network_predict exp nw input).n_outputs = nw.n_outputs := by rw [network_predict_eq]

@[simp] theorem predict_weights_hidden (exp : α → α) (nw : Network α) (input : List α) :
    (network_predict exp nw input).weights_hidden = nw.weights_hidden := by
  rw [network_predict_eq]

@[simp] theorem predict_biases_hidden (exp : α → α) (nw : Network α) (input : List α) :
    (network_predict exp nw input).biases_hidden = nw.biases_hidden := by
  rw [network_predict_eq]

@[simp] theorem predict_weights_output (exp : α → α) (nw : Network α) (input : List α) :
    (network_predict exp nw input).weights_output = nw.weights_output := by
  rw [network_predict_eq]

@[simp] theorem predict_biases_output (exp : α → α) (nw : Network α) (input : List α) :
    (network_predict exp nw input).biases_output = nw.biases_output := by
  rw [network_predict_eq]

/-- A second forward pass on the same input recomputes the same `hidden` buffer. -/
theorem predictHidden_again (exp : α → α) (nw : Network α) (input o : List α) :
    predictHidden exp { nw with hidden := predictHidden exp nw input, output := o } input
      = predictHidden exp nw input :=
  forLoop_wr_const_idem nw.n_hidden (fun j => sigmoid exp (hiddenSum nw input j)) nw.hidden

/-- A second forward pass on the same input recomputes the same `output` buffer. -/
theorem predictOutput_again (exp : α → α) (nw : Network α) (input : List α) :
    predictOutput exp
        { nw with hidden := predictHidden exp nw input, output := predictOutput exp nw input } input
      = predictOutput exp nw input := by
  unfold predictOutput
  rw [predictHidden_again]
  exact forLoop_wr_const_idem nw.n_outputs
    (fun k => sigmoid exp (outputSum nw (predictHidden exp nw input) k)) nw.output

/-- C3: `network_predict` leaves the shape fields and the four parameter buffers unchanged,
so that only `hidden` and `output` may differ afterwards, and calling it twice with the same
input yields the same `hidden` and `output` as calling it once. -/
theorem network_predict_frame (exp : α → α) (nw : Network α) (input : List α) :
    (network_predict exp nw input).n_inputs = nw.n_inputs ∧
    (network_predict exp nw input).n_hidden = nw.n_hidden ∧
    (network_predict exp nw input).n_outputs = nw.n_outputs ∧
    (network_predict exp nw input).weights_hidden = nw.weights_hidden ∧
    (network_predict exp nw input).biases_hidden = nw.biases_hidden ∧
    (network_predict exp nw input).weights_output = nw.weights_output ∧
    (network_predict exp nw input).biases_output = nw.biases_output ∧
    (network_predict exp (network_predict exp nw input) input).hidden
      = (network_predict exp nw input).hidden ∧
    (network_predict exp (network_predict exp nw input) input).output
      = (network_predict exp nw input).output := by
  refine ⟨?_, ?_, ?_, ?_, ?_, ?_, ?_, ?_, ?_⟩
  any_goals (rw [network_predict_eq])
  · rw [network_predict_eq]
    exact predictHidden_again exp nw input _
  · rw [network_predict_eq]
    exact predictOutput_again exp nw input

end Forward

/-! ## Index arithmetic -/

/-- A row-major index of an `a × b` matrix lies below `a * b`. -/
theorem flat_index_lt {a b i j : Nat} (hi : i < a) (hj : j < b) : i * b + j < a * b := by
  calc i * b + j < i * b + b := Nat.add_lt_add_left hj _
    _ = (i + 1) * b := (Nat.succ_mul i b).symm
    _ ≤ a * b := Nat.mul_le_mul_right b hi

/-- A row-major index of a matrix with fewer than `2 ^ 32` elements does not wrap. -/
theorem u32_flat_index {a b i j : Nat} (hab : a * b < 2 ^ 32) (hi : i < a) (hj : j < b) :
    u32 (i * b + j) = i * b + j :=
  Nat.mod_eq_of_lt (Nat.lt_trans (flat_index_lt hi hj) hab)

/-- An accumulation loop `sum += f i` from `0.0` is the sum of the terms. -/
theorem forLoop_sum {α : Type} [AddCommMonoid α] (n : Nat) (f : Nat → α) :
    forLoop n (fun i sum => sum + f i) 0 = ∑ i ∈ Finset.range n, f i := by
  induction n with
  | zero => rfl
  | succ n ih => rw [forLoop_succ, ih, Finset.sum_range_succ]

/-! ## The range of `sigmoid` in exact arithmetic

Over an ordered field, where no operation rounds, `sigmoid` stays strictly between 0 and 1
as long as `exp` returns a positive value, and it is exactly 1 where `exp` returns 0.  The
`exp` of `<math.h>` returns `0.0` for arguments below about `-745.2`, so the second case
occurs for finite parameters; that `1.0 + e` rounds to `1.0` for `e` below `2 ^ (-53)` is a
matter of rounding, which exact arithmetic does not show. -/

section PredictClaims

variable {α : Type} [Field α]

theorem hiddenSum_eq (nw : Network α) (input : List α) (hwf : nw.WF) (j : Nat)
    (hj : j < nw.n_hidden) :
    hiddenSum nw input j
      = (∑ i ∈ Finset.range nw.n_inputs, rd input i * rd nw.weights_hidden (i * nw.n_hidden + j))
        + rd nw.biases_hidden j := by
  unfold hiddenSum
  rw [forLoop_sum]
  congr 1
  apply Finset.sum_congr rfl
  intro i hi
  rw [u32_flat_index hwf.2.2.2.1 (Finset.mem_range.mp hi) hj]

theorem outputSum_eq (nw : Network α) (hid : List α) (hwf : nw.WF) (k : Nat)
    (hk : k < nw.n_outputs) :
    outputSum nw hid k
      = (∑ j ∈ Finset.range nw.n_hidden, rd hid j * rd nw.weights_output (j * nw.n_outputs + k))
        + rd nw.biases_output k := by
  unfold outputSum
  rw [forLoop_sum]
  congr 1
  apply Finset.sum_congr rfl
  intro j hj
  rw [u32_flat_index hwf.2.2.2.2.1 (Finset.mem_range.mp hj) hk]

/-- C1: for a network and an input of length `n_inputs`, `network_predict` sets
`hidden[j] = sigmoid(Σ_i input[i]·weights_hidden[i·n_hidden + j] + biases_hidden[j])` for
every `j < n_hidden`, then
`output[k] = sigmoid(Σ_j hidden[j]·weights_output[j·n_outputs + k] + biases_output[k])` for
every `k < n_outputs` with the fresh hidden activations, where
`sigmoid(x) = 1 / (1 + exp(-x))`. -/
theorem network_predict_spec (exp : α → α) (nw : Network α) (input : List α)
    (hwf : nw.WF) (hin : input.length = nw.n_inputs) :
    (∀ j, j < nw.n_hidden →
      rd (network_predict exp nw input).hidden j
        = sigmoid exp ((∑ i ∈ Finset.range nw.n_inputs,
            rd input i * rd nw.weights_hidden (i * nw.n_hidden + j)) + rd nw.biases_hidden j)) ∧
    (∀ k, k < nw.n_outputs →
      rd (network_predict exp nw input).output k
        = sigmoid exp ((∑ j ∈ Finset.range nw.n_hidden,
            rd (network_predict exp nw input).hidden j * rd nw.weights_output (j * nw.n_outputs + k))
            + rd nw.biases_output k)) ∧
    (∀ x, sigmoid exp x = 1 / (1 + exp (-x))) := by
  have _ := hin
  rw [network_predict_eq]
  refine ⟨?_, ?_, fun _ => rfl⟩
  · intro j hj
    show rd (predictHidden exp nw input) j = _
    unfold predictHidden
    rw [rd_forLoop_wr_const _ _ _ _ hj (by rw [hwf.2.2.2.2.2.2.2.2.2.1]; exact hj),
      hiddenSum_eq nw input hwf j hj]
  · intro k hk
    show rd (predictOutput exp nw input) k = _
    unfold predictOutput
    rw [rd_forLoop_wr_const _ _ _ _ hk (by rw [hwf.2.2.2.2.2.2.2.2.2.2]; exact hk),
      outputSum_eq nw _ hwf k hk]

end PredictClaims

/-! ## The loops of the training step -/

/-- The flat form of the momentum update: entry `t` gets the velocity
`momentum * v[t] + d t` and the weight `w[t] - (new velocity)`; later entries are untouched. -/
theorem momentum_flat {α : Type} [Zero α] [Add α] [Sub α] [Mul α] (n : Nat) (momentum : α) (d : Nat → α) (v0 w0 : List α) :
    let r := forLoop n (fun t (vw : List α × List α) =>
      (wr vw.1 t (momentum * rd vw.1 t + d t),
       wr vw.2 t (rd vw.2 t - rd (wr vw.1 t (momentum * rd vw.1 t + d t)) t))) (v0, w0)
    r.1.length = v0.length ∧ r.2.length = w0.length ∧
    (∀ m, m < n → m < v0.length → m < w0.length →
      rd r.1 m = momentum * rd v0 m + d m ∧ rd r.2 m = rd w0 m - rd r.1 m) ∧
    (∀ m, n ≤ m → rd r.1 m = rd v0 m ∧ rd r.2 m = rd w0 m) := by
  intro r
  refine forLoop_inv (fun n (r : List α × List α) =>
    r.1.length = v0.length ∧ r.2.length = w0.length ∧
    (∀ m, m < n → m < v0.length → m < w0.length →
      rd r.1 m = momentum * rd v0 m + d m ∧ rd r.2 m = rd w0 m - rd r.1 m) ∧
    (∀ m, n ≤ m → rd r.1 m = rd v0 m ∧ rd r.2 m = rd w0 m)) n _ (v0, w0) ?_ ?_
  · exact ⟨rfl, rfl, fun m hm => absurd hm (Nat.not_lt_zero m), fun m _ => ⟨rfl, rfl⟩⟩
  · rintro t _ ⟨v, w⟩ ⟨hv, hw, hlt, hge⟩
    simp only at hv hw hlt hge ⊢
    have hvt : ∀ m, m < v0.length → m < v.length := fun m h => by rw [hv]; exact h
    have hwt : ∀ m, m < w0.length → m < w.length := fun m h => by rw [hw]; exact h
    refine ⟨by rw [length_wr, hv], by rw [length_wr, hw], ?_, ?_⟩
    · intro m hm hmv hmw
      by_cases h : m = t
      · subst h
        have h2 := hge m (Nat.le_refl m)
        rw [rd_wr_same _ _ _ (hvt m hmv), rd_wr_same _ _ _ (hwt m hmw), h2.1, h2.2]
        exact ⟨rfl, rfl⟩
      · rw [rd_wr_ne _ _ _ _ (Ne.symm h), rd_wr_ne _ _ _ _ (Ne.symm h)]
        exact hlt m (by omega) hmv hmw
    · intro m hm
      rw [rd_wr_ne _ _ _ _ (by omega), rd_wr_ne _ _ _ _ (by omega)]
      exact hge m (by omega)

/-- The momentum update of a matrix whose element count fits a `uint32_t`: entry `(r, c)`
gets the velocity `momentum * v[r,c] + delta r c` and the weight `w[r,c] - (new velocity)`. -/
theorem trainMomentum_spec {α : Type} [Zero α] [Add α] [Sub α] [Mul α] (rows cols : Nat) (momentum : α) (delta : Nat → Nat → α)
    (v0 w0 : List α) (hsz : rows * cols < 2 ^ 32)
    (hv : v0.length = rows * cols) (hw : w0.length = rows * cols)
    (r c : Nat) (hr : r < rows) (hc : c < cols) :
    rd (trainMomentum rows cols momentum delta (v0, w0)).1 (r * cols + c)
        = momentum * rd v0 (r * cols + c) + delta r c ∧
    rd (trainMomentum rows cols momentum delta (v0, w0)).2 (r * cols + c)
        = rd w0 (r * cols + c)
          - rd (trainMomentum rows cols momentum delta (v0, w0)).1 (r * cols + c) := by
  have hflat : trainMomentum rows cols momentum delta (v0, w0)
      = forLoop (rows * cols) (fun t (vw : List α × List α) =>
          (wr vw.1 t (momentum * rd vw.1 t + delta (t / cols) (t % cols)),
           wr vw.2 t (rd vw.2 t
             - rd (wr vw.1 t (momentum * rd vw.1 t + delta (t / cols) (t % cols))) t))) (v0, w0) := by
    unfold trainMomentum
    rw [forLoop_nested rows cols (fun r c (vw : List α × List α) =>
      (wr vw.1 (u32 (r * cols + c)) (momentum * rd vw.1 (u32 (r * cols + c)) + delta r c),
       wr vw.2 (u32 (r * cols + c)) (rd vw.2 (u32 (r * cols + c))
         - rd (wr vw.1 (u32 (r * cols + c))
             (momentum * rd vw.1 (u32 (r * cols + c)) + delta r c)) (u32 (r * cols + c)))))]
    apply forLoop_congr
    intro t ht vw
    have hidx : u32 (t / cols * cols + t % cols) = t := by
      rw [Nat.div_add_mod' t cols]
      exact Nat.mod_eq_of_lt (Nat.lt_trans ht hsz)
    simp only [hidx]
  have hlt : r * cols + c < rows * cols := flat_index_lt hr hc
  have hdiv : (r * cols + c) / cols = r := by
    rw [Nat.add_comm, Nat.add_mul_div_right _ _ (Nat.lt_of_le_of_lt (Nat.zero_le c) hc),
      Nat.div_eq_of_lt hc, Nat.zero_add]
  have hmod : (r * cols + c) % cols = c := by
    rw [Nat.add_comm, Nat.add_mul_mod_self_right, Nat.mod_eq_of_lt hc]
  have h := (momentum_flat (rows * cols) momentum (fun t => delta (t / cols) (t % cols)) v0 w0).2.2.1
    (r * cols + c) hlt (by rw [hv]; exact hlt) (by rw [hw]; exact hlt)
  simp only [hdiv, hmod] at h
  rw [hflat]
  exact h

theorem rd_trainGradOutput {α : Type} [Zero α] [One α] [Sub α] [Mul α] (p : Network α) (y g0 : List α) (k : Nat)
    (hk : k < p.n_outputs) (hl : k < g0.length) :
    rd (trainGradOutput p y g0) k = (rd p.output k - rd y k) * sigmoid_prim (rd p.output k) :=
  rd_forLoop_wr_const _ _ _ _ hk hl

theorem rd_trainGradHidden {α : Type} [Zero α] [One α] [Add α] [Sub α] [Mul α] (p : Network α) (go g0 : List α) (j : Nat)
    (hj : j < p.n_hidden) (hl : j < g0.length) :
    rd (trainGradHidden p go g0) j
      = forLoop p.n_outputs (fun k sum =>
          sum + rd go k * rd p.weights_output (u32 (j * p.n_outputs + k))) 0
        * sigmoid_prim (rd p.hidden j) :=
  rd_forLoop_wr_const _ _ _ _ hj hl

theorem rd_trainBias {α : Type} [Zero α] [Sub α] [Mul α] (n : Nat) (lr : α) (g b0 : List α) (t : Nat) (ht : t < n)
    (hl : t < b0.length) : rd (trainBias n lr g b0) t = rd b0 t - lr * rd g t :=
  rd_forLoop_wr_upd n (fun t b => b - lr * rd g t) b0 t ht hl

/-- The gradient buffers after a training step do not depend on what they held before. -/
theorem trainGradOutput_indep {α : Type} [Zero α] [One α] [Sub α] [Mul α] (p : Network α) (y g0 g1 : List α)
    (h0 : g0.length = p.n_outputs) (h1 : g1.length = p.n_outputs) :
    trainGradOutput p y g0 = trainGradOutput p y g1 := by
  have l0 : (trainGradOutput p y g0).length = p.n_outputs := by
    unfold trainGradOutput; rw [length_forLoop_wr p.n_outputs (fun k _ => _), h0]
  have l1 : (trainGradOutput p y g1).length = p.n_outputs := by
    unfold trainGradOutput; rw [length_forLoop_wr p.n_outputs (fun k _ => _), h1]
  apply buf_ext _ _ (by rw [l0, l1])
  intro i hi
  rw [l0] at hi
  rw [rd_trainGradOutput p y g0 i hi (by rw [h0]; exact hi),
    rd_trainGradOutput p y g1 i hi (by rw [h1]; exact hi)]

theorem trainGradHidden_indep {α : Type} [Zero α] [One α] [Add α] [Sub α] [Mul α] (p : Network α) (go g0 g1 : List α)
    (h0 : g0.length = p.n_hidden) (h1 : g1.length = p.n_hidden) :
    trainGradHidden p go g0 = trainGradHidden p go g1 := by
  have l0 : (trainGradHidden p go g0).length = p.n_hidden := by
    unfold trainGradHidden; rw [length_forLoop_wr p.n_hidden (fun j _ => _), h0]
  have l1 : (trainGradHidden p go g1).length = p.n_hidden := by
    unfold trainGradHidden; rw [length_forLoop_wr p.n_hidden (fun j _ => _), h1]
  apply buf_ext _ _ (by rw [l0, l1])
  intro i hi
  rw [l0] at hi
  rw [rd_trainGradHidden p go g0 i hi (by rw [h0]; exact hi),
    rd_trainGradHidden p go g1 i hi (by rw [h1]; exact hi)]

/-! ## The training step in closed form -/

section Backward

variable {α : Type} [Zero α] [One α] [Add α] [Sub α] [Mul α] [Div α] [Neg α]

/-- `trainer_train`, buffer by buffer. -/
theorem trainer_train_eq (exp : α → α) (tr : Trainer α) (nw : Network α)
    (input y : List α) (lr momentum : α) :
    trainer_train exp tr nw input y lr momentum =
      (let p := network_predict exp nw input
       let go := trainGradOutput p y tr.grad_output
       let gh := trainGradHidden p go tr.grad_hidden
       let vwo := trainMomentum p.n_hidden p.n_outputs momentum
         (fun j k => lr * rd go k * rd p.hidden j) (tr.velocity_output, p.weights_output)
       let vwh := trainMomentum p.n_inputs p.n_hidden momentum
         (fun i j => lr * rd gh j * rd input i) (tr.velocity_hidden, p.weights_hidden)
       ({ grad_hidden := gh, grad_output := go,
          velocity_hidden := vwh.1, velocity_output := vwo.1 },
        { p with weights_hidden := vwh.2, biases_hidden := trainBias p.n_hidden lr gh p.biases_hidden,
                 weights_output := vwo.2, biases_output := trainBias p.n_outputs lr go p.biases_output })) := by
  unfold trainer_train trainGradOutput trainGradHidden trainMomentum trainBias
  simp only []
  generalize network_predict exp nw input = p
  -- output gradient
  rw [forLoop_map (fun g : List α => ({ tr with grad_output := g } : Trainer α))
    (fun k g => wr g k ((rd p.output k - rd y k) * sigmoid_prim (rd p.output k)))
    tr.grad_output p.n_outputs _ (fun _ _ _ => rfl)]
  generalize forLoop p.n_outputs
    (fun k g => wr g k ((rd p.output k - rd y k) * sigmoid_prim (rd p.output k))) tr.grad_output = go
  -- hidden gradient
  rw [forLoop_map
    (fun g : List α => ({ tr with grad_output := go, grad_hidden := g } : Trainer α))
    (fun j g => wr g j (forLoop p.n_outputs (fun k sum =>
        sum + rd go k * rd p.weights_output (u32 (j * p.n_outputs + k))) 0
      * sigmoid_prim (rd p.hidden j)))
    tr.grad_hidden p.n_hidden _ (fun _ _ _ => rfl)]
  generalize forLoop p.n_hidden (fun j g => wr g j (forLoop p.n_outputs (fun k sum =>
        sum + rd go k * rd p.weights_output (u32 (j * p.n_outputs + k))) 0
      * sigmoid_prim (rd p.hidden j))) tr.grad_hidden = gh
  -- output weights
  rw [forLoop_map
    (fun vw : List α × List α =>
      (({ tr with grad_output := go, grad_hidden := gh, velocity_output := vw.1 } : Trainer α),
       ({ p with weights_output := vw.2 } : Network α)))
    (fun j vw => forLoop p.n_outputs (fun k vw =>
      (wr vw.1 (u32 (j * p.n_outputs + k))
          (momentum * rd vw.1 (u32 (j * p.n_outputs + k)) + lr * rd go k * rd p.hidden j),
        wr vw.2 (u32 (j * p.n_outputs + k))
          (rd vw.2 (u32 (j * p.n_outputs + k))
            - rd (wr vw.1 (u32 (j * p.n_outputs + k))
                (momentum * rd vw.1 (u32 (j * p.n_outputs + k)) + lr * rd go k * rd p.hidden j))
              (u32 (j * p.n_outputs + k))))) vw)
    (tr.velocity_output, p.weights_output) p.n_hidden]
  swap
  · intro j _ t
    refine forLoop_map
      (fun vw : List α × List α =>
        (({ tr with grad_output := go, grad_hidden := gh, velocity_output := vw.1 } : Trainer α),
         ({ p with weights_output := vw.2 } : Network α)))
      (fun k vw =>
      (wr vw.1 (u32 (j * p.n_outputs + k))
          (momentum * rd vw.1 (u32 (j * p.n_outputs + k)) + lr * rd go k * rd p.hidden j),
        wr vw.2 (u32 (j * p.n_outputs + k))
          (rd vw.2 (u32 (j * p.n_outputs + k))
            - rd (wr vw.1 (u32 (j * p.n_outputs + k))
                (momentum * rd vw.1 (u32 (j * p.n_outputs + k)) + lr * rd go k * rd p.hidden j))
              (u32 (j * p.n_outputs + k))))) t p.n_outputs _ ?_
    exact fun _ _ _ => rfl
  generalize forLoop p.n_hidden
    (fun j vw => forLoop p.n_outputs (fun k vw =>
      (wr vw.1 (u32 (j * p.n_outputs + k))
          (momentum * rd vw.1 (u32 (j * p.n_outputs + k)) + lr * rd go k * rd p.hidden j),
        wr vw.2 (u32 (j * p.n_outputs + k))
          (rd vw.2 (u32 (j * p.n_outputs + k))
            - rd (wr vw.1 (u32 (j * p.n_outputs + k))
                (momentum * rd vw.1 (u32 (j * p.n_outputs + k)) + lr * rd go k * rd p.hidden j))
              (u32 (j * p.n_outputs + k))))) vw)
    (tr.velocity_output, p.weights_output) = vwo
  -- output biases
  rw [forLoop_map
    (fun b : List α => ({ p with weights_output := vwo.2, biases_output := b } : Network α))
    (fun k b => wr b k (rd b k - lr * rd go k)) p.biases_output p.n_outputs _ (fun _ _ _ => rfl)]
  generalize forLoop p.n_outputs (fun k b => wr b k (rd b k - lr * rd go k)) p.biases_output = bo
  -- hidden weights
  rw [forLoop_map
    (fun vw : List α × List α =>
      (({ grad_hidden := gh, grad_output := go, velocity_hidden := vw.1,
          velocity_output := vwo.1 } : Trainer α),
       ({ p with weights_output := vwo.2, biases_output := bo, weights_hidden := vw.2 } : Network α)))
    (fun i vw => forLoop p.n_hidden (fun j vw =>
      (wr vw.1 (u32 (i * p.n_hidden + j))
          (momentum * rd vw.1 (u32 (i * p.n_hidden + j)) + lr * rd gh j * rd input i),
        wr vw.2 (u32 (i * p.n_hidden + j))
          (rd vw.2 (u32 (i * p.n_hidden + j))
            - rd (wr vw.1 (u32 (i * p.n_hidden + j))
                (momentum * rd vw.1 (u32 (i * p.n_hidden + j)) + lr * rd gh j * rd input i))
              (u32 (i * p.n_hidden + j))))) vw)
    (tr.velocity_hidden, p.weights_hidden) p.n_inputs]
  swap
  · intro i _ t
    refine forLoop_map
      (fun vw : List α × List α =>
      (({ grad_hidden := gh, grad_output := go, velocity_hidden := vw.1,
          velocity_output := vwo.1 } : Trainer α),
       ({ p with weights_output := vwo.2, biases_output := bo, weights_hidden := vw.2 } : Network α)))
      (fun j vw =>
      (wr vw.1 (u32 (i * p.n_hidden + j))
          (momentum * rd vw.1 (u32 (i * p.n_hidden + j)) + lr * rd gh j * rd input i),
        wr vw.2 (u32 (i * p.n_hidden + j))
          (rd vw.2 (u32 (i * p.n_hidden + j))
            - rd (wr vw.1 (u32 (i * p.n_hidden + j))
                (momentum * rd vw.1 (u32 (i * p.n_hidden + j)) + lr * rd gh j * rd input i))
              (u32 (i * p.n_hidden + j))))) t p.n_hidden _ ?_
    exact fun _ _ _ => rfl
  generalize forLoop p.n_inputs
    (fun i vw => forLoop p.n_hidden (fun j vw =>
      (wr vw.1 (u32 (i * p.n_hidden + j))
          (momentum * rd vw.1 (u32 (i * p.n_hidden + j)) + lr * rd gh j * rd input i),
        wr vw.2 (u32 (i * p.n_hidden + j))
          (rd vw.2 (u32 (i * p.n_hidden + j))
            - rd (wr vw.1 (u32 (i * p.n_hidden + j))
                (momentum * rd vw.1 (u32 (i * p.n_hidden + j)) + lr * rd gh j * rd input i))
              (u32 (i * p.n_hidden + j))))) vw)
    (tr.velocity_hidden, p.weights_hidden) = vwh
  -- hidden biases
  rw [forLoop_map
    (fun b : List α => ({ p with
        weights_output := vwo.2, biases_output := bo, weights_hidden := vwh.2, biases_hidden := b } : Network α))
    (fun j b => wr b j (rd b j - lr * rd gh j)) p.biases_hidden p.n_hidden _ (fun _ _ _ => rfl)]

/-! ### What one training step stores, entry by entry

These statements use no law of arithmetic: they hold for every interpretation of the
operations on `double`, with the operations applied in the order of the source. -/

theorem train_grad_output (exp : α → α) (tr : Trainer α) (nw : Network α)
    (input y : List α) (lr momentum : α) (htr : tr.WF nw) (k : Nat) (hk : k < nw.n_outputs) :
    rd (trainer_train exp tr nw input y lr momentum).1.grad_output k
      = (rd (network_predict exp nw input).output k - rd y k)
        * sigmoid_prim (rd (network_predict exp nw input).output k) := by
  rw [trainer_train_eq]
  exact rd_trainGradOutput _ _ _ k (by rw [predict_n_outputs]; exact hk)
    (by rw [htr.2.1]; exact hk)

theorem train_grad_hidden (exp : α → α) (tr : Trainer α) (nw : Network α)
    (input y : List α) (lr momentum : α) (htr : tr.WF nw) (j : Nat) (hj : j < nw.n_hidden) :
    rd (trainer_train exp tr nw input y lr momentum).1.grad_hidden j
      = forLoop nw.n_outputs (fun k sum =>
          sum + rd (trainer_train exp tr nw input y lr momentum).1.grad_output k
            * rd nw.weights_output (u32 (j * nw.n_outputs + k))) 0
        * sigmoid_prim (rd (network_predict exp nw input).hidden j) := by
  rw [trainer_train_eq]
  simp only []
  rw [rd_trainGradHidden _ _ _ j (by rw [predict_n_hidden]; exact hj) (by rw [htr.1]; exact hj)]
  simp only [predict_n_outputs, predict_weights_output]

theorem train_output_weights (exp : α → α) (tr : Trainer α) (nw : Network α)
    (input y : List α) (lr momentum : α) (hwf : nw.WF) (htr : tr.WF nw)
    (j k : Nat) (hj : j < nw.n_hidden) (hk : k < nw.n_outputs) :
    rd (trainer_train exp tr nw input y lr momentum).1.velocity_output (j * nw.n_outputs + k)
      = momentum * rd tr.velocity_output (j * nw.n_outputs + k)
        + lr * rd (trainer_train exp tr nw input y lr momentum).1.grad_output k
          * rd (network_predict exp nw input).hidden j ∧
    rd (trainer_train exp tr nw input y lr momentum).2.weights_output (j * nw.n_outputs + k)
      = rd nw.weights_output (j * nw.n_outputs + k)
        - rd (trainer_train exp tr nw input y lr momentum).1.velocity_output
            (j * nw.n_outputs + k) := by
  obtain ⟨_, _, _, _, hho, _, _, hwo, _, _, _⟩ := hwf
  obtain ⟨_, _, _, hvo⟩ := htr
  rw [trainer_train_eq]
  simp only [predict_n_hidden, predict_n_outputs, predict_weights_output]
  exact trainMomentum_spec nw.n_hidden nw.n_outputs momentum _ tr.velocity_output
    nw.weights_output hho hvo hwo j k hj hk

theorem train_hidden_weights (exp : α → α) (tr : Trainer α) (nw : Network α)
    (input y : List α) (lr momentum : α) (hwf : nw.WF) (htr : tr.WF nw)
    (i j : Nat) (hi : i < nw.n_inputs) (hj : j < nw.n_hidden) :
    rd (trainer_train exp tr nw input y lr momentum).1.velocity_hidden (i * nw.n_hidden + j)
      = momentum * rd tr.velocity_hidden (i * nw.n_hidden + j)
        + lr * rd (trainer_train exp tr nw input y lr momentum).1.grad_hidden j * rd input i ∧
    rd (trainer_train exp tr nw input y lr momentum).2.weights_hidden (i * nw.n_hidden + j)
      = rd nw.weights_hidden (i * nw.n_hidden + j)
        - rd (trainer_train exp tr nw input y lr momentum).1.velocity_hidden
            (i * nw.n_hidden + j) := by
  obtain ⟨_, _, _, hih, _, hwh, _, _, _, _, _⟩ := hwf
  obtain ⟨_, _, hvh, _⟩ := htr
  rw [trainer_train_eq]
  simp only [predict_n_inputs, predict_n_hidden, predict_weights_hidden]
  exact trainMomentum_spec nw.n_inputs nw.n_hidden momentum _ tr.velocity_hidden
    nw.weights_hidden hih hvh hwh i j hi hj

theorem train_biases_output (exp : α → α) (tr : Trainer α) (nw : Network α)
    (input y : List α) (lr momentum : α) (hwf : nw.WF) (k : Nat) (hk : k < nw.n_outputs) :
    rd (trainer_train exp tr nw input y lr momentum).2.biases_output k
      = rd nw.biases_output k
        - lr * rd (trainer_train exp tr nw input y lr momentum).1.grad_output k := by
  rw [trainer_train_eq]
  simp only [predict_n_outputs, predict_biases_output]
  exact rd_trainBias _ _ _ _ k hk (by rw [hwf.2.2.2.2.2.2.2.2.1]; exact hk)

theorem train_biases_hidden (exp : α → α) (tr : Trainer α) (nw : Network α)
    (input y : List α) (lr momentum : α) (hwf : nw.WF) (j : Nat) (hj : j < nw.n_hidden) :
    rd (trainer_train exp tr nw input y lr momentum).2.biases_hidden j
      = rd nw.biases_hidden j
        - lr * rd (trainer_train exp tr nw input y lr momentum).1.grad_hidden j := by
  rw [trainer_train_eq]
  simp only [predict_n_hidden, predict_biases_hidden]
  exact rd_trainBias _ _ _ _ j hj (by rw [hwf.2.2.2.2.2.2.1]; exact hj)

/-- The biases after a training step are the same for every momentum and every trainer
whose buffers fit the network. -/
theorem train_biases_indep (exp : α → α) (tr tr' : Trainer α) (nw : Network α)
    (input y : List α) (lr momentum momentum' : α) (htr : tr.WF nw) (htr' : tr'.WF nw) :
    (trainer_train exp tr nw input y lr momentum).2.biases_output
      = (trainer_train exp tr' nw input y lr momentum').2.biases_output ∧
    (trainer_train exp tr nw input y lr momentum).2.biases_hidden
      = (trainer_train exp tr' nw input y lr momentum').2.biases_hidden := by
  rw [trainer_train_eq, trainer_train_eq]
  simp only []
  have hgo : trainGradOutput (network_predict exp nw input) y tr.grad_output
      = trainGradOutput (network_predict exp nw input) y tr'.grad_output :=
    trainGradOutput_indep _ _ _ _ (by rw [predict_n_outputs]; exact htr.2.1)
      (by rw [predict_n_outputs]; exact htr'.2.1)
  rw [hgo]
  have hgh : trainGradHidden (network_predict exp nw input)
        (trainGradOutput (network_predict exp nw input) y tr'.grad_output) tr.grad_hidden
      = trainGradHidden (network_predict exp nw input)
        (trainGradOutput (network_predict exp nw input) y tr'.grad_output) tr'.grad_hidden :=
    trainGradHidden_indep _ _ _ _ (by rw [predict_n_hidden]; exact htr.1)
      (by rw [predict_n_hidden]; exact htr'.1)
  rw [hgh]
  exact ⟨rfl, rfl⟩

/-- C6: one `trainer_train` call changes the biases by exactly
`biases_output[k] -= lr·grad_output[k]` and `biases_hidden[j] -= lr·grad_hidden[j]`, with no
momentum: the biases after the call are the same for every value of the momentum argument
and every prior content of the trainer's buffers.  No law of arithmetic is used. -/
theorem trainer_train_biases (exp : α → α) (tr : Trainer α) (nw : Network α)
    (input y : List α) (lr momentum : α)
    (hwf : nw.WF) (htr : tr.WF nw)
    (hin : input.length = nw.n_inputs) (hy : y.length = nw.n_outputs) :
    (∀ k, k < nw.n_outputs →
      rd (trainer_train exp tr nw input y lr momentum).2.biases_output k
        = rd nw.biases_output k
          - lr * rd (trainer_train exp tr nw input y lr momentum).1.grad_output k) ∧
    (∀ j, j < nw.n_hidden →
      rd (trainer_train exp tr nw input y lr momentum).2.biases_hidden j
        = rd nw.biases_hidden j
          - lr * rd (trainer_train exp tr nw input y lr momentum).1.grad_hidden j) ∧
    (∀ (tr' : Trainer α) (momentum' : α), tr'.WF nw →
      (trainer_train exp tr' nw input y lr momentum').2.biases_output
        = (trainer_train exp tr nw input y lr momentum).2.biases_output ∧
      (trainer_train exp tr' nw input y lr momentum').2.biases_hidden
        = (trainer_train exp tr nw input y lr momentum).2.biases_hidden) := by
  have _ := hin
  have _ := hy
  exact ⟨fun k hk => train_biases_output exp tr nw input y lr momentum hwf k hk,
    fun j hj => train_biases_hidden exp tr nw input y lr momentum hwf j hj,
    fun tr' momentum' htr' => train_biases_indep exp tr' tr nw input y lr momentum' momentum htr' htr⟩

end Backward

/-! ## Claims about `trainer_train` -/

section TrainClaims

variable {α : Type} [Field α]

/-- C4: one `trainer_train` call sets `grad_output[k] = (o[k] - target[k])·o[k]·(1 - o[k])`,
`velocity_output[j,k] = momentum·(old velocity_output[j,k]) + lr·grad_output[k]·h[j]` and
`weights_output[j,k] = (old weights_output[j,k]) - (new velocity_output[j,k])` for every
`j < n_hidden`, `k < n_outputs`, where `h`, `o` are the activations `network_predict`
computes on the input from the parameters held before the call. -/
theorem trainer_train_output_layer (exp : α → α) (tr : Trainer α) (nw : Network α)
    (input y : List α) (lr momentum : α)
    (hwf : nw.WF) (htr : tr.WF nw)
    (hin : input.length = nw.n_inputs) (hy : y.length = nw.n_outputs) :
    (∀ k, k < nw.n_outputs →
      rd (trainer_train exp tr nw input y lr momentum).1.grad_output k
        = (rd (network_predict exp nw input).output k - rd y k)
          * rd (network_predict exp nw input).output k
          * (1 - rd (network_predict exp nw input).output k)) ∧
    (∀ j k, j < nw.n_hidden → k < nw.n_outputs →
      rd (trainer_train exp tr nw input y lr momentum).1.velocity_output (j * nw.n_outputs + k)
        = momentum * rd tr.velocity_output (j * nw.n_outputs + k)
          + lr * rd (trainer_train exp tr nw input y lr momentum).1.grad_output k
            * rd (network_predict exp nw input).hidden j ∧
      rd (trainer_train exp tr nw input y lr momentum).2.weights_output (j * nw.n_outputs + k)
        = rd nw.weights_output (j * nw.n_outputs + k)
          - rd (trainer_train exp tr nw input y lr momentum).1.velocity_output
              (j * nw.n_outputs + k)) := by
  have _ := hin
  have _ := hy
  refine ⟨?_, ?_⟩
  · intro k hk
    rw [train_grad_output exp tr nw input y lr momentum htr k hk]
    unfold sigmoid_prim
    ring
  · intro j k hj hk
    exact train_output_weights exp tr nw input y lr momentum hwf htr j k hj hk

/-- C5: one `trainer_train` call sets
`grad_hidden[j] = (Σ_k grad_output[k]·W[j,k])·h[j]·(1 - h[j])` with `W` the output weights
held before the call, `velocity_hidden[i,j] = momentum·(old velocity_hidden[i,j])
+ lr·grad_hidden[j]·input[i]` with the caller's input, and
`weights_hidden[i,j] = (old weights_hidden[i,j]) - (new velocity_hidden[i,j])`, for every
`i < n_inputs`, `j < n_hidden`. -/
theorem trainer_train_hidden_layer (exp : α → α) (tr : Trainer α) (nw : Network α)
    (input y : List α) (lr momentum : α)
    (hwf : nw.WF) (htr : tr.WF nw)
    (hin : input.length = nw.n_inputs) (hy : y.length = nw.n_outputs) :
    (∀ j, j < nw.n_hidden →
      rd (trainer_train exp tr nw input y lr momentum).1.grad_hidden j
        = (∑ k ∈ Finset.range nw.n_outputs,
            rd (trainer_train exp tr nw input y lr momentum).1.grad_output k
              * rd nw.weights_output (j * nw.n_outputs + k))
          * rd (network_predict exp nw input).hidden j
          * (1 - rd (network_predict exp nw input).hidden j)) ∧
    (∀ i j, i < nw.n_inputs → j < nw.n_hidden →
      rd (trainer_train exp tr nw input y lr momentum).1.velocity_hidden (i * nw.n_hidden + j)
        = momentum * rd tr.velocity_hidden (i * nw.n_hidden + j)
          + lr * rd (trainer_train exp tr nw input y lr momentum).1.grad_hidden j * rd input i ∧
      rd (trainer_train exp tr nw input y lr momentum).2.weights_hidden (i * nw.n_hidden + j)
        = rd nw.weights_hidden (i * nw.n_hidden + j)
          - rd (trainer_train exp tr nw input y lr momentum).1.velocity_hidden
              (i * nw.n_hidden + j)) := by
  have _ := hin
  have _ := hy
  refine ⟨?_, ?_⟩
  · intro j hj
    rw [train_grad_hidden exp tr nw input y lr momentum htr j hj, forLoop_sum]
    have hs : ∑ k ∈ Finset.range nw.n_outputs,
          rd (trainer_train exp tr nw input y lr momentum).1.grad_output k
            * rd nw.weights_output (u32 (j * nw.n_outputs + k))
        = ∑ k ∈ Finset.range nw.n_outputs,
          rd (trainer_train exp tr nw input y lr momentum).1.grad_output k
            * rd nw.weights_output (j * nw.n_outputs + k) := by
      apply Finset.sum_congr rfl
      intro k hk
      rw [u32_flat_index hwf.2.2.2.2.1 hj (Finset.mem_range.mp hk)]
    rw [hs]
    unfold sigmoid_prim
    ring
  · intro i j hi hj
    exact train_hidden_weights exp tr nw input y lr momentum hwf htr i j hi hj

end TrainClaims

/-! ## Momentum zero

The step with `momentum = 0` is stated for any interpretation of the `double` operations in
which `0 + d = d` and `0 · v = 0` for the velocities `v` the trainer holds.  Both hold in a
field, and on IEEE 754 doubles for every finite `v`; they fail for an infinite or NaN `v`,
where `0 · v` is NaN. -/

section ZeroMomentum

variable {α : Type} [Zero α] [One α] [Add α] [Sub α] [Mul α] [Div α] [Neg α]

/-! ### Arithmetic on the extended rationals -/

end ZeroMomentum

/-! ## Checkpoint lemmas -/

section Checkpoint

theorem length_le32 (n : Nat) : (le32 n).length = 4 := rfl

/-- Storing a `uint32_t` and reading it back gives the value. -/
theorem de32_le32 (n : Nat) (h : n < 2 ^ 32) : de32 (le32 n) = n := by
  simp only [de32, le32, List.getD_cons_zero, List.getD_cons_succ]
  omega

variable {α : Type} [DoubleRep α]

theorem length_encodeArr (xs : List α) : (encodeArr xs).length = 8 * xs.length := by
  induction xs with
  | nil => rfl
  | cons x xs ih =>
    rw [encodeArr, List.length_append, DoubleRep.toBytes_length, ih, List.length_cons]
    omega

/-- The bytes of an array hold that array. -/
theorem decodeArr_encodeArr (xs : List α) (n : Nat) (h : n = xs.length) :
    decodeArr n (encodeArr xs) = xs := by
  subst h
  induction xs with
  | nil => rfl
  | cons x xs ih =>
    rw [encodeArr, List.length_cons, decodeArr,
      List.take_left' (DoubleRep.toBytes_length x), List.drop_left' (DoubleRep.toBytes_length x),
      DoubleRep.ofBytes_toBytes, ih]

/-- Writing a whole object appends all its bytes. -/
theorem fwrite_all (object : List Byte) (size count : Nat) (stream : List Byte)
    (h : object.length = size * count) : fwrite object size count stream = stream ++ object := by
  rw [fwrite, ← h, List.take_length]

/-- Reading a whole object from a stream that still holds enough bytes replaces the object
by the next bytes of the stream. -/
theorem fread_all (object bytes rest : List Byte) (size count : Nat)
    (ho : object.length = size * count) (hb : bytes.length = size * count) :
    fread object size count (bytes ++ rest) = (bytes, rest) := by
  simp only [fread]
  rw [List.take_left' hb, List.drop_left' hb, hb, ← ho, List.drop_length, List.append_nil,
    ho, ← hb, List.take_length]

/-- A well-formed network has the buffers `network_init` allocates. -/
theorem Network.WF.allocated {α : Type} {nw : Network α} (h : nw.WF) : nw.Allocated := by
  obtain ⟨hi, hh, ho, hih, hho, hwh, hbh, hwo, hbo, hhd, hout⟩ := h
  exact ⟨hi, hh, ho, by rw [hwh, u32, Nat.mod_eq_of_lt hih], hbh,
    by rw [hwo, u32, Nat.mod_eq_of_lt hho], hbo, hhd, hout⟩

/-- The record `network_save` writes for a network with allocated buffers. -/
theorem network_save_bytes (nw : Network α) (file : Option (List Byte)) (hal : nw.Allocated) :
    network_save nw true file
      = (some (le32 nw.n_inputs ++ (le32 nw.n_hidden ++ (le32 nw.n_outputs
          ++ (encodeArr nw.weights_hidden ++ (encodeArr nw.biases_hidden
          ++ (encodeArr nw.weights_output ++ encodeArr nw.biases_output)))))), []) := by
  obtain ⟨_, _, _, hwh, hbh, hwo, hbo, _, _⟩ := hal
  simp only [network_save, Bool.not_true, Bool.false_eq_true, if_false]
  rw [fwrite_all (le32 nw.n_inputs) 4 1 _ rfl, fwrite_all (le32 nw.n_hidden) 4 1 _ rfl,
    fwrite_all (le32 nw.n_outputs) 4 1 _ rfl,
    fwrite_all (encodeArr nw.weights_hidden) 8 _ _ (by rw [length_encodeArr, hwh]),
    fwrite_all (encodeArr nw.biases_hidden) 8 _ _ (by rw [length_encodeArr, hbh]),
    fwrite_all (encodeArr nw.weights_output) 8 _ _ (by rw [length_encodeArr, hwo]),
    fwrite_all (encodeArr nw.biases_output) 8 _ _ (by rw [length_encodeArr, hbo])]
  simp only [List.nil_append, List.append_assoc]

/-- Loading a complete record of the network's own shape succeeds and installs the four
arrays of the record. -/
theorem network_load_record (nw : Network α) (wh bh wo bo : List α) (junk : Nat × Nat × Nat)
    (hal : nw.Allocated) (hwh : wh.length = u32 (nw.n_inputs * nw.n_hidden))
    (hbh : bh.length = nw.n_hidden)
    (hwo : wo.length = u32 (nw.n_hidden * nw.n_outputs)) (hbo : bo.length = nw.n_outputs) :
    network_load nw
        (some (le32 nw.n_inputs ++ (le32 nw.n_hidden ++ (le32 nw.n_outputs
          ++ (encodeArr wh ++ (encodeArr bh ++ (encodeArr wo ++ encodeArr bo))))))) junk
      = { ret := 0,
          network := { nw with weights_hidden := wh, biases_hidden := bh,
                               weights_output := wo, biases_output := bo },
          stderr := [] } := by
  obtain ⟨hi, hh, ho, lwh, lbh, lwo, lbo, _, _⟩ := hal
  have f1 := fread_all (le32 junk.1) (le32 nw.n_inputs)
    (le32 nw.n_hidden ++ (le32 nw.n_outputs
      ++ (encodeArr wh ++ (encodeArr bh ++ (encodeArr wo ++ encodeArr bo))))) 4 1 rfl rfl
  have f2 := fread_all (le32 junk.2.1) (le32 nw.n_hidden)
    (le32 nw.n_outputs ++ (encodeArr wh ++ (encodeArr bh ++ (encodeArr wo ++ encodeArr bo))))
    4 1 rfl rfl
  have f3 := fread_all (le32 junk.2.2) (le32 nw.n_outputs)
    (encodeArr wh ++ (encodeArr bh ++ (encodeArr wo ++ encodeArr bo))) 4 1 rfl rfl
  have f4 := fread_all (encodeArr nw.weights_hidden) (encodeArr wh)
    (encodeArr bh ++ (encodeArr wo ++ encodeArr bo)) 8 (u32 (nw.n_inputs * nw.n_hidden))
    (by rw [length_encodeArr, lwh]) (by rw [length_encodeArr, hwh])
  have f5 := fread_all (encodeArr nw.biases_hidden) (encodeArr bh)
    (encodeArr wo ++ encodeArr bo) 8 nw.n_hidden
    (by rw [length_encodeArr, lbh]) (by rw [length_encodeArr, hbh])
  have f6 := fread_all (encodeArr nw.weights_output) (encodeArr wo)
    (encodeArr bo) 8 (u32 (nw.n_hidden * nw.n_outputs))
    (by rw [length_encodeArr, lwo]) (by rw [length_encodeArr, hwo])
  have f7 := fread_all (encodeArr nw.biases_output) (encodeArr bo) [] 8 nw.n_outputs
    (by rw [length_encodeArr, lbo]) (by rw [length_encodeArr, hbo])
  rw [List.append_nil] at f7
  simp only [network_load, f1, f2, f3, de32_le32 _ hi, de32_le32 _ hh, de32_le32 _ ho,
    ne_eq, not_true_eq_false, or_self, if_false, f4, f5, f6, f7,
    decodeArr_encodeArr wh _ (lwh.trans hwh.symm), decodeArr_encodeArr bh _ (lbh.trans hbh.symm),
    decodeArr_encodeArr wo _ (lwo.trans hwo.symm), decodeArr_encodeArr bo _ (lbo.trans hbo.symm)]

/-- Reading a `uint32_t` from a stream that still holds four bytes takes those bytes. -/
theorem fread_u32 (junk : Nat) (stream : List Byte) (h : 4 ≤ stream.length) :
    fread (le32 junk) 4 1 stream = (stream.take 4, stream.drop 4) := by
  have e := fread_all (le32 junk) (stream.take 4) (stream.drop 4) 4 1 rfl
    (by rw [List.length_take]; omega)
  rwa [List.take_append_drop] at e

/-- The three shape fields a stream carries in its first twelve bytes. -/
theorem shape_fields_read (junk : Nat × Nat × Nat) (stream : List Byte)
    (h : 12 ≤ stream.length) :
    fread (le32 junk.1) 4 1 stream = (stream.take 4, stream.drop 4) ∧
    fread (le32 junk.2.1) 4 1 (stream.drop 4)
      = ((stream.drop 4).take 4, stream.drop 8) ∧
    fread (le32 junk.2.2) 4 1 (stream.drop 8)
      = ((stream.drop 8).take 4, stream.drop 12) := by
  refine ⟨fread_u32 _ _ (by omega), ?_, ?_⟩
  · rw [fread_u32 _ _ (by rw [List.length_drop]; omega), List.drop_drop]
  · rw [fread_u32 _ _ (by rw [List.length_drop]; omega), List.drop_drop]

/-- What `network_load` does with a readable source of another shape. -/
theorem network_load_mismatch (nw : Network α) (stream : List Byte) (junk : Nat × Nat × Nat)
    (hlen : 12 ≤ stream.length)
    (hne : de32 (stream.take 4) ≠ nw.n_inputs ∨ de32 ((stream.drop 4).take 4) ≠ nw.n_hidden ∨
      de32 ((stream.drop 8).take 4) ≠ nw.n_outputs) :
    network_load nw (some stream) junk
      = { ret := -1, network := nw,
          stderr := [Diag.message "Network dimensions mismatch!\n"] } := by
  obtain ⟨f1, f2, f3⟩ := shape_fields_read junk stream hlen
  simp only [network_load, f1, f2, f3, if_pos hne]

/-- C8: for networks `A` and `B` of identical shape, whatever `B` holds, loading into `B`
the record `network_save` writes for `A` returns 0 and leaves `B`'s `weights_hidden`,
`biases_hidden`, `weights_output` and `biases_output` identical to those of `A`. -/
theorem network_save_load_roundtrip (A B : Network α) (file : Option (List Byte))
    (junk : Nat × Nat × Nat) (hA : A.Allocated) (hB : B.Allocated)
    (hi : B.n_inputs = A.n_inputs) (hh : B.n_hidden = A.n_hidden)
    (ho : B.n_outputs = A.n_outputs) :
    (network_load B (network_save A true file).1 junk).ret = 0 ∧
    (network_load B (network_save A true file).1 junk).network.weights_hidden
      = A.weights_hidden ∧
    (network_load B (network_save A true file).1 junk).network.biases_hidden
      = A.biases_hidden ∧
    (network_load B (network_save A true file).1 junk).network.weights_output
      = A.weights_output ∧
    (network_load B (network_save A true file).1 junk).network.biases_output
      = A.biases_output := by
  rw [network_save_bytes A file hA]
  simp only []
  rw [← hi, ← hh, ← ho]
  obtain ⟨_, _, _, hwh, hbh, hwo, hbo, _, _⟩ := hA
  rw [network_load_record B A.weights_hidden A.biases_hidden A.weights_output A.biases_output
    junk hB (by rw [hwh, hi, hh]) (by rw [hbh, hh]) (by rw [hwo, hh, ho]) (by rw [hbo, ho])]
  exact ⟨rfl, rfl, rfl, rfl, rfl⟩

/-- C9: for every network and every readable source whose three shape fields do not match
the network's `(n_inputs, n_hidden, n_outputs)`, `network_load` returns a non-zero result
and leaves the network, every buffer and the shape, as it was. -/
theorem network_load_shape_mismatch (nw : Network α) (stream : List Byte)
    (junk : Nat × Nat × Nat) (hlen : 12 ≤ stream.length)
    (hne : de32 (stream.take 4) ≠ nw.n_inputs ∨ de32 ((stream.drop 4).take 4) ≠ nw.n_hidden ∨
      de32 ((stream.drop 8).take 4) ≠ nw.n_outputs) :
    (network_load nw (some stream) junk).ret ≠ 0 ∧
    (network_load nw (some stream) junk).network = nw := by
  rw [network_load_mismatch nw stream junk hlen hne]
  exact ⟨fun h => absurd h (by decide : (-1 : Int) ≠ 0), rfl⟩

/-- C10, as stated, fails: loading the record saved for the 2-2-1 network `ckptA` into the
3-2-1 network `ckptC` (a readable source of differing shape) returns the same value as
loading from a source that cannot be opened. -/
theorem network_load_codes_coincide :
    ckptA.n_inputs ≠ ckptC.n_inputs ∧
    (network_load ckptC (network_save ckptA true none).1 (0, 0, 0)).ret
      = (network_load ckptC none (0, 0, 0)).ret := by
  decide

/-- C10, amended: for a readable source of differing shape and for a source that cannot be
opened `network_load` returns the same value `-1`, which differs from the value `0` of a
successful load; the two failures differ only by the line written to `stderr`. -/
theorem network_load_failure_codes (nw : Network α) (stream : List Byte)
    (junk junk' : Nat × Nat × Nat) (hlen : 12 ≤ stream.length)
    (hne : de32 (stream.take 4) ≠ nw.n_inputs ∨ de32 ((stream.drop 4).take 4) ≠ nw.n_hidden ∨
      de32 ((stream.drop 8).take 4) ≠ nw.n_outputs) :
    (network_load nw (some stream) junk).ret = -1 ∧
    (network_load nw none junk').ret = -1 ∧
    (network_load nw (some stream) junk).stderr
      = [Diag.message "Network dimensions mismatch!\n"] ∧
    (network_load nw none junk').stderr = [Diag.perror "fopen"] ∧
    (network_load nw (some stream) junk).stderr ≠ (network_load nw none junk').stderr := by
  rw [network_load_mismatch nw stream junk hlen hne]
  exact ⟨rfl, rfl, rfl, rfl, by simp [network_load]⟩

end Checkpoint

/-! ## The record layout and what `network_load` leaves alone -/

section CheckpointLayout

variable {α : Type} [DoubleRep α]

/-- The array of `n` elements held by a block of bytes is held by its first `8 * n` bytes. -/
theorem decodeArr_take (n : Nat) (bs : List Byte) :
    (decodeArr n (bs.take (8 * n)) : List α) = decodeArr n bs := by
  induction n generalizing bs with
  | zero => rfl
  | succ n ih =>
    have e : 8 * (n + 1) = 8 + 8 * n := by omega
    rw [decodeArr, decodeArr, List.take_take, e, List.drop_take,
      Nat.min_eq_left (Nat.le_add_right 8 (8 * n)), Nat.add_sub_cancel_left, ih]

theorem length_decodeArr (n : Nat) (bs : List Byte) :
    (decodeArr n bs : List α).length = n := by
  induction n generalizing bs with
  | zero => rfl
  | succ n ih => rw [decodeArr, List.length_cons, ih]

/-- Reading a whole object from a stream that still holds enough bytes. -/
theorem fread_enough (object stream : List Byte) (size count : Nat)
    (ho : object.length = size * count) (hs : size * count ≤ stream.length) :
    fread object size count stream
      = (stream.take (size * count), stream.drop (size * count)) := by
  have e := fread_all object (stream.take (size * count)) (stream.drop (size * count))
    size count ho (by rw [List.length_take]; omega)
  rwa [List.take_append_drop] at e

/-- The network `network_load` leaves behind has the shape, the `hidden` and the `output`
it had. -/
theorem network_load_keeps (nw : Network α) (file : Option (List Byte))
    (junk : Nat × Nat × Nat) :
    (network_load nw file junk).network.n_inputs = nw.n_inputs ∧
    (network_load nw file junk).network.n_hidden = nw.n_hidden ∧
    (network_load nw file junk).network.n_outputs = nw.n_outputs ∧
    (network_load nw file junk).network.hidden = nw.hidden ∧
    (network_load nw file junk).network.output = nw.output := by
  cases file with
  | none => exact ⟨rfl, rfl, rfl, rfl, rfl⟩
  | some stream =>
    simp only [network_load]
    split
    · exact ⟨rfl, rfl, rfl, rfl, rfl⟩
    · exact ⟨rfl, rfl, rfl, rfl, rfl⟩

/-- A source that opens and carries the shape of the network makes `network_load` return 0,
however many bytes follow the shape fields. -/
theorem network_load_match_ret (nw : Network α) (stream : List Byte) (junk : Nat × Nat × Nat)
    (hlen : 12 ≤ stream.length)
    (hi : de32 (stream.take 4) = nw.n_inputs) (hh : de32 ((stream.drop 4).take 4) = nw.n_hidden)
    (ho : de32 ((stream.drop 8).take 4) = nw.n_outputs) :
    (network_load nw (some stream) junk).ret = 0 := by
  obtain ⟨f1, f2, f3⟩ := shape_fields_read junk stream hlen
  simp only [network_load, f1, f2, f3, hi, hh, ho, ne_eq, not_true_eq_false, or_self, if_false]

/-- From a source that holds all the bytes the shape asks for, `network_load` installs the
four arrays the source encodes. -/
theorem network_load_complete (nw : Network α) (stream : List Byte) (junk : Nat × Nat × Nat)
    (hal : nw.Allocated)
    (hlen : 12 + 8 * (u32 (nw.n_inputs * nw.n_hidden) + nw.n_hidden
      + u32 (nw.n_hidden * nw.n_outputs) + nw.n_outputs) ≤ stream.length)
    (hi : de32 (stream.take 4) = nw.n_inputs) (hh : de32 ((stream.drop 4).take 4) = nw.n_hidden)
    (ho : de32 ((stream.drop 8).take 4) = nw.n_outputs) :
    (network_load nw (some stream) junk).network.weights_hidden
      = decodeArr (u32 (nw.n_inputs * nw.n_hidden)) (stream.drop 12) ∧
    (network_load nw (some stream) junk).network.biases_hidden
      = decodeArr nw.n_hidden (stream.drop (12 + 8 * u32 (nw.n_inputs * nw.n_hidden))) ∧
    (network_load nw (some stream) junk).network.weights_output
      = decodeArr (u32 (nw.n_hidden * nw.n_outputs))
          (stream.drop (12 + 8 * u32 (nw.n_inputs * nw.n_hidden) + 8 * nw.n_hidden)) ∧
    (network_load nw (some stream) junk).network.biases_output
      = decodeArr nw.n_outputs
          (stream.drop (12 + 8 * u32 (nw.n_inputs * nw.n_hidden) + 8 * nw.n_hidden
            + 8 * u32 (nw.n_hidden * nw.n_outputs))) := by
  obtain ⟨_, _, _, lwh, lbh, lwo, lbo, _, _⟩ := hal
  obtain ⟨f1, f2, f3⟩ := shape_fields_read junk stream (by omega)
  have f4 := fread_enough (encodeArr nw.weights_hidden) (stream.drop 12) 8
    (u32 (nw.n_inputs * nw.n_hidden)) (by rw [length_encodeArr, lwh])
    (by rw [List.length_drop]; omega)
  have f5 := fread_enough (encodeArr nw.biases_hidden)
    (stream.drop (12 + 8 * u32 (nw.n_inputs * nw.n_hidden))) 8 nw.n_hidden
    (by rw [length_encodeArr, lbh]) (by rw [List.length_drop]; omega)
  have f6 := fread_enough (encodeArr nw.weights_output)
    (stream.drop (12 + 8 * u32 (nw.n_inputs * nw.n_hidden) + 8 * nw.n_hidden)) 8
    (u32 (nw.n_hidden * nw.n_outputs))
    (by rw [length_encodeArr, lwo]) (by rw [List.length_drop]; omega)
  have f7 := fread_enough (encodeArr nw.biases_output)
    (stream.drop (12 + 8 * u32 (nw.n_inputs * nw.n_hidden) + 8 * nw.n_hidden
      + 8 * u32 (nw.n_hidden * nw.n_outputs))) 8 nw.n_outputs
    (by rw [length_encodeArr, lbo]) (by rw [List.length_drop]; omega)
  simp only [List.drop_drop] at f4 f5 f6 f7
  simp only [network_load, f1, f2, f3, hi, hh, ho, ne_eq, not_true_eq_false, or_self, if_false,
    f4, f5, f6, f7, lwh, lbh, lwo, lbo, decodeArr_take, and_self]

/-- C11: the record `network_save` writes for a network is, in order and with nothing
else, the three 32-bit fields `n_inputs`, `n_hidden`, `n_outputs` followed by the 64-bit
elements of `weights_hidden`, `biases_hidden`, `weights_output`, `biases_output`; its length
is `12 + 8 * (n_inputs * n_hidden + n_hidden + n_hidden * n_outputs + n_outputs)` bytes.
The network is passed `const` and is not among the things the call changes: the call only
produces the file and a possibly empty diagnostic. -/
theorem network_save_layout (nw : Network α) (file : Option (List Byte)) (hwf : nw.WF) :
    ∃ record : List Byte,
      network_save nw true file = (some record, []) ∧
      record = le32 nw.n_inputs ++ (le32 nw.n_hidden ++ (le32 nw.n_outputs
          ++ (encodeArr nw.weights_hidden ++ (encodeArr nw.biases_hidden
          ++ (encodeArr nw.weights_output ++ encodeArr nw.biases_output))))) ∧
      (le32 nw.n_inputs).length = 4 ∧ (le32 nw.n_hidden).length = 4 ∧
      (le32 nw.n_outputs).length = 4 ∧
      de32 (le32 nw.n_inputs) = nw.n_inputs ∧ de32 (le32 nw.n_hidden) = nw.n_hidden ∧
      de32 (le32 nw.n_outputs) = nw.n_outputs ∧
      (encodeArr nw.weights_hidden).length = 8 * (nw.n_inputs * nw.n_hidden) ∧
      (encodeArr nw.biases_hidden).length = 8 * nw.n_hidden ∧
      (encodeArr nw.weights_output).length = 8 * (nw.n_hidden * nw.n_outputs) ∧
      (encodeArr nw.biases_output).length = 8 * nw.n_outputs ∧
      record.length = 12 + 8 * (nw.n_inputs * nw.n_hidden + nw.n_hidden
        + nw.n_hidden * nw.n_outputs + nw.n_outputs) := by
  refine ⟨_, network_save_bytes nw file hwf.allocated, rfl, rfl, rfl, rfl, ?_⟩
  obtain ⟨hi, hh, ho, _, _, hwh, hbh, hwo, hbo, _, _⟩ := hwf
  refine ⟨de32_le32 _ hi, de32_le32 _ hh, de32_le32 _ ho, ?_, ?_, ?_, ?_, ?_⟩
  · rw [length_encodeArr, hwh]
  · rw [length_encodeArr, hbh]
  · rw [length_encodeArr, hwo]
  · rw [length_encodeArr, hbo]
  · simp only [List.length_append, length_le32, length_encodeArr, hwh, hbh, hwo, hbo]
    omega

/-- C12: `network_load` overwrites only the four parameter buffers: whatever the source
holds, the activation buffers `hidden` and `output` and the shape fields are the same after
the call as before it. -/
theorem network_load_frame (nw : Network α) (file : Option (List Byte))
    (junk : Nat × Nat × Nat) :
    (network_load nw file junk).network.hidden = nw.hidden ∧
    (network_load nw file junk).network.output = nw.output ∧
    (network_load nw file junk).network.n_inputs = nw.n_inputs ∧
    (network_load nw file junk).network.n_hidden = nw.n_hidden ∧
    (network_load nw file junk).network.n_outputs = nw.n_outputs := by
  obtain ⟨h1, h2, h3, h4, h5⟩ := network_load_keeps nw file junk
  exact ⟨h4, h5, h1, h2, h3⟩

/-- C19, as stated, fails: `truncatedRecord` opens, carries the shape 2-2-1 of `ckptB` and
holds 8 of the 72 parameter bytes the shape asks for, and `network_load` returns 0 and leaves
`ckptB` with weights the source does not hold. -/
theorem network_load_truncated_returns_zero :
    truncatedRecord.length = 20 ∧
    12 + 8 * (ckptB.n_inputs * ckptB.n_hidden + ckptB.n_hidden
      + ckptB.n_hidden * ckptB.n_outputs + ckptB.n_outputs) = 84 ∧
    de32 (truncatedRecord.take 4) = ckptB.n_inputs ∧
    de32 ((truncatedRecord.drop 4).take 4) = ckptB.n_hidden ∧
    de32 ((truncatedRecord.drop 8).take 4) = ckptB.n_outputs ∧
    (network_load ckptB (some truncatedRecord) (0, 0, 0)).ret = 0 ∧
    (network_load ckptB (some truncatedRecord) (0, 0, 0)).network.weights_hidden
      = [0x3FF0000000000000, 2, 3, 4] := by
  decide

/-- Element `t` of the array held by a block of bytes. -/
theorem getElem?_decodeArr (n t : Nat) (bs : List Byte) (ht : t < n) :
    (decodeArr n bs : List α)[t]? = some (DoubleRep.ofBytes ((bs.drop (8 * t)).take 8)) := by
  induction n generalizing bs t with
  | zero => omega
  | succ n ih =>
    cases t with
    | zero => rw [decodeArr, List.getElem?_cons_zero, Nat.mul_zero, List.drop_zero]
    | succ t =>
      rw [decodeArr, List.getElem?_cons_succ, ih t (bs.drop 8) (by omega), List.drop_drop]
      have e : 8 + 8 * t = 8 * (t + 1) := by omega
      rw [e]

/-- The unread rest of a stream after `fread`. -/
theorem fread_rest (object : List Byte) (size count : Nat) (stream : List Byte) :
    (fread object size count stream).2 = stream.drop (size * count) := rfl

/-- The bytes of element `t` of an object after `fread`, when the stream holds all of them:
they are the bytes of the stream. -/
theorem fread_bytes_read (object rest : List Byte) (n t : Nat) (ho : object.length = 8 * n)
    (ht : t < n) (h : 8 * (t + 1) ≤ rest.length) :
    ((fread object 8 n rest).1.drop (8 * t)).take 8 = (rest.drop (8 * t)).take 8 := by
  unfold fread
  apply List.ext_getElem?
  intro i
  simp only [List.getElem?_take, List.getElem?_drop]
  by_cases hi : i < 8
  · simp only [hi, if_true]
    rw [if_pos (by omega), List.getElem?_append_left (by rw [List.length_take]; omega),
      List.getElem?_take, if_pos (by omega)]
  · simp only [hi, if_false]

/-- The bytes of element `t` of an object after `fread`, when the stream ends before them:
they are the bytes the object held. -/
theorem fread_bytes_kept (object rest : List Byte) (n t : Nat) (ho : object.length = 8 * n)
    (ht : t < n) (h : rest.length ≤ 8 * t) :
    ((fread object 8 n rest).1.drop (8 * t)).take 8 = (object.drop (8 * t)).take 8 := by
  unfold fread
  apply List.ext_getElem?
  intro i
  simp only [List.getElem?_take, List.getElem?_drop]
  by_cases hi : i < 8
  · simp only [hi, if_true]
    have hl : (List.take (8 * n) rest).length = rest.length := by
      rw [List.length_take]; omega
    rw [if_pos (by omega), List.getElem?_append_right (by rw [hl]; omega),
      List.getElem?_drop, hl]
    congr 1
    omega
  · simp only [hi, if_false]

/-- Element `t` of a buffer after one unchecked `fread` of the whole buffer from the stream
at offset `off`: the element the stream encodes when the stream holds all its bytes, the
old element when the stream ends before its first byte. -/
theorem fread_element_at (W : List α) (stream : List Byte) (off t : Nat) (ht : t < W.length) :
    (off + 8 * (t + 1) ≤ stream.length →
      (decodeArr W.length (fread (encodeArr W) 8 W.length (stream.drop off)).1 : List α)[t]?
        = some (DoubleRep.ofBytes ((stream.drop (off + 8 * t)).take 8))) ∧
    (stream.length ≤ off + 8 * t →
      (decodeArr W.length (fread (encodeArr W) 8 W.length (stream.drop off)).1 : List α)[t]?
        = W[t]?) := by
  constructor
  · intro h
    rw [getElem?_decodeArr _ t _ ht,
      fread_bytes_read _ _ W.length t (length_encodeArr W) ht (by rw [List.length_drop]; omega),
      List.drop_drop]
  · intro h
    rw [getElem?_decodeArr _ t _ ht,
      fread_bytes_kept _ _ W.length t (length_encodeArr W) ht (by rw [List.length_drop]; omega),
      ← getElem?_decodeArr W.length t (encodeArr W) ht, decodeArr_encodeArr W _ rfl]

/-- The four parameter buffers `network_load` leaves when the source opens and carries the
shape of the network: each is its buffer after one `fread` at its offset in the stream. -/
theorem network_load_buffers (nw : Network α) (stream : List Byte) (junk : Nat × Nat × Nat)
    (hwf : nw.WF) (hlen : 12 ≤ stream.length)
    (hi : de32 (stream.take 4) = nw.n_inputs) (hh : de32 ((stream.drop 4).take 4) = nw.n_hidden)
    (ho : de32 ((stream.drop 8).take 4) = nw.n_outputs) :
    (network_load nw (some stream) junk).network.weights_hidden
      = decodeArr nw.weights_hidden.length
          (fread (encodeArr nw.weights_hidden) 8 nw.weights_hidden.length
            (stream.drop 12)).1 ∧
    (network_load nw (some stream) junk).network.biases_hidden
      = decodeArr nw.biases_hidden.length
          (fread (encodeArr nw.biases_hidden) 8 nw.biases_hidden.length
            (stream.drop (12 + 8 * (nw.n_inputs * nw.n_hidden)))).1 ∧
    (network_load nw (some stream) junk).network.weights_output
      = decodeArr nw.weights_output.length
          (fread (encodeArr nw.weights_output) 8 nw.weights_output.length
            (stream.drop (12 + 8 * (nw.n_inputs * nw.n_hidden) + 8 * nw.n_hidden))).1 ∧
    (network_load nw (some stream) junk).network.biases_output
      = decodeArr nw.biases_output.length
          (fread (encodeArr nw.biases_output) 8 nw.biases_output.length
            (stream.drop (12 + 8 * (nw.n_inputs * nw.n_hidden) + 8 * nw.n_hidden + 8 * (nw.n_hidden * nw.n_outputs)))).1 := by
  have e1 : u32 (nw.n_inputs * nw.n_hidden) = nw.n_inputs * nw.n_hidden :=
    Nat.mod_eq_of_lt hwf.2.2.2.1
  have e2 : u32 (nw.n_hidden * nw.n_outputs) = nw.n_hidden * nw.n_outputs :=
    Nat.mod_eq_of_lt hwf.2.2.2.2.1
  obtain ⟨_, _, _, _, _, lwh, lbh, lwo, lbo, _, _⟩ := hwf
  obtain ⟨f1, f2, f3⟩ := shape_fields_read junk stream hlen
  simp only [network_load, f1, f2, f3, hi, hh, ho, ne_eq, not_true_eq_false, or_self, if_false,
    fread_rest, List.drop_drop, e1, e2, lwh, lbh, lwo, lbo, and_self]

/-- C19, amended: for every source that opens and carries the shape fields of the network,
`network_load` returns 0, whether or not the parameter bytes are all there.  When the source
holds all the bytes the shape asks for, the four parameter buffers are the arrays the source
encodes.  In every case, an element whose eight bytes the source holds is the element the
source encodes at its place in the record, and an element the source ends before is the
element the buffer held before the call. -/
theorem network_load_unchecked_reads (nw : Network α) (stream : List Byte)
    (junk : Nat × Nat × Nat) (hwf : nw.WF) (hlen : 12 ≤ stream.length)
    (hi : de32 (stream.take 4) = nw.n_inputs) (hh : de32 ((stream.drop 4).take 4) = nw.n_hidden)
    (ho : de32 ((stream.drop 8).take 4) = nw.n_outputs) :
    (network_load nw (some stream) junk).ret = 0 ∧
    (12 + 8 * (nw.n_inputs * nw.n_hidden + nw.n_hidden + nw.n_hidden * nw.n_outputs
        + nw.n_outputs) ≤ stream.length →
      (network_load nw (some stream) junk).network.weights_hidden
        = decodeArr (nw.n_inputs * nw.n_hidden) (stream.drop 12) ∧
      (network_load nw (some stream) junk).network.biases_hidden
        = decodeArr nw.n_hidden (stream.drop (12 + 8 * (nw.n_inputs * nw.n_hidden))) ∧
      (network_load nw (some stream) junk).network.weights_output
        = decodeArr (nw.n_hidden * nw.n_outputs)
            (stream.drop (12 + 8 * (nw.n_inputs * nw.n_hidden) + 8 * nw.n_hidden)) ∧
      (network_load nw (some stream) junk).network.biases_output
        = decodeArr nw.n_outputs
            (stream.drop (12 + 8 * (nw.n_inputs * nw.n_hidden) + 8 * nw.n_hidden
              + 8 * (nw.n_hidden * nw.n_outputs)))) ∧
    (
      (∀ t, t < nw.n_inputs * nw.n_hidden →
        (12 + 8 * (t + 1) ≤ stream.length →
          (network_load nw (some stream) junk).network.weights_hidden[t]?
            = some (DoubleRep.ofBytes ((stream.drop (12 + 8 * t)).take 8))) ∧
        (stream.length ≤ 12 + 8 * t →
          (network_load nw (some stream) junk).network.weights_hidden[t]? = nw.weights_hidden[t]?)) ∧
      (∀ t, t < nw.n_hidden →
        (12 + 8 * (nw.n_inputs * nw.n_hidden) + 8 * (t + 1) ≤ stream.length →
          (network_load nw (some stream) junk).network.biases_hidden[t]?
            = some (DoubleRep.ofBytes ((stream.drop (12 + 8 * (nw.n_inputs * nw.n_hidden) + 8 * t)).take 8))) ∧
        (stream.length ≤ 12 + 8 * (nw.n_inputs * nw.n_hidden) + 8 * t →
          (network_load nw (some stream) junk).network.biases_hidden[t]? = nw.biases_hidden[t]?)) ∧
      (∀ t, t < nw.n_hidden * nw.n_outputs →
        (12 + 8 * (nw.n_inputs * nw.n_hidden) + 8 * nw.n_hidden + 8 * (t + 1) ≤ stream.length →
          (network_load nw (some stream) junk).network.weights_output[t]?
            = some (DoubleRep.ofBytes ((stream.drop (12 + 8 * (nw.n_inputs * nw.n_hidden) + 8 * nw.n_hidden + 8 * t)).take 8))) ∧
        (stream.length ≤ 12 + 8 * (nw.n_inputs * nw.n_hidden) + 8 * nw.n_hidden + 8 * t →
          (network_load nw (some stream) junk).network.weights_output[t]? = nw.weights_output[t]?)) ∧
      (∀ t, t < nw.n_outputs →
        (12 + 8 * (nw.n_inputs * nw.n_hidden) + 8 * nw.n_hidden + 8 * (nw.n_hidden * nw.n_outputs) + 8 * (t + 1) ≤ stream.length →
          (network_load nw (some stream) junk).network.biases_output[t]?
            = some (DoubleRep.ofBytes ((stream.drop (12 + 8 * (nw.n_inputs * nw.n_hidden) + 8 * nw.n_hidden + 8 * (nw.n_hidden * nw.n_outputs) + 8 * t)).take 8))) ∧
        (stream.length ≤ 12 + 8 * (nw.n_inputs * nw.n_hidden) + 8 * nw.n_hidden + 8 * (nw.n_hidden * nw.n_outputs) + 8 * t →
          (network_load nw (some stream) junk).network.biases_output[t]? = nw.biases_output[t]?))) := by
  have e1 : u32 (nw.n_inputs * nw.n_hidden) = nw.n_inputs * nw.n_hidden :=
    Nat.mod_eq_of_lt hwf.2.2.2.1
  have e2 : u32 (nw.n_hidden * nw.n_outputs) = nw.n_hidden * nw.n_outputs :=
    Nat.mod_eq_of_lt hwf.2.2.2.2.1
  refine ⟨network_load_match_ret nw stream junk hlen hi hh ho, fun hfull => ?_, ?_⟩
  · have h := network_load_complete nw stream junk hwf.allocated (by rw [e1, e2]; exact hfull)
      hi hh ho
    rw [e1, e2] at h
    exact h
  · obtain ⟨b1, b2, b3, b4⟩ := network_load_buffers nw stream junk hwf hlen hi hh ho
    obtain ⟨_, _, _, _, _, lwh, lbh, lwo, lbo, _, _⟩ := hwf
    rw [b1, b2, b3, b4]
    refine ⟨fun t ht => ?_, fun t ht => ?_, fun t ht => ?_, fun t ht => ?_⟩
    · exact fread_element_at nw.weights_hidden stream _ t (by rw [lwh]; exact ht)
    · exact fread_element_at nw.biases_hidden stream _ t (by rw [lbh]; exact ht)
    · exact fread_element_at nw.weights_output stream _ t (by rw [lwo]; exact ht)
    · exact fread_element_at nw.biases_output stream _ t (by rw [lbo]; exact ht)

end CheckpointLayout

/-! ## Initialisation in closed form -/

theorem randState_succ {α ρ : Type} (rand : ρ → α × ρ) (s : ρ) (t : Nat) :
    randState rand s (t + 1) = (rand (randState rand s t)).2 := rfl

/-- Calls made after `a` calls continue the sequence of draws. -/
theorem randState_add {α ρ : Type} (rand : ρ → α × ρ) (s : ρ) (a b : Nat) :
    randState rand (randState rand s a) b = randState rand s (a + b) := by
  unfold randState
  rw [forLoop_add]

theorem randDraw_add {α ρ : Type} (rand : ρ → α × ρ) (s : ρ) (a b : Nat) :
    randDraw rand (randState rand s a) b = randDraw rand s (a + b) := by
  unfold randDraw
  rw [randState_add]

/-- A weight loop of `network_init` makes `n` calls of the random source, stores a value
computed from call number `t + 1` in entry `t`, and keeps the size of the buffer. -/
theorem initWeights_spec {α : Type} [Zero α] [One α] [Sub α] [Mul α] [NatCast α] {ρ : Type}
    (n : Nat) (limit : α) (rand : ρ → α × ρ) (b0 : List α) (s0 : ρ) :
    (initWeights n limit rand (b0, s0)).2 = randState rand s0 n ∧
    (initWeights n limit rand (b0, s0)).1.length = b0.length ∧
    (∀ t, t < n → t < b0.length →
      rd (initWeights n limit rand (b0, s0)).1 t
        = (randDraw rand s0 t * ((2 : Nat) : α) - 1) * limit) ∧
    (∀ t, n ≤ t → rd (initWeights n limit rand (b0, s0)).1 t = rd b0 t) := by
  unfold initWeights
  refine forLoop_inv (fun n (st : List α × ρ) =>
    st.2 = randState rand s0 n ∧ st.1.length = b0.length ∧
    (∀ t, t < n → t < b0.length →
      rd st.1 t = (randDraw rand s0 t * ((2 : Nat) : α) - 1) * limit) ∧
    (∀ t, n ≤ t → rd st.1 t = rd b0 t)) n _ (b0, s0) ?_ ?_
  · exact ⟨rfl, rfl, fun t ht => absurd ht (Nat.not_lt_zero t), fun _ _ => rfl⟩
  · rintro i _ ⟨b, s⟩ ⟨hs, hl, hlt, hge⟩
    simp only at hs hl hlt hge ⊢
    refine ⟨by rw [hs, randState_succ], by rw [length_wr, hl], ?_, ?_⟩
    · intro t ht htl
      by_cases h : t = i
      · subst h
        rw [rd_wr_same _ _ _ (by rw [hl]; exact htl), hs]
        rfl
      · rw [rd_wr_ne _ _ _ _ (Ne.symm h)]
        exact hlt t (by omega) htl
    · intro t ht
      rw [rd_wr_ne _ _ _ _ (by omega)]
      exact hge t (by omega)

section InitLemmas

variable {α : Type} [Zero α] [One α] [Sub α] [Mul α] [Div α] [NatCast α] {ρ : Type}

/-- `network_init`, buffer by buffer, when the allocations succeed. -/
theorem network_init_eq (n_inputs n_hidden n_outputs : Nat) (rand : ρ → α × ρ) (s : ρ)
    (sqrt : α → α) :
    network_init n_inputs n_hidden n_outputs rand s sqrt true
      = some
        ({ n_inputs := n_inputs, n_hidden := n_hidden, n_outputs := n_outputs,
           weights_hidden := (initWeights (u32 (n_inputs * n_hidden))
              (sqrt (((6 : Nat) : α) / ((u32 (n_inputs + n_hidden) : Nat) : α))) rand
              (List.replicate (u32 (n_inputs * n_hidden)) 0, s)).1,
           biases_hidden := List.replicate n_hidden 0,
           weights_output := (initWeights (u32 (n_hidden * n_outputs))
              (sqrt (((6 : Nat) : α) / ((u32 (n_hidden + n_outputs) : Nat) : α))) rand
              (List.replicate (u32 (n_hidden * n_outputs)) 0,
                randState rand s (u32 (n_inputs * n_hidden)))).1,
           biases_output := List.replicate n_outputs 0,
           hidden := List.replicate n_hidden 0,
           output := List.replicate n_outputs 0 },
         randState rand s (u32 (n_inputs * n_hidden) + u32 (n_hidden * n_outputs))) := by
  have h1 := (initWeights_spec (u32 (n_inputs * n_hidden))
    (sqrt (((6 : Nat) : α) / ((u32 (n_inputs + n_hidden) : Nat) : α))) rand
    (List.replicate (u32 (n_inputs * n_hidden)) 0) s).1
  have h2 := (initWeights_spec (u32 (n_hidden * n_outputs))
    (sqrt (((6 : Nat) : α) / ((u32 (n_hidden + n_outputs) : Nat) : α))) rand
    (List.replicate (u32 (n_hidden * n_outputs)) 0)
    (randState rand s (u32 (n_inputs * n_hidden)))).1
  rw [randState_add] at h2
  rw [← h2, ← h1]
  unfold network_init initWeights
  simp only [Bool.not_true, Bool.false_eq_true, if_false]
  rw [forLoop_map
    (fun st : List α × ρ =>
      (({ n_inputs := n_inputs, n_hidden := n_hidden, n_outputs := n_outputs,
          weights_hidden := st.1,
          biases_hidden := List.replicate n_hidden 0,
          weights_output := List.replicate (u32 (n_hidden * n_outputs)) 0,
          biases_output := List.replicate n_outputs 0,
          hidden := List.replicate n_hidden 0,
          output := List.replicate n_outputs 0 } : Network α), st.2))
    (fun i st =>
      (wr st.1 i (((rand st.2).1 * ((2 : Nat) : α) - 1)
        * sqrt (((6 : Nat) : α) / ((u32 (n_inputs + n_hidden) : Nat) : α))), (rand st.2).2))
    (List.replicate (u32 (n_inputs * n_hidden)) 0, s) (u32 (n_inputs * n_hidden)) _
    (fun _ _ _ => rfl)]
  generalize forLoop (u32 (n_inputs * n_hidden))
    (fun i (st : List α × ρ) =>
      (wr st.1 i (((rand st.2).1 * ((2 : Nat) : α) - 1)
        * sqrt (((6 : Nat) : α) / ((u32 (n_inputs + n_hidden) : Nat) : α))), (rand st.2).2))
    (List.replicate (u32 (n_inputs * n_hidden)) 0, s) = X
  rw [forLoop_map
    (fun st : List α × ρ =>
      (({ n_inputs := n_inputs, n_hidden := n_hidden, n_outputs := n_outputs,
          weights_hidden := X.1,
          biases_hidden := List.replicate n_hidden 0,
          weights_output := st.1,
          biases_output := List.replicate n_outputs 0,
          hidden := List.replicate n_hidden 0,
          output := List.replicate n_outputs 0 } : Network α), st.2))
    (fun i st =>
      (wr st.1 i (((rand st.2).1 * ((2 : Nat) : α) - 1)
        * sqrt (((6 : Nat) : α) / ((u32 (n_hidden + n_outputs) : Nat) : α))), (rand st.2).2))
    (List.replicate (u32 (n_hidden * n_outputs)) 0, X.2) (u32 (n_hidden * n_outputs)) _
    (fun _ _ _ => rfl)]

/-- The network `network_init` returns has the shape it was given and six buffers of the
sizes passed to `calloc`. -/
theorem network_init_allocated (n_inputs n_hidden n_outputs : Nat) (rand : ρ → α × ρ) (s : ρ)
    (sqrt : α → α) (hi : n_inputs < 2 ^ 32) (hh : n_hidden < 2 ^ 32) (ho : n_outputs < 2 ^ 32) :
    ∃ nw s', network_init n_inputs n_hidden n_outputs rand s sqrt true = some (nw, s') ∧
      nw.n_inputs = n_inputs ∧ nw.n_hidden = n_hidden ∧ nw.n_outputs = n_outputs ∧
      nw.Allocated := by
  refine ⟨_, _, network_init_eq n_inputs n_hidden n_outputs rand s sqrt, rfl, rfl, rfl, ?_⟩
  refine ⟨hi, hh, ho, ?_, List.length_replicate _ _, ?_, List.length_replicate _ _,
    List.length_replicate _ _, List.length_replicate _ _⟩
  · exact ((initWeights_spec _ _ rand _ _).2.1).trans (List.length_replicate _ _)
  · exact ((initWeights_spec _ _ rand _ _).2.1).trans (List.length_replicate _ _)

/-- For a shape whose two element counts fit a `uint32_t`, the network `network_init`
returns is well formed: each buffer is sized to the shape. -/
theorem network_init_wf (n_inputs n_hidden n_outputs : Nat) (rand : ρ → α × ρ) (s : ρ)
    (sqrt : α → α) (hi : n_inputs < 2 ^ 32) (hh : n_hidden < 2 ^ 32) (ho : n_outputs < 2 ^ 32)
    (hih : n_inputs * n_hidden < 2 ^ 32) (hho : n_hidden * n_outputs < 2 ^ 32) :
    ∃ nw s', network_init n_inputs n_hidden n_outputs rand s sqrt true = some (nw, s') ∧
      nw.n_inputs = n_inputs ∧ nw.n_hidden = n_hidden ∧ nw.n_outputs = n_outputs ∧
      nw.WF := by
  obtain ⟨nw, s', h, e1, e2, e3, hal⟩ :=
    network_init_allocated n_inputs n_hidden n_outputs rand s sqrt hi hh ho
  refine ⟨nw, s', h, e1, e2, e3, ?_⟩
  obtain ⟨a1, a2, a3, a4, a5, a6, a7, a8, a9⟩ := hal
  rw [e1, e2] at a4
  rw [e2, e3] at a6
  rw [u32, Nat.mod_eq_of_lt hih] at a4
  rw [u32, Nat.mod_eq_of_lt hho] at a6
  rw [← e1, ← e2] at hih a4
  rw [← e2, ← e3] at hho a6
  exact ⟨a1, a2, a3, hih, by rw [e2] at hho ⊢; exact hho, a4, a5, by rw [e2] at a6 ⊢; exact a6,
    a7, a8, a9⟩

end InitLemmas

/-! ## Sequences of training steps -/

/-- The momentum update keeps the sizes of the velocity and weight buffers. -/
theorem trainMomentum_length {α : Type} [Zero α] [Add α] [Sub α] [Mul α] (rows cols : Nat)
    (momentum : α) (delta : Nat → Nat → α) (v0 w0 : List α) :
    (trainMomentum rows cols momentum delta (v0, w0)).1.length = v0.length ∧
    (trainMomentum rows cols momentum delta (v0, w0)).2.length = w0.length := by
  unfold trainMomentum
  refine forLoop_inv (fun _ (st : List α × List α) =>
    st.1.length = v0.length ∧ st.2.length = w0.length) rows _ (v0, w0) ⟨rfl, rfl⟩ ?_
  intro r _ st hst
  refine forLoop_inv (fun _ (st : List α × List α) =>
    st.1.length = v0.length ∧ st.2.length = w0.length) cols _ st hst ?_
  intro c _ st hst
  exact ⟨by simp only [length_wr]; exact hst.1, by simp only [length_wr]; exact hst.2⟩

/-- The forward pass keeps a well-formed network well formed. -/
theorem network_predict_wf {α : Type} [Zero α] [One α] [Add α] [Mul α] [Div α] [Neg α]
    (exp : α → α) (nw : Network α) (input : List α) (hwf : nw.WF) :
    (network_predict exp nw input).WF := by
  obtain ⟨a1, a2, a3, a4, a5, a6, a7, a8, a9, a10, a11⟩ := hwf
  rw [network_predict_eq]
  refine ⟨a1, a2, a3, a4, a5, a6, a7, a8, a9, ?_, ?_⟩
  · show (predictHidden exp nw input).length = nw.n_hidden
    unfold predictHidden
    rw [length_forLoop_wr nw.n_hidden (fun j _ => _), a10]
  · show (predictOutput exp nw input).length = nw.n_outputs
    unfold predictOutput
    rw [length_forLoop_wr nw.n_outputs (fun k _ => _), a11]

section TrainSequence

variable {α : Type} [Zero α] [One α] [Add α] [Sub α] [Mul α] [Div α] [Neg α]

/-- A training step keeps the shape, and keeps a well-formed network and a trainer that
fits it so. -/
theorem trainer_train_wf (exp : α → α) (tr : Trainer α) (nw : Network α)
    (input y : List α) (lr momentum : α) (hwf : nw.WF) (htr : tr.WF nw) :
    (trainer_train exp tr nw input y lr momentum).2.n_inputs = nw.n_inputs ∧
    (trainer_train exp tr nw input y lr momentum).2.n_hidden = nw.n_hidden ∧
    (trainer_train exp tr nw input y lr momentum).2.n_outputs = nw.n_outputs ∧
    (trainer_train exp tr nw input y lr momentum).2.WF ∧
    (trainer_train exp tr nw input y lr momentum).1.WF
      (trainer_train exp tr nw input y lr momentum).2 := by
  obtain ⟨a1, a2, a3, a4, a5, a6, a7, a8, a9, a10, a11⟩ := network_predict_wf exp nw input hwf
  obtain ⟨t1, t2, t3, t4⟩ := htr
  rw [trainer_train_eq]
  simp only [predict_n_inputs, predict_n_hidden, predict_n_outputs, predict_weights_hidden,
    predict_weights_output, predict_biases_hidden, predict_biases_output]
    at a1 a2 a3 a4 a5 a6 a7 a8 a9 a10 a11
  simp only [Network.WF, Trainer.WF, predict_n_inputs, predict_n_hidden, predict_n_outputs,
    predict_weights_hidden, predict_weights_output, predict_biases_hidden,
    predict_biases_output, true_and]
  refine ⟨⟨a1, a2, a3, a4, a5, ?_, ?_, ?_, ?_, a10, a11⟩, ⟨?_, ?_, ?_, ?_⟩⟩
  · rw [(trainMomentum_length _ _ _ _ _ _).2, a6]
  · unfold trainBias
    rw [length_forLoop_wr nw.n_hidden (fun t b => _), a7]
  · rw [(trainMomentum_length _ _ _ _ _ _).2, a8]
  · unfold trainBias
    rw [length_forLoop_wr nw.n_outputs (fun t b => _), a9]
  · unfold trainGradHidden
    rw [length_forLoop_wr _ (fun j _ => _), t1]
  · unfold trainGradOutput
    rw [length_forLoop_wr _ (fun k _ => _), t2]
  · rw [(trainMomentum_length _ _ _ _ _ _).1, t3]
  · rw [(trainMomentum_length _ _ _ _ _ _).1, t4]

theorem train_loop_succ (exp : α → α) (momentum : α) (examples : Nat → List α × List α × α)
    (n : Nat) (st : Trainer α × Network α) :
    train_loop exp momentum examples (n + 1) st
      = trainer_train exp (train_loop exp momentum examples n st).1
          (train_loop exp momentum examples n st).2
          (examples n).1 (examples n).2.1 (examples n).2.2 momentum := rfl

/-- Every state of a training loop has the shape of the first one and is well formed. -/
theorem train_loop_wf (exp : α → α) (momentum : α) (examples : Nat → List α × List α × α)
    (tr : Trainer α) (nw : Network α) (hwf : nw.WF) (htr : tr.WF nw) (n : Nat) :
    (train_loop exp momentum examples n (tr, nw)).2.n_inputs = nw.n_inputs ∧
    (train_loop exp momentum examples n (tr, nw)).2.n_hidden = nw.n_hidden ∧
    (train_loop exp momentum examples n (tr, nw)).2.n_outputs = nw.n_outputs ∧
    (train_loop exp momentum examples n (tr, nw)).2.WF ∧
    (train_loop exp momentum examples n (tr, nw)).1.WF
      (train_loop exp momentum examples n (tr, nw)).2 := by
  induction n with
  | zero => exact ⟨rfl, rfl, rfl, hwf, htr⟩
  | succ n ih =>
    obtain ⟨e1, e2, e3, w, t⟩ := ih
    obtain ⟨f1, f2, f3, w', t'⟩ := trainer_train_wf exp _ _ (examples n).1 (examples n).2.1
      (examples n).2.2 momentum w t
    rw [train_loop_succ]
    exact ⟨f1.trans e1, f2.trans e2, f3.trans e3, w', t'⟩

end TrainSequence

/-! ## Momentum as an exponentially weighted sum -/

/-- A sequence that starts at 0 and obeys `v (n + 1) = m * v n + d n` is the exponentially
weighted sum of the `d`. -/
theorem geometric_accumulate {α : Type} [Field α] (m : α) (v d : Nat → α) (h0 : v 0 = 0)
    (hstep : ∀ n, v (n + 1) = m * v n + d n) (n : Nat) :
    v n = ∑ t ∈ Finset.range n, m ^ (n - 1 - t) * d t := by
  induction n with
  | zero => rw [h0, Finset.sum_range_zero]
  | succ n ih =>
    rw [hstep, ih, Finset.sum_range_succ, Finset.mul_sum]
    have e : n + 1 - 1 - n = 0 := by omega
    rw [e, pow_zero, one_mul]
    congr 1
    apply Finset.sum_congr rfl
    intro t ht
    have ht' : t < n := Finset.mem_range.mp ht
    have e2 : n + 1 - 1 - t = (n - 1 - t) + 1 := by omega
    rw [e2, pow_succ]
    ring

/-- A sequence that obeys `w (n + 1) = w n - v (n + 1)` is its start minus the sum of
the `v`. -/
theorem subtract_accumulate {α : Type} [Field α] (w v : Nat → α)
    (hstep : ∀ n, w (n + 1) = w n - v (n + 1)) (n : Nat) :
    w n = w 0 - ∑ t ∈ Finset.range n, v (t + 1) := by
  induction n with
  | zero => rw [Finset.sum_range_zero, sub_zero]
  | succ n ih => rw [hstep, ih, Finset.sum_range_succ, sub_sub]

/-- A fresh trainer for a well-formed network fits it and holds zeros. -/
theorem trainer_init_spec {α : Type} [Zero α] (nw : Network α) (hwf : nw.WF) :
    ∃ tr, trainer_init nw true = some tr ∧ tr.WF nw ∧
      (∀ idx, rd tr.velocity_hidden idx = 0) ∧ (∀ idx, rd tr.velocity_output idx = 0) ∧
      (∀ idx, rd tr.grad_hidden idx = 0) ∧ (∀ idx, rd tr.grad_output idx = 0) := by
  have e1 : u32 (nw.n_inputs * nw.n_hidden) = nw.n_inputs * nw.n_hidden :=
    Nat.mod_eq_of_lt hwf.2.2.2.1
  have e2 : u32 (nw.n_hidden * nw.n_outputs) = nw.n_hidden * nw.n_outputs :=
    Nat.mod_eq_of_lt hwf.2.2.2.2.1
  have hz : ∀ (n idx : Nat), rd (List.replicate n (0 : α)) idx = 0 := by
    intro n idx
    unfold rd
    rw [List.getD_eq_getElem?_getD, List.getElem?_replicate]
    split <;> rfl
  refine ⟨_, rfl, ⟨List.length_replicate _ _, List.length_replicate _ _, ?_, ?_⟩,
    fun _ => hz _ _, fun _ => hz _ _, fun _ => hz _ _, fun _ => hz _ _⟩
  · rw [List.length_replicate, e1]
  · rw [List.length_replicate, e2]

/-- The velocity buffers of a training loop started on zero velocities, in terms of the
gradient buffers each call leaves: after `n` calls each velocity entry is the sum over the
calls `t + 1 = 1 .. n` of `m ^ (n - (t + 1))` times `lr·grad·activation` of call `t + 1`, and
each weight is its initial value minus the sum of the velocities after the calls `1 .. n`. -/
theorem velocity_accumulates_buffers {α : Type} [Field α] (exp : α → α) (m : α)
    (examples : Nat → List α × List α × α) (nw0 : Network α) (tr0 : Trainer α)
    (hwf : nw0.WF) (htr : tr0.WF nw0)
    (zh : ∀ idx, rd tr0.velocity_hidden idx = 0) (zo : ∀ idx, rd tr0.velocity_output idx = 0)
    (n : Nat) :
        (∀ j k, j < nw0.n_hidden → k < nw0.n_outputs →
          rd (train_loop exp m examples n (tr0, nw0)).1.velocity_output (j * nw0.n_outputs + k)
            = ∑ t ∈ Finset.range n, m ^ (n - 1 - t)
                * ((examples t).2.2
                  * rd (train_loop exp m examples (t + 1) (tr0, nw0)).1.grad_output k
                  * rd (network_predict exp (train_loop exp m examples t (tr0, nw0)).2
                      (examples t).1).hidden j) ∧
          rd (train_loop exp m examples n (tr0, nw0)).2.weights_output (j * nw0.n_outputs + k)
            = rd nw0.weights_output (j * nw0.n_outputs + k)
              - ∑ t ∈ Finset.range n,
                  rd (train_loop exp m examples (t + 1) (tr0, nw0)).1.velocity_output
                    (j * nw0.n_outputs + k)) ∧
        (∀ i j, i < nw0.n_inputs → j < nw0.n_hidden →
          rd (train_loop exp m examples n (tr0, nw0)).1.velocity_hidden (i * nw0.n_hidden + j)
            = ∑ t ∈ Finset.range n, m ^ (n - 1 - t)
                * ((examples t).2.2
                  * rd (train_loop exp m examples (t + 1) (tr0, nw0)).1.grad_hidden j
                  * rd (examples t).1 i) ∧
          rd (train_loop exp m examples n (tr0, nw0)).2.weights_hidden (i * nw0.n_hidden + j)
            = rd nw0.weights_hidden (i * nw0.n_hidden + j)
              - ∑ t ∈ Finset.range n,
                  rd (train_loop exp m examples (t + 1) (tr0, nw0)).1.velocity_hidden
                    (i * nw0.n_hidden + j)) := by
  have step := fun n => train_loop_wf exp m examples tr0 nw0 hwf htr n
  constructor
  · intro j k hj hk
    have hs : ∀ n,
        rd (train_loop exp m examples (n + 1) (tr0, nw0)).1.velocity_output (j * nw0.n_outputs + k)
          = m * rd (train_loop exp m examples n (tr0, nw0)).1.velocity_output
              (j * nw0.n_outputs + k)
            + (examples n).2.2
              * rd (train_loop exp m examples (n + 1) (tr0, nw0)).1.grad_output k
              * rd (network_predict exp (train_loop exp m examples n (tr0, nw0)).2
                  (examples n).1).hidden j ∧
        rd (train_loop exp m examples (n + 1) (tr0, nw0)).2.weights_output (j * nw0.n_outputs + k)
          = rd (train_loop exp m examples n (tr0, nw0)).2.weights_output (j * nw0.n_outputs + k)
            - rd (train_loop exp m examples (n + 1) (tr0, nw0)).1.velocity_output
                (j * nw0.n_outputs + k) := by
      intro n
      obtain ⟨_, e2, e3, w, t⟩ := step n
      have h := train_output_weights exp _ _ (examples n).1 (examples n).2.1 (examples n).2.2 m
        w t j k (by rw [e2]; exact hj) (by rw [e3]; exact hk)
      rw [e3] at h
      exact h
    exact ⟨geometric_accumulate m
        (fun n => rd (train_loop exp m examples n (tr0, nw0)).1.velocity_output
          (j * nw0.n_outputs + k))
        (fun t => (examples t).2.2
          * rd (train_loop exp m examples (t + 1) (tr0, nw0)).1.grad_output k
          * rd (network_predict exp (train_loop exp m examples t (tr0, nw0)).2
              (examples t).1).hidden j)
        (zo _) (fun n => (hs n).1) n,
      subtract_accumulate
        (fun n => rd (train_loop exp m examples n (tr0, nw0)).2.weights_output
          (j * nw0.n_outputs + k))
        (fun n => rd (train_loop exp m examples n (tr0, nw0)).1.velocity_output
          (j * nw0.n_outputs + k))
        (fun n => (hs n).2) n⟩
  · intro i j hi hj
    have hs : ∀ n,
        rd (train_loop exp m examples (n + 1) (tr0, nw0)).1.velocity_hidden (i * nw0.n_hidden + j)
          = m * rd (train_loop exp m examples n (tr0, nw0)).1.velocity_hidden
              (i * nw0.n_hidden + j)
            + (examples n).2.2
              * rd (train_loop exp m examples (n + 1) (tr0, nw0)).1.grad_hidden j
              * rd (examples n).1 i ∧
        rd (train_loop exp m examples (n + 1) (tr0, nw0)).2.weights_hidden (i * nw0.n_hidden + j)
          = rd (train_loop exp m examples n (tr0, nw0)).2.weights_hidden (i * nw0.n_hidden + j)
            - rd (train_loop exp m examples (n + 1) (tr0, nw0)).1.velocity_hidden
                (i * nw0.n_hidden + j) := by
      intro n
      obtain ⟨e1, e2, _, w, t⟩ := step n
      have h := train_hidden_weights exp _ _ (examples n).1 (examples n).2.1 (examples n).2.2 m
        w t i j (by rw [e1]; exact hi) (by rw [e2]; exact hj)
      rw [e2] at h
      exact h
    exact ⟨geometric_accumulate m
        (fun n => rd (train_loop exp m examples n (tr0, nw0)).1.velocity_hidden
          (i * nw0.n_hidden + j))
        (fun t => (examples t).2.2
          * rd (train_loop exp m examples (t + 1) (tr0, nw0)).1.grad_hidden j
          * rd (examples t).1 i)
        (zh _) (fun n => (hs n).1) n,
      subtract_accumulate
        (fun n => rd (train_loop exp m examples n (tr0, nw0)).2.weights_hidden
          (i * nw0.n_hidden + j))
        (fun n => rd (train_loop exp m examples n (tr0, nw0)).1.velocity_hidden
          (i * nw0.n_hidden + j))
        (fun n => (hs n).2) n⟩

/-! ## Backpropagation as differentiation -/

section Calculus

/-- The derivative of `sigmoid` at `x` is `sigmoid_prim` of its value at `x`. -/
theorem hasDerivAt_sigmoid (x : ℝ) :
    HasDerivAt (sigmoid Real.exp) (sigmoid_prim (sigmoid Real.exp x)) x := by
  have h1 : HasDerivAt (fun x : ℝ => Real.exp (-x)) (Real.exp (-x) * (-1)) x :=
    (hasDerivAt_neg x).exp
  have h2 : HasDerivAt (fun x : ℝ => 1 + Real.exp (-x)) (Real.exp (-x) * (-1)) x :=
    h1.const_add 1
  have hpos : 0 < 1 + Real.exp (-x) := by positivity
  have h3 := (hasDerivAt_const x (1 : ℝ)).div h2 hpos.ne'
  have e : sigmoid_prim (sigmoid Real.exp x)
      = (0 * (1 + Real.exp (-x)) - 1 * (Real.exp (-x) * (-1))) / (1 + Real.exp (-x)) ^ 2 := by
    unfold sigmoid_prim sigmoid
    field_simp
    ring
  rw [e]
  exact h3

/-- The chain rule through the output layer: when every output sum `z k` moves with
derivative `dz k`, the squared error moves with derivative
`Σ_k (o_k - t_k) · o_k (1 - o_k) · dz k`. -/
theorem hasDerivAt_errorAtOutputSums (n : Nat) (t : Nat → ℝ) (z : Nat → ℝ → ℝ)
    (dz : Nat → ℝ) (p : ℝ) (hz : ∀ k, k < n → HasDerivAt (z k) (dz k) p) :
    HasDerivAt (fun q => errorAtOutputSums Real.exp n t (fun k => z k q))
      (∑ k ∈ Finset.range n,
        (sigmoid Real.exp (z k p) - t k) * sigmoid_prim (sigmoid Real.exp (z k p)) * dz k) p := by
  unfold errorAtOutputSums squaredError
  have hterm : ∀ k ∈ Finset.range n,
      HasDerivAt (fun q => (sigmoid Real.exp (z k q) - t k) ^ 2)
        (2 * ((sigmoid Real.exp (z k p) - t k)
          * (sigmoid_prim (sigmoid Real.exp (z k p)) * dz k))) p := by
    intro k hk
    have h1 : HasDerivAt (fun q => sigmoid Real.exp (z k q))
        (sigmoid_prim (sigmoid Real.exp (z k p)) * dz k) p :=
      (hasDerivAt_sigmoid (z k p)).comp p (hz k (Finset.mem_range.mp hk))
    have h2 := (h1.sub_const (t k)).pow 2
    convert h2 using 1
    push_cast
    ring
  have hsum := (HasDerivAt.sum hterm).const_mul (1 / 2 : ℝ)
  convert hsum using 1
  rw [Finset.mul_sum]
  apply Finset.sum_congr rfl
  intro k _
  ring

/-- A buffer with one element overwritten reads as the new value there and as before
elsewhere. -/
theorem rd_wr_ite {α : Type} [Zero α] (buf : List α) (i t : Nat) (v : α) (h : i < buf.length) :
    rd (wr buf i v) t = if t = i then v else rd buf t := by
  by_cases e : t = i
  · subst e
    rw [rd_wr_same _ _ _ h, if_pos rfl]
  · rw [rd_wr_ne _ _ _ _ (fun h' => e h'.symm), if_neg e]

/-- Two row-major indices of one matrix agree only when row and column agree. -/
theorem flat_index_inj {b i j i' j' : Nat} (hj : j < b) (hj' : j' < b) :
    i * b + j = i' * b + j' ↔ i = i' ∧ j = j' := by
  constructor
  · intro h
    have h1 : (i * b + j) / b = (i' * b + j') / b := by rw [h]
    have h2 : (i * b + j) % b = (i' * b + j') % b := by rw [h]
    have hb : 0 < b := by omega
    rw [Nat.mul_comm i b, Nat.mul_comm i' b, Nat.mul_add_div hb, Nat.mul_add_div hb,
      Nat.div_eq_of_lt hj, Nat.div_eq_of_lt hj'] at h1
    rw [Nat.mul_comm i b, Nat.mul_comm i' b, Nat.mul_add_mod, Nat.mul_add_mod,
      Nat.mod_eq_of_lt hj, Nat.mod_eq_of_lt hj'] at h2
    exact ⟨by omega, h2⟩
  · rintro ⟨rfl, rfl⟩
    rfl

/-- The forward pass in closed form: the squared error of `network_predict` is the error
function at the hidden sums of the network. -/
theorem predictError_eq {α : Type} [Field α] (exp : α → α) (nw : Network α) (input y : List α)
    (hwf : nw.WF) :
    predictError exp nw input y
      = errorAtHiddenSums exp nw (rd y) (fun j =>
          (∑ i ∈ Finset.range nw.n_inputs, rd input i * rd nw.weights_hidden (i * nw.n_hidden + j))
            + rd nw.biases_hidden j) := by
  unfold predictError errorAtHiddenSums errorAtOutputSums squaredError
  congr 1
  apply Finset.sum_congr rfl
  intro k hk
  have hk := Finset.mem_range.mp hk
  congr 2
  rw [network_predict_eq]
  show rd (predictOutput exp nw input) k = _
  unfold predictOutput
  rw [rd_forLoop_wr_const _ _ _ _ hk (by rw [hwf.2.2.2.2.2.2.2.2.2.2]; exact hk),
    outputSum_eq nw _ hwf k hk]
  congr 2
  apply Finset.sum_congr rfl
  intro j hj
  have hj := Finset.mem_range.mp hj
  congr 1
  unfold predictHidden
  rw [rd_forLoop_wr_const _ _ _ _ hj (by rw [hwf.2.2.2.2.2.2.2.2.2.1]; exact hj),
    hiddenSum_eq nw input hwf j hj]

/-- The activations of the forward pass in closed form. -/
theorem predict_activations {α : Type} [Field α] (exp : α → α) (nw : Network α) (input : List α)
    (hwf : nw.WF) :
    (∀ j, j < nw.n_hidden →
      rd (network_predict exp nw input).hidden j
        = sigmoid exp ((∑ i ∈ Finset.range nw.n_inputs,
            rd input i * rd nw.weights_hidden (i * nw.n_hidden + j)) + rd nw.biases_hidden j)) ∧
    (∀ k, k < nw.n_outputs →
      rd (network_predict exp nw input).output k
        = sigmoid exp ((∑ j ∈ Finset.range nw.n_hidden,
            sigmoid exp ((∑ i ∈ Finset.range nw.n_inputs,
              rd input i * rd nw.weights_hidden (i * nw.n_hidden + j)) + rd nw.biases_hidden j)
              * rd nw.weights_output (j * nw.n_outputs + k))
            + rd nw.biases_output k)) := by
  have hh : ∀ j, j < nw.n_hidden →
      rd (predictHidden exp nw input) j
        = sigmoid exp ((∑ i ∈ Finset.range nw.n_inputs,
            rd input i * rd nw.weights_hidden (i * nw.n_hidden + j)) + rd nw.biases_hidden j) := by
    intro j hj
    unfold predictHidden
    rw [rd_forLoop_wr_const _ _ _ _ hj (by rw [hwf.2.2.2.2.2.2.2.2.2.1]; exact hj),
      hiddenSum_eq nw input hwf j hj]
  rw [network_predict_eq]
  refine ⟨hh, ?_⟩
  intro k hk
  show rd (predictOutput exp nw input) k = _
  unfold predictOutput
  rw [rd_forLoop_wr_const _ _ _ _ hk (by rw [hwf.2.2.2.2.2.2.2.2.2.2]; exact hk),
    outputSum_eq nw _ hwf k hk]
  congr 2
  apply Finset.sum_congr rfl
  intro j hj
  rw [hh j (Finset.mem_range.mp hj)]

/-- The chain rule through both layers: when every hidden sum `a j` moves with derivative
`da j`, the squared error moves with derivative
`Σ_k (o_k - t_k) · o_k (1 - o_k) · Σ_j h_j (1 - h_j) · da j · W[j][k]`. -/
theorem hasDerivAt_errorAtHiddenSums (nw : Network ℝ) (t : Nat → ℝ) (a : Nat → ℝ → ℝ)
    (da : Nat → ℝ) (p : ℝ) (ha : ∀ j, j < nw.n_hidden → HasDerivAt (a j) (da j) p) :
    HasDerivAt (fun q => errorAtHiddenSums Real.exp nw t (fun j => a j q))
      (∑ k ∈ Finset.range nw.n_outputs,
        (sigmoid Real.exp ((∑ j ∈ Finset.range nw.n_hidden,
            sigmoid Real.exp (a j p) * rd nw.weights_output (j * nw.n_outputs + k))
            + rd nw.biases_output k) - t k)
        * sigmoid_prim (sigmoid Real.exp ((∑ j ∈ Finset.range nw.n_hidden,
            sigmoid Real.exp (a j p) * rd nw.weights_output (j * nw.n_outputs + k))
            + rd nw.biases_output k))
        * ∑ j ∈ Finset.range nw.n_hidden,
            sigmoid_prim (sigmoid Real.exp (a j p)) * da j
              * rd nw.weights_output (j * nw.n_outputs + k)) p := by
  unfold errorAtHiddenSums
  apply hasDerivAt_errorAtOutputSums nw.n_outputs t
    (fun k q => (∑ j ∈ Finset.range nw.n_hidden,
      sigmoid Real.exp (a j q) * rd nw.weights_output (j * nw.n_outputs + k))
      + rd nw.biases_output k)
  intro k _
  apply HasDerivAt.add_const
  apply HasDerivAt.sum
  intro j hj
  exact ((hasDerivAt_sigmoid (a j p)).comp p (ha j (Finset.mem_range.mp hj))).mul_const _

/-- Writing back the value a buffer already holds changes no element. -/
theorem rd_wr_self {α : Type} [Zero α] (buf : List α) (i t : Nat) :
    rd (wr buf i (rd buf i)) t = rd buf t := by
  by_cases h : i < buf.length
  · rw [rd_wr_ite _ _ _ _ h]
    split
    · next e => rw [e]
    · rfl
  · simp [rd, wr, List.getD_eq_getElem?_getD, List.set_eq_of_length_le (Nat.le_of_not_lt h)]

/-- One element of a buffer as a function of the value stored at index `i`. -/
theorem hasDerivAt_rd_wr (buf : List ℝ) (i t : Nat) (h : i < buf.length) (p : ℝ) :
    HasDerivAt (fun q => rd (wr buf i q) t) (if t = i then 1 else 0) p := by
  have e : (fun q => rd (wr buf i q) t) = fun q => if t = i then q else rd buf t := by
    funext q
    exact rd_wr_ite buf i t q h
  rw [e]
  by_cases c : t = i
  · simp only [if_pos c]
    exact hasDerivAt_id p
  · simp only [if_neg c]
    exact hasDerivAt_const p _

/-- A sum along one column of a row-major matrix that picks the element at `(i0, j0)`. -/
theorem sum_flat_ite {α : Type} [Field α] (a b : Nat) (f : Nat → α) (i0 j0 j : Nat)
    (hi0 : i0 < a) (hj0 : j0 < b) (hj : j < b) :
    (∑ i ∈ Finset.range a, f i * (if i * b + j = i0 * b + j0 then 1 else 0))
      = if j = j0 then f i0 else 0 := by
  by_cases c : j = j0
  · subst c
    rw [if_pos rfl, Finset.sum_eq_single i0]
    · rw [if_pos rfl, mul_one]
    · intro i _ hne
      rw [if_neg (fun h => hne ((flat_index_inj hj hj).mp h).1), mul_zero]
    · intro h
      exact absurd (Finset.mem_range.mpr hi0) h
  · rw [if_neg c]
    apply Finset.sum_eq_zero
    intro i _
    rw [if_neg (fun h => c ((flat_index_inj hj hj0).mp h).2), mul_zero]

/-- The error function reads the output sums of the units `k < n` only. -/
theorem errorAtOutputSums_congr {α : Type} [Field α] (exp : α → α) (n : Nat) (t : Nat → α)
    (z z' : Nat → α) (h : ∀ k, k < n → z k = z' k) :
    errorAtOutputSums exp n t z = errorAtOutputSums exp n t z' := by
  unfold errorAtOutputSums squaredError
  congr 1
  apply Finset.sum_congr rfl
  intro k hk
  show (sigmoid exp (z k) - t k) ^ 2 = (sigmoid exp (z' k) - t k) ^ 2
  rw [h k (Finset.mem_range.mp hk)]

/-- The error function reads the hidden sums of the units `j < n_hidden` only. -/
theorem errorAtHiddenSums_congr {α : Type} [Field α] (exp : α → α) (nw : Network α) (t : Nat → α)
    (a a' : Nat → α) (h : ∀ j, j < nw.n_hidden → a j = a' j) :
    errorAtHiddenSums exp nw t a = errorAtHiddenSums exp nw t a' := by
  unfold errorAtHiddenSums
  apply errorAtOutputSums_congr
  intro k _
  congr 1
  apply Finset.sum_congr rfl
  intro j hj
  rw [h j (Finset.mem_range.mp hj)]

/-- The derivative of the error when only the output sum of unit `k0` moves. -/
theorem hasDerivAt_errorAtOutputSums_single (n : Nat) (t : Nat → ℝ) (z : Nat → ℝ → ℝ)
    (p : ℝ) (k0 : Nat) (c : ℝ) (hk0 : k0 < n)
    (hz : ∀ k, k < n → HasDerivAt (z k) (if k = k0 then c else 0) p) :
    HasDerivAt (fun q => errorAtOutputSums Real.exp n t (fun k => z k q))
      ((sigmoid Real.exp (z k0 p) - t k0) * sigmoid_prim (sigmoid Real.exp (z k0 p)) * c) p := by
  have h := hasDerivAt_errorAtOutputSums n t z (fun k => if k = k0 then c else 0) p hz
  convert h using 1
  beta_reduce
  rw [Finset.sum_eq_single k0]
  · rw [if_pos rfl]
  · intro k _ hne
    rw [if_neg hne, mul_zero]
  · intro h'
    exact absurd (Finset.mem_range.mpr hk0) h'

/-- The derivative of the error when only the hidden sum of unit `j0` moves. -/
theorem hasDerivAt_errorAtHiddenSums_single (nw : Network ℝ) (t : Nat → ℝ) (a : Nat → ℝ → ℝ)
    (p : ℝ) (j0 : Nat) (c : ℝ) (hj0 : j0 < nw.n_hidden)
    (ha : ∀ j, j < nw.n_hidden → HasDerivAt (a j) (if j = j0 then c else 0) p) :
    HasDerivAt (fun q => errorAtHiddenSums Real.exp nw t (fun j => a j q))
      ((∑ k ∈ Finset.range nw.n_outputs,
        (sigmoid Real.exp ((∑ j ∈ Finset.range nw.n_hidden,
            sigmoid Real.exp (a j p) * rd nw.weights_output (j * nw.n_outputs + k))
            + rd nw.biases_output k) - t k)
        * sigmoid_prim (sigmoid Real.exp ((∑ j ∈ Finset.range nw.n_hidden,
            sigmoid Real.exp (a j p) * rd nw.weights_output (j * nw.n_outputs + k))
            + rd nw.biases_output k))
        * rd nw.weights_output (j0 * nw.n_outputs + k))
        * sigmoid_prim (sigmoid Real.exp (a j0 p)) * c) p := by
  have h := hasDerivAt_errorAtHiddenSums nw t a (fun j => if j = j0 then c else 0) p ha
  convert h using 1
  beta_reduce
  rw [Finset.sum_mul, Finset.sum_mul]
  apply Finset.sum_congr rfl
  intro k _
  have inner : (∑ j ∈ Finset.range nw.n_hidden,
      sigmoid_prim (sigmoid Real.exp (a j p)) * (if j = j0 then c else 0)
        * rd nw.weights_output (j * nw.n_outputs + k))
      = sigmoid_prim (sigmoid Real.exp (a j0 p)) * c
        * rd nw.weights_output (j0 * nw.n_outputs + k) := by
    rw [Finset.sum_eq_single j0]
    · rw [if_pos rfl]
    · intro j _ hne
      rw [if_neg hne, mul_zero, zero_mul]
    · intro h'
      exact absurd (Finset.mem_range.mpr hj0) h'
  rw [inner]
  ring

/-- The output activation of unit `k` is `sigmoid` of the sum the source accumulates. -/
theorem predict_output_rd {α : Type} [Zero α] [One α] [Add α] [Sub α] [Mul α] [Div α] [Neg α]
    (exp : α → α) (nw : Network α) (input : List α) (hwf : nw.WF) (k : Nat)
    (hk : k < nw.n_outputs) :
    rd (network_predict exp nw input).output k
      = sigmoid exp (outputSum nw (network_predict exp nw input).hidden k) := by
  rw [network_predict_eq]
  show rd (predictOutput exp nw input) k = _
  unfold predictOutput
  rw [rd_forLoop_wr_const _ _ _ _ hk (by rw [hwf.2.2.2.2.2.2.2.2.2.2]; exact hk)]

/-- The hidden gradient of unit `j` as a sum over the output units. -/
theorem train_grad_hidden_sum {α : Type} [Field α] (exp : α → α) (tr : Trainer α)
    (nw : Network α) (input y : List α) (lr momentum : α) (hwf : nw.WF) (htr : tr.WF nw)
    (j : Nat) (hj : j < nw.n_hidden) :
    rd (trainer_train exp tr nw input y lr momentum).1.grad_hidden j
      = (∑ k ∈ Finset.range nw.n_outputs,
          (rd (network_predict exp nw input).output k - rd y k)
            * sigmoid_prim (rd (network_predict exp nw input).output k)
            * rd nw.weights_output (j * nw.n_outputs + k))
        * sigmoid_prim (rd (network_predict exp nw input).hidden j) := by
  rw [train_grad_hidden exp tr nw input y lr momentum htr j hj, forLoop_sum]
  congr 1
  apply Finset.sum_congr rfl
  intro k hk
  have hk := Finset.mem_range.mp hk
  rw [u32_flat_index hwf.2.2.2.2.1 hj hk,
    train_grad_output exp tr nw input y lr momentum htr k hk]

/-- Overwriting one parameter keeps a network well formed. -/
theorem wf_set_weights_output {α : Type} (nw : Network α) (hwf : nw.WF) (idx : Nat) (w : α) :
    ({ nw with weights_output := wr nw.weights_output idx w } : Network α).WF := by
  obtain ⟨h1, h2, h3, h4, h5, h6, h7, h8, h9, h10, h11⟩ := hwf
  exact ⟨h1, h2, h3, h4, h5, h6, h7, by rw [← h8]; exact length_wr _ _ _, h9, h10, h11⟩

theorem wf_set_biases_output {α : Type} (nw : Network α) (hwf : nw.WF) (idx : Nat) (w : α) :
    ({ nw with biases_output := wr nw.biases_output idx w } : Network α).WF := by
  obtain ⟨h1, h2, h3, h4, h5, h6, h7, h8, h9, h10, h11⟩ := hwf
  exact ⟨h1, h2, h3, h4, h5, h6, h7, h8, by rw [← h9]; exact length_wr _ _ _, h10, h11⟩

theorem wf_set_weights_hidden {α : Type} (nw : Network α) (hwf : nw.WF) (idx : Nat) (w : α) :
    ({ nw with weights_hidden := wr nw.weights_hidden idx w } : Network α).WF := by
  obtain ⟨h1, h2, h3, h4, h5, h6, h7, h8, h9, h10, h11⟩ := hwf
  exact ⟨h1, h2, h3, h4, h5, by rw [← h6]; exact length_wr _ _ _, h7, h8, h9, h10, h11⟩

theorem wf_set_biases_hidden {α : Type} (nw : Network α) (hwf : nw.WF) (idx : Nat) (w : α) :
    ({ nw with biases_hidden := wr nw.biases_hidden idx w } : Network α).WF := by
  obtain ⟨h1, h2, h3, h4, h5, h6, h7, h8, h9, h10, h11⟩ := hwf
  exact ⟨h1, h2, h3, h4, h5, h6, by rw [← h7]; exact length_wr _ _ _, h8, h9, h10, h11⟩

/-- The output gradient of unit `k0` from any output sums `z` that agree with the forward
pass at `k0`. -/
theorem grad_output_closed (tr : Trainer ℝ) (nw : Network ℝ) (input y : List ℝ)
    (lr momentum : ℝ) (hwf : nw.WF) (htr : tr.WF nw) (k0 : Nat) (hk0 : k0 < nw.n_outputs)
    (z : ℝ)
    (hz : z = (∑ j ∈ Finset.range nw.n_hidden,
        sigmoid Real.exp ((∑ i ∈ Finset.range nw.n_inputs, rd input i * rd nw.weights_hidden (i * nw.n_hidden + j)) + rd nw.biases_hidden j) * rd nw.weights_output (j * nw.n_outputs + k0)) + rd nw.biases_output k0) :
    rd (trainer_train Real.exp tr nw input y lr momentum).1.grad_output k0
      = (sigmoid Real.exp z - rd y k0) * sigmoid_prim (sigmoid Real.exp z) := by
  rw [train_grad_output Real.exp tr nw input y lr momentum htr k0 hk0,
    (predict_activations Real.exp nw input hwf).2 k0 hk0, hz]

/-- The hidden gradient of unit `j0` from any hidden sums `a` that agree with the forward
pass. -/
theorem grad_hidden_closed (tr : Trainer ℝ) (nw : Network ℝ) (input y : List ℝ)
    (lr momentum : ℝ) (hwf : nw.WF) (htr : tr.WF nw) (j0 : Nat) (hj0 : j0 < nw.n_hidden)
    (a : Nat → ℝ)
    (ha : ∀ j, j < nw.n_hidden → a j = ((∑ i ∈ Finset.range nw.n_inputs, rd input i * rd nw.weights_hidden (i * nw.n_hidden + j)) + rd nw.biases_hidden j)) :
    rd (trainer_train Real.exp tr nw input y lr momentum).1.grad_hidden j0
      = (∑ k ∈ Finset.range nw.n_outputs,
        (sigmoid Real.exp ((∑ j ∈ Finset.range nw.n_hidden,
            sigmoid Real.exp (a j) * rd nw.weights_output (j * nw.n_outputs + k))
            + rd nw.biases_output k) - rd y k)
        * sigmoid_prim (sigmoid Real.exp ((∑ j ∈ Finset.range nw.n_hidden,
            sigmoid Real.exp (a j) * rd nw.weights_output (j * nw.n_outputs + k))
            + rd nw.biases_output k))
        * rd nw.weights_output (j0 * nw.n_outputs + k))
        * sigmoid_prim (sigmoid Real.exp (a j0)) := by
  obtain ⟨hh, ho⟩ := predict_activations Real.exp nw input hwf
  rw [train_grad_hidden_sum Real.exp tr nw input y lr momentum hwf htr j0 hj0, hh j0 hj0,
    ← ha j0 hj0]
  congr 1
  apply Finset.sum_congr rfl
  intro k hk
  have e : (∑ j ∈ Finset.range nw.n_hidden,
      sigmoid Real.exp (a j) * rd nw.weights_output (j * nw.n_outputs + k))
      = ∑ j ∈ Finset.range nw.n_hidden,
        sigmoid Real.exp ((∑ i ∈ Finset.range nw.n_inputs, rd input i * rd nw.weights_hidden (i * nw.n_hidden + j)) + rd nw.biases_hidden j) * rd nw.weights_output (j * nw.n_outputs + k) := by
    apply Finset.sum_congr rfl
    intro j hj
    rw [ha j (Finset.mem_range.mp hj)]
  rw [ho k (Finset.mem_range.mp hk), e]

/-- The squared error as a function of one output-layer weight has derivative
`grad_output[k0] * hidden[j0]` at the weight the network holds. -/
theorem hasDerivAt_weights_output (tr : Trainer ℝ) (nw : Network ℝ) (input y : List ℝ)
    (lr momentum : ℝ) (hwf : nw.WF) (htr : tr.WF nw) (j0 k0 : Nat)
    (hj0 : j0 < nw.n_hidden) (hk0 : k0 < nw.n_outputs) :
    HasDerivAt (fun w => predictError Real.exp
        { nw with weights_output := wr nw.weights_output (j0 * nw.n_outputs + k0) w } input y)
      (rd (trainer_train Real.exp tr nw input y lr momentum).1.grad_output k0
        * rd (network_predict Real.exp nw input).hidden j0)
      (rd nw.weights_output (j0 * nw.n_outputs + k0)) := by
  have hidx : j0 * nw.n_outputs + k0 < nw.weights_output.length := by
    rw [hwf.2.2.2.2.2.2.2.1]
    exact flat_index_lt hj0 hk0
  have e : (fun w => predictError Real.exp
        { nw with weights_output := wr nw.weights_output (j0 * nw.n_outputs + k0) w } input y)
      = fun w => errorAtOutputSums Real.exp nw.n_outputs (rd y) (fun k =>
          (fun k w => (∑ j ∈ Finset.range nw.n_hidden,
            sigmoid Real.exp ((∑ i ∈ Finset.range nw.n_inputs, rd input i * rd nw.weights_hidden (i * nw.n_hidden + j)) + rd nw.biases_hidden j) * rd (wr nw.weights_output (j0 * nw.n_outputs + k0) w) (j * nw.n_outputs + k))
            + rd nw.biases_output k) k w) := by
    funext w
    rw [predictError_eq Real.exp _ input y (wf_set_weights_output nw hwf _ w)]
    rfl
  rw [e]
  have hz : ∀ k, k < nw.n_outputs →
      HasDerivAt ((fun k w => (∑ j ∈ Finset.range nw.n_hidden,
            sigmoid Real.exp ((∑ i ∈ Finset.range nw.n_inputs, rd input i * rd nw.weights_hidden (i * nw.n_hidden + j)) + rd nw.biases_hidden j) * rd (wr nw.weights_output (j0 * nw.n_outputs + k0) w) (j * nw.n_outputs + k))
            + rd nw.biases_output k) k)
        (if k = k0 then sigmoid Real.exp ((∑ i ∈ Finset.range nw.n_inputs, rd input i * rd nw.weights_hidden (i * nw.n_hidden + j0)) + rd nw.biases_hidden j0) else 0)
        (rd nw.weights_output (j0 * nw.n_outputs + k0)) := by
    intro k hk
    have hs : ∀ j ∈ Finset.range nw.n_hidden,
        HasDerivAt (fun w => sigmoid Real.exp ((∑ i ∈ Finset.range nw.n_inputs, rd input i * rd nw.weights_hidden (i * nw.n_hidden + j)) + rd nw.biases_hidden j)
            * rd (wr nw.weights_output (j0 * nw.n_outputs + k0) w) (j * nw.n_outputs + k))
          (sigmoid Real.exp ((∑ i ∈ Finset.range nw.n_inputs, rd input i * rd nw.weights_hidden (i * nw.n_hidden + j)) + rd nw.biases_hidden j) * (if j * nw.n_outputs + k = j0 * nw.n_outputs + k0 then 1 else 0))
          (rd nw.weights_output (j0 * nw.n_outputs + k0)) := fun j _ =>
      (hasDerivAt_rd_wr nw.weights_output _ (j * nw.n_outputs + k) hidx _).const_mul _
    have h := (HasDerivAt.sum hs).add_const (rd nw.biases_output k)
    rw [sum_flat_ite nw.n_hidden nw.n_outputs (fun j => sigmoid Real.exp ((∑ i ∈ Finset.range nw.n_inputs, rd input i * rd nw.weights_hidden (i * nw.n_hidden + j)) + rd nw.biases_hidden j)) j0 k0 k hj0 hk0 hk] at h
    exact h
  have hd := hasDerivAt_errorAtOutputSums_single nw.n_outputs (rd y) _ _ k0 _ hk0 hz
  convert hd using 1
  beta_reduce
  rw [grad_output_closed tr nw input y lr momentum hwf htr k0 hk0 _ rfl,
    (predict_activations Real.exp nw input hwf).1 j0 hj0]
  simp only [rd_wr_self]

/-- The squared error as a function of one output-layer bias has derivative
`grad_output[k0]` at the bias the network holds. -/
theorem hasDerivAt_biases_output (tr : Trainer ℝ) (nw : Network ℝ) (input y : List ℝ)
    (lr momentum : ℝ) (hwf : nw.WF) (htr : tr.WF nw) (k0 : Nat) (hk0 : k0 < nw.n_outputs) :
    HasDerivAt (fun w => predictError Real.exp
        { nw with biases_output := wr nw.biases_output k0 w } input y)
      (rd (trainer_train Real.exp tr nw input y lr momentum).1.grad_output k0)
      (rd nw.biases_output k0) := by
  have hidx : k0 < nw.biases_output.length := by
    rw [hwf.2.2.2.2.2.2.2.2.1]
    exact hk0
  have e : (fun w => predictError Real.exp
        { nw with biases_output := wr nw.biases_output k0 w } input y)
      = fun w => errorAtOutputSums Real.exp nw.n_outputs (rd y) (fun k =>
          (fun k w => (∑ j ∈ Finset.range nw.n_hidden,
            sigmoid Real.exp ((∑ i ∈ Finset.range nw.n_inputs, rd input i * rd nw.weights_hidden (i * nw.n_hidden + j)) + rd nw.biases_hidden j) * rd nw.weights_output (j * nw.n_outputs + k))
            + rd (wr nw.biases_output k0 w) k) k w) := by
    funext w
    rw [predictError_eq Real.exp _ input y (wf_set_biases_output nw hwf _ w)]
    rfl
  rw [e]
  have hz : ∀ k, k < nw.n_outputs →
      HasDerivAt ((fun k w => (∑ j ∈ Finset.range nw.n_hidden,
            sigmoid Real.exp ((∑ i ∈ Finset.range nw.n_inputs, rd input i * rd nw.weights_hidden (i * nw.n_hidden + j)) + rd nw.biases_hidden j) * rd nw.weights_output (j * nw.n_outputs + k))
            + rd (wr nw.biases_output k0 w) k) k)
        (if k = k0 then 1 else 0) (rd nw.biases_output k0) := fun k _ =>
    (hasDerivAt_rd_wr nw.biases_output k0 k hidx _).const_add _
  have hd := hasDerivAt_errorAtOutputSums_single nw.n_outputs (rd y) _ _ k0 _ hk0 hz
  convert hd using 1
  beta_reduce
  rw [grad_output_closed tr nw input y lr momentum hwf htr k0 hk0 _ rfl, mul_one]
  simp only [rd_wr_self]

/-- The squared error as a function of one hidden-layer weight has derivative
`grad_hidden[j0] * input[i0]` at the weight the network holds. -/
theorem hasDerivAt_weights_hidden (tr : Trainer ℝ) (nw : Network ℝ) (input y : List ℝ)
    (lr momentum : ℝ) (hwf : nw.WF) (htr : tr.WF nw) (i0 j0 : Nat)
    (hi0 : i0 < nw.n_inputs) (hj0 : j0 < nw.n_hidden) :
    HasDerivAt (fun w => predictError Real.exp
        { nw with weights_hidden := wr nw.weights_hidden (i0 * nw.n_hidden + j0) w } input y)
      (rd (trainer_train Real.exp tr nw input y lr momentum).1.grad_hidden j0 * rd input i0)
      (rd nw.weights_hidden (i0 * nw.n_hidden + j0)) := by
  have hidx : i0 * nw.n_hidden + j0 < nw.weights_hidden.length := by
    rw [hwf.2.2.2.2.2.1]
    exact flat_index_lt hi0 hj0
  have e : (fun w => predictError Real.exp
        { nw with weights_hidden := wr nw.weights_hidden (i0 * nw.n_hidden + j0) w } input y)
      = fun w => errorAtHiddenSums Real.exp nw (rd y) (fun j =>
          (fun j w => (∑ i ∈ Finset.range nw.n_inputs,
            rd input i * rd (wr nw.weights_hidden (i0 * nw.n_hidden + j0) w) (i * nw.n_hidden + j))
            + rd nw.biases_hidden j) j w) := by
    funext w
    rw [predictError_eq Real.exp _ input y (wf_set_weights_hidden nw hwf _ w)]
    rfl
  rw [e]
  have ha : ∀ j, j < nw.n_hidden →
      HasDerivAt ((fun j w => (∑ i ∈ Finset.range nw.n_inputs,
            rd input i * rd (wr nw.weights_hidden (i0 * nw.n_hidden + j0) w) (i * nw.n_hidden + j))
            + rd nw.biases_hidden j) j)
        (if j = j0 then rd input i0 else 0)
        (rd nw.weights_hidden (i0 * nw.n_hidden + j0)) := by
    intro j hj
    have hs : ∀ i ∈ Finset.range nw.n_inputs,
        HasDerivAt (fun w => rd input i
            * rd (wr nw.weights_hidden (i0 * nw.n_hidden + j0) w) (i * nw.n_hidden + j))
          (rd input i * (if i * nw.n_hidden + j = i0 * nw.n_hidden + j0 then 1 else 0))
          (rd nw.weights_hidden (i0 * nw.n_hidden + j0)) := fun i _ =>
      (hasDerivAt_rd_wr nw.weights_hidden _ (i * nw.n_hidden + j) hidx _).const_mul _
    have h := (HasDerivAt.sum hs).add_const (rd nw.biases_hidden j)
    rw [sum_flat_ite nw.n_inputs nw.n_hidden (rd input) i0 j0 j hi0 hj0 hj] at h
    exact h
  have hd := hasDerivAt_errorAtHiddenSums_single nw (rd y) _ _ j0 _ hj0 ha
  convert hd using 1
  beta_reduce
  rw [grad_hidden_closed tr nw input y lr momentum hwf htr j0 hj0
    (fun j => (∑ i ∈ Finset.range nw.n_inputs, rd input i
        * rd (wr nw.weights_hidden (i0 * nw.n_hidden + j0)
            (rd nw.weights_hidden (i0 * nw.n_hidden + j0))) (i * nw.n_hidden + j))
      + rd nw.biases_hidden j)
    (fun j _ => by simp only [rd_wr_self])]

/-- The squared error as a function of one hidden-layer bias has derivative
`grad_hidden[j0]` at the bias the network holds. -/
theorem hasDerivAt_biases_hidden (tr : Trainer ℝ) (nw : Network ℝ) (input y : List ℝ)
    (lr momentum : ℝ) (hwf : nw.WF) (htr : tr.WF nw) (j0 : Nat) (hj0 : j0 < nw.n_hidden) :
    HasDerivAt (fun w => predictError Real.exp
        { nw with biases_hidden := wr nw.biases_hidden j0 w } input y)
      (rd (trainer_train Real.exp tr nw input y lr momentum).1.grad_hidden j0)
      (rd nw.biases_hidden j0) := by
  have hidx : j0 < nw.biases_hidden.length := by
    rw [hwf.2.2.2.2.2.2.1]
    exact hj0
  have e : (fun w => predictError Real.exp
        { nw with biases_hidden := wr nw.biases_hidden j0 w } input y)
      = fun w => errorAtHiddenSums Real.exp nw (rd y) (fun j =>
          (fun j w => (∑ i ∈ Finset.range nw.n_inputs,
            rd input i * rd nw.weights_hidden (i * nw.n_hidden + j))
            + rd (wr nw.biases_hidden j0 w) j) j w) := by
    funext w
    rw [predictError_eq Real.exp _ input y (wf_set_biases_hidden nw hwf _ w)]
    rfl
  rw [e]
  have ha : ∀ j, j < nw.n_hidden →
      HasDerivAt ((fun j w => (∑ i ∈ Finset.range nw.n_inputs,
            rd input i * rd nw.weights_hidden (i * nw.n_hidden + j))
            + rd (wr nw.biases_hidden j0 w) j) j)
        (if j = j0 then 1 else 0) (rd nw.biases_hidden j0) := fun j _ =>
    (hasDerivAt_rd_wr nw.biases_hidden j0 j hidx _).const_add _
  have hd := hasDerivAt_errorAtHiddenSums_single nw (rd y) _ _ j0 _ hj0 ha
  convert hd using 1
  beta_reduce
  rw [grad_hidden_closed tr nw input y lr momentum hwf htr j0 hj0
    (fun j => (∑ i ∈ Finset.range nw.n_inputs, rd input i * rd nw.weights_hidden (i * nw.n_hidden + j))
      + rd (wr nw.biases_hidden j0 (rd nw.biases_hidden j0)) j)
    (fun j _ => by simp only [rd_wr_self]), mul_one]

/-- One coordinate of a vector as a function of the value stored at coordinate `k0`. -/
theorem hasDerivAt_update (v : Nat → ℝ) (k0 k : Nat) (p : ℝ) :
    HasDerivAt (fun q => Function.update v k0 q k) (if k = k0 then 1 else 0) p := by
  by_cases c : k = k0
  · subst c
    simp only [Function.update_same, if_pos rfl]
    exact hasDerivAt_id p
  · simp only [Function.update_noteq c, if_neg c]
    exact hasDerivAt_const p _

/-- The squared error of the forward pass is the error function at the output sums the
source accumulates. -/
theorem predictError_outputSum {α : Type} [Field α] (exp : α → α) (nw : Network α)
    (input y : List α) (hwf : nw.WF) :
    predictError exp nw input y
      = errorAtOutputSums exp nw.n_outputs (rd y)
          (outputSum nw (network_predict exp nw input).hidden) := by
  unfold predictError errorAtOutputSums squaredError
  congr 1
  apply Finset.sum_congr rfl
  intro k hk
  rw [predict_output_rd exp nw input hwf k (Finset.mem_range.mp hk)]

/-- The squared error of the forward pass is the error function at the hidden sums the
source accumulates. -/
theorem predictError_hiddenSum {α : Type} [Field α] (exp : α → α) (nw : Network α)
    (input y : List α) (hwf : nw.WF) :
    predictError exp nw input y = errorAtHiddenSums exp nw (rd y) (hiddenSum nw input) := by
  rw [predictError_eq exp nw input y hwf]
  apply errorAtHiddenSums_congr
  intro j hj
  rw [hiddenSum_eq nw input hwf j hj]

/-- The output gradient is the partial derivative of the error with respect to the output
sum of the unit. -/
theorem hasDerivAt_output_sum (tr : Trainer ℝ) (nw : Network ℝ) (input y : List ℝ)
    (lr momentum : ℝ) (hwf : nw.WF) (htr : tr.WF nw) (k0 : Nat) (hk0 : k0 < nw.n_outputs) :
    HasDerivAt (fun z => errorAtOutputSums Real.exp nw.n_outputs (rd y)
        (Function.update (outputSum nw (network_predict Real.exp nw input).hidden) k0 z))
      (rd (trainer_train Real.exp tr nw input y lr momentum).1.grad_output k0)
      (outputSum nw (network_predict Real.exp nw input).hidden k0) := by
  have hd := hasDerivAt_errorAtOutputSums_single nw.n_outputs (rd y)
    (fun k z => Function.update (outputSum nw (network_predict Real.exp nw input).hidden) k0 z k)
    (outputSum nw (network_predict Real.exp nw input).hidden k0) k0 1 hk0
    (fun k _ => hasDerivAt_update _ k0 k _)
  convert hd using 1
  beta_reduce
  rw [train_grad_output Real.exp tr nw input y lr momentum htr k0 hk0,
    predict_output_rd Real.exp nw input hwf k0 hk0, Function.update_same, mul_one]

/-- The hidden gradient is the partial derivative of the error with respect to the hidden
sum of the unit. -/
theorem hasDerivAt_hidden_sum (tr : Trainer ℝ) (nw : Network ℝ) (input y : List ℝ)
    (lr momentum : ℝ) (hwf : nw.WF) (htr : tr.WF nw) (j0 : Nat) (hj0 : j0 < nw.n_hidden) :
    HasDerivAt (fun a => errorAtHiddenSums Real.exp nw (rd y)
        (Function.update (hiddenSum nw input) j0 a))
      (rd (trainer_train Real.exp tr nw input y lr momentum).1.grad_hidden j0)
      (hiddenSum nw input j0) := by
  have hd := hasDerivAt_errorAtHiddenSums_single nw (rd y)
    (fun j a => Function.update (hiddenSum nw input) j0 a j)
    (hiddenSum nw input j0) j0 1 hj0 (fun j _ => hasDerivAt_update _ j0 j _)
  convert hd using 1
  beta_reduce
  rw [grad_hidden_closed tr nw input y lr momentum hwf htr j0 hj0
    (fun j => Function.update (hiddenSum nw input) j0 (hiddenSum nw input j0) j)
    (fun j hj => by rw [Function.update_eq_self]; exact hiddenSum_eq nw input hwf j hj), mul_one]

end Calculus

/-! ## Claim about momentum -/

section MomentumClaims

/-- C18: velocities start at zero after `trainer_init` and accumulate exponentially.  The
loop is `n` consecutive `trainer_train` calls with momentum `m`, call `t + 1` made on the
state call `t` left.  After `n` calls each velocity entry is the sum over the calls
`t + 1 = 1 .. n` of `m ^ (n - (t + 1))` times the raw delta of call `t + 1`:
`lr·grad_output[k]·hidden[j]` with `grad_output[k] = (o[k] - y[k])·o[k](1 - o[k])` for an
output weight, `lr·grad_hidden[j]·input[i]` with
`grad_hidden[j] = (Σ_k grad_output[k]·weights_output[j,k])·h[j](1 - h[j])` for a hidden
weight, where `h`, `o` are the activations of the forward pass of that call and
`weights_output` the weights before it; and each weight is its initial value minus the sum
of the velocities after the calls `1 .. n`. -/
theorem momentum_accumulates {α : Type} [Field α] (exp : α → α) (m : α)
    (examples : Nat → List α × List α × α) (nw0 : Network α) (hwf : nw0.WF) :
    ∃ tr0, trainer_init nw0 true = some tr0 ∧
      (∀ idx, rd tr0.velocity_hidden idx = 0 ∧ rd tr0.velocity_output idx = 0) ∧
      train_loop exp m examples 0 (tr0, nw0) = (tr0, nw0) ∧
      (∀ n, train_loop exp m examples (n + 1) (tr0, nw0)
        = trainer_train exp (train_loop exp m examples n (tr0, nw0)).1
            (train_loop exp m examples n (tr0, nw0)).2
            (examples n).1 (examples n).2.1 (examples n).2.2 m) ∧
      ∀ n,
        (∀ j k, j < nw0.n_hidden → k < nw0.n_outputs →
          rd (train_loop exp m examples n (tr0, nw0)).1.velocity_output (j * nw0.n_outputs + k)
            = ∑ t ∈ Finset.range n, m ^ (n - 1 - t)
                * ((examples t).2.2
                  * ((rd (network_predict exp (train_loop exp m examples t (tr0, nw0)).2 (examples t).1).output k - rd (examples t).2.1 k)
                    * sigmoid_prim (rd (network_predict exp (train_loop exp m examples t (tr0, nw0)).2 (examples t).1).output k))
                  * rd (network_predict exp (train_loop exp m examples t (tr0, nw0)).2 (examples t).1).hidden j) ∧
          rd (train_loop exp m examples n (tr0, nw0)).2.weights_output (j * nw0.n_outputs + k)
            = rd nw0.weights_output (j * nw0.n_outputs + k)
              - ∑ t ∈ Finset.range n,
                  rd (train_loop exp m examples (t + 1) (tr0, nw0)).1.velocity_output
                    (j * nw0.n_outputs + k)) ∧
        (∀ i j, i < nw0.n_inputs → j < nw0.n_hidden →
          rd (train_loop exp m examples n (tr0, nw0)).1.velocity_hidden (i * nw0.n_hidden + j)
            = ∑ t ∈ Finset.range n, m ^ (n - 1 - t)
                * ((examples t).2.2
                  * ((∑ k ∈ Finset.range nw0.n_outputs,
                      (rd (network_predict exp (train_loop exp m examples t (tr0, nw0)).2 (examples t).1).output k - rd (examples t).2.1 k)
                        * sigmoid_prim (rd (network_predict exp (train_loop exp m examples t (tr0, nw0)).2 (examples t).1).output k)
                        * rd (train_loop exp m examples t (tr0, nw0)).2.weights_output (j * nw0.n_outputs + k))
                    * sigmoid_prim (rd (network_predict exp (train_loop exp m examples t (tr0, nw0)).2 (examples t).1).hidden j))
                  * rd (examples t).1 i) ∧
          rd (train_loop exp m examples n (tr0, nw0)).2.weights_hidden (i * nw0.n_hidden + j)
            = rd nw0.weights_hidden (i * nw0.n_hidden + j)
              - ∑ t ∈ Finset.range n,
                  rd (train_loop exp m examples (t + 1) (tr0, nw0)).1.velocity_hidden
                    (i * nw0.n_hidden + j)) := by
  obtain ⟨tr0, h0, htr, zh, zo, _, _⟩ := trainer_init_spec nw0 hwf
  refine ⟨tr0, h0, fun idx => ⟨zh idx, zo idx⟩, rfl,
    fun n => train_loop_succ exp m examples n (tr0, nw0), ?_⟩
  intro n
  obtain ⟨ho, hh⟩ := velocity_accumulates_buffers exp m examples nw0 tr0 hwf htr zh zo n
  have step := fun t => train_loop_wf exp m examples tr0 nw0 hwf htr t
  constructor
  · intro j k hj hk
    obtain ⟨h1, h2⟩ := ho j k hj hk
    refine ⟨?_, h2⟩
    rw [h1]
    apply Finset.sum_congr rfl
    intro t _
    obtain ⟨_, _, e3, _, wt⟩ := step t
    rw [train_loop_succ, train_grad_output exp _ _ _ _ _ _ wt k (by rw [e3]; exact hk)]
  · intro i j hi hj
    obtain ⟨h1, h2⟩ := hh i j hi hj
    refine ⟨?_, h2⟩
    rw [h1]
    apply Finset.sum_congr rfl
    intro t _
    obtain ⟨_, e2, e3, w, wt⟩ := step t
    rw [train_loop_succ, train_grad_hidden_sum exp _ _ _ _ _ _ w wt j (by rw [e2]; exact hj), e3]

end MomentumClaims

/-! ## The range of the activations -/

section ActivationRange

end ActivationRange

/-! ## Claim about the gradients of `trainer_train` -/

section BackpropClaims

/-- C17: over the reals with the true exponential, for a network and a trainer whose buffers
fit the shape: `sigmoid_prim (sigmoid x)` is the derivative of `sigmoid` at `x`; the squared
error `E = 1/2 · Σ_k (output[k] - y[k])²` of the forward pass is the error function at the
output sums and at the hidden sums the source accumulates; `grad_output[k]` after
`trainer_train` is the partial derivative of `E` with respect to the output sum of unit `k`
and `grad_hidden[j]` the one with respect to the hidden sum of unit `j`, whatever the
momentum; and with momentum `0` each output weight, output bias, hidden weight and hidden
bias moves by `-lr` times the partial derivative of `E` with respect to that parameter. -/
theorem trainer_train_backpropagation (tr : Trainer ℝ) (nw : Network ℝ) (input y : List ℝ)
    (lr : ℝ) (hwf : nw.WF) (htr : tr.WF nw) (hin : input.length = nw.n_inputs)
    (hy : y.length = nw.n_outputs) :
    (∀ x : ℝ, HasDerivAt (sigmoid Real.exp) (sigmoid_prim (sigmoid Real.exp x)) x) ∧
    predictError Real.exp nw input y
      = errorAtOutputSums Real.exp nw.n_outputs (rd y)
          (outputSum nw (network_predict Real.exp nw input).hidden) ∧
    predictError Real.exp nw input y
      = errorAtHiddenSums Real.exp nw (rd y) (hiddenSum nw input) ∧
    (∀ momentum k, k < nw.n_outputs →
      HasDerivAt (fun z => errorAtOutputSums Real.exp nw.n_outputs (rd y)
          (Function.update (outputSum nw (network_predict Real.exp nw input).hidden) k z))
        (rd (trainer_train Real.exp tr nw input y lr momentum).1.grad_output k)
        (outputSum nw (network_predict Real.exp nw input).hidden k)) ∧
    (∀ momentum j, j < nw.n_hidden →
      HasDerivAt (fun a => errorAtHiddenSums Real.exp nw (rd y)
          (Function.update (hiddenSum nw input) j a))
        (rd (trainer_train Real.exp tr nw input y lr momentum).1.grad_hidden j)
        (hiddenSum nw input j)) ∧
    (∀ j k, j < nw.n_hidden → k < nw.n_outputs → ∃ D : ℝ,
      HasDerivAt (fun w => predictError Real.exp
          { nw with weights_output := wr nw.weights_output (j * nw.n_outputs + k) w } input y)
        D (rd nw.weights_output (j * nw.n_outputs + k)) ∧
      rd (trainer_train Real.exp tr nw input y lr 0).2.weights_output (j * nw.n_outputs + k)
        = rd nw.weights_output (j * nw.n_outputs + k) - lr * D) ∧
    (∀ k, k < nw.n_outputs → ∃ D : ℝ,
      HasDerivAt (fun w => predictError Real.exp
          { nw with biases_output := wr nw.biases_output k w } input y)
        D (rd nw.biases_output k) ∧
      rd (trainer_train Real.exp tr nw input y lr 0).2.biases_output k
        = rd nw.biases_output k - lr * D) ∧
    (∀ i j, i < nw.n_inputs → j < nw.n_hidden → ∃ D : ℝ,
      HasDerivAt (fun w => predictError Real.exp
          { nw with weights_hidden := wr nw.weights_hidden (i * nw.n_hidden + j) w } input y)
        D (rd nw.weights_hidden (i * nw.n_hidden + j)) ∧
      rd (trainer_train Real.exp tr nw input y lr 0).2.weights_hidden (i * nw.n_hidden + j)
        = rd nw.weights_hidden (i * nw.n_hidden + j) - lr * D) ∧
    (∀ j, j < nw.n_hidden → ∃ D : ℝ,
      HasDerivAt (fun w => predictError Real.exp
          { nw with biases_hidden := wr nw.biases_hidden j w } input y)
        D (rd nw.biases_hidden j) ∧
      rd (trainer_train Real.exp tr nw input y lr 0).2.biases_hidden j
        = rd nw.biases_hidden j - lr * D) := by
  have _ := hin
  have _ := hy
  refine ⟨hasDerivAt_sigmoid, predictError_outputSum Real.exp nw input y hwf,
    predictError_hiddenSum Real.exp nw input y hwf,
    fun momentum k hk => hasDerivAt_output_sum tr nw input y lr momentum hwf htr k hk,
    fun momentum j hj => hasDerivAt_hidden_sum tr nw input y lr momentum hwf htr j hj,
    ?_, ?_, ?_, ?_⟩
  · intro j k hj hk
    refine ⟨_, hasDerivAt_weights_output tr nw input y lr 0 hwf htr j k hj hk, ?_⟩
    obtain ⟨hv, hw⟩ := train_output_weights Real.exp tr nw input y lr 0 hwf htr j k hj hk
    rw [hw, hv, zero_mul, zero_add, mul_assoc]
  · intro k hk
    exact ⟨_, hasDerivAt_biases_output tr nw input y lr 0 hwf htr k hk,
      train_biases_output Real.exp tr nw input y lr 0 hwf k hk⟩
  · intro i j hi hj
    refine ⟨_, hasDerivAt_weights_hidden tr nw input y lr 0 hwf htr i j hi hj, ?_⟩
    obtain ⟨hv, hw⟩ := train_hidden_weights Real.exp tr nw input y lr 0 hwf htr i j hi hj
    rw [hw, hv, zero_mul, zero_add, mul_assoc]
  · intro j hj
    exact ⟨_, hasDerivAt_biases_hidden tr nw input y lr 0 hwf htr j hj,
      train_biases_hidden Real.exp tr nw input y lr 0 hwf j hj⟩

end BackpropClaims

/-! ## Claims about `network_init` -/

section InitClaims

/-- For a shape whose element counts and fan sums fit a `uint32_t` and a random source
returning values in `[0,1)`, `network_init` sets the hidden-layer weight at flat index `t`
to `(2·r_t - 1)·sqrt(6/(n_inputs + n_hidden))` with `r_t` the draw number `t + 1`, and the
output-layer weight at flat index `u` to `(2·r - 1)·sqrt(6/(n_hidden + n_outputs))` with `r`
the draw number `n_inputs·n_hidden + u + 1`; every hidden weight lies in `[-L_h, L_h)`,
every output weight in `[-L_o, L_o)`, and exactly `n_inputs·n_hidden + n_hidden·n_outputs`
draws are consumed. -/
theorem network_init_weights {α : Type} [LinearOrderedField α] {ρ : Type}
    (n_inputs n_hidden n_outputs : Nat) (rand : ρ → α × ρ) (s : ρ) (sqrt : α → α)
    (hih : n_inputs * n_hidden < 2 ^ 32) (hho : n_hidden * n_outputs < 2 ^ 32)
    (hsh : n_inputs + n_hidden < 2 ^ 32) (hso : n_hidden + n_outputs < 2 ^ 32)
    (hrand : ∀ s, 0 ≤ (rand s).1 ∧ (rand s).1 < 1) (hsqrt : ∀ x, 0 < x → 0 < sqrt x) :
    ∃ nw s', network_init n_inputs n_hidden n_outputs rand s sqrt true = some (nw, s') ∧
      (∀ t, t < n_inputs * n_hidden →
        rd nw.weights_hidden t
          = (2 * randDraw rand s t - 1) * sqrt (6 / ((n_inputs : α) + (n_hidden : α))) ∧
        -sqrt (6 / ((n_inputs : α) + (n_hidden : α))) ≤ rd nw.weights_hidden t ∧
        rd nw.weights_hidden t < sqrt (6 / ((n_inputs : α) + (n_hidden : α)))) ∧
      (∀ u, u < n_hidden * n_outputs →
        rd nw.weights_output u
          = (2 * randDraw rand s (n_inputs * n_hidden + u) - 1)
            * sqrt (6 / ((n_hidden : α) + (n_outputs : α))) ∧
        -sqrt (6 / ((n_hidden : α) + (n_outputs : α))) ≤ rd nw.weights_output u ∧
        rd nw.weights_output u < sqrt (6 / ((n_hidden : α) + (n_outputs : α)))) ∧
      s' = randState rand s (n_inputs * n_hidden + n_hidden * n_outputs) := by
  have e1 : u32 (n_inputs * n_hidden) = n_inputs * n_hidden := Nat.mod_eq_of_lt hih
  have e2 : u32 (n_hidden * n_outputs) = n_hidden * n_outputs := Nat.mod_eq_of_lt hho
  have e3 : u32 (n_inputs + n_hidden) = n_inputs + n_hidden := Nat.mod_eq_of_lt hsh
  have e4 : u32 (n_hidden + n_outputs) = n_hidden + n_outputs := Nat.mod_eq_of_lt hso
  have range : ∀ (r L : α), 0 ≤ r → r < 1 → 0 < L →
      -L ≤ (2 * r - 1) * L ∧ (2 * r - 1) * L < L := by
    intro r L h0 h1 hL
    constructor
    · nlinarith
    · nlinarith
  refine ⟨_, _, network_init_eq n_inputs n_hidden n_outputs rand s sqrt, ?_, ?_, ?_⟩
  · intro t ht
    have hpos : 0 < n_inputs ∧ 0 < n_hidden := by
      constructor
      · rcases Nat.eq_zero_or_pos n_inputs with h | h
        · rw [h, Nat.zero_mul] at ht; omega
        · exact h
      · rcases Nat.eq_zero_or_pos n_hidden with h | h
        · rw [h, Nat.mul_zero] at ht; omega
        · exact h
    have hL : 0 < sqrt (6 / ((n_inputs : α) + (n_hidden : α))) := by
      apply hsqrt
      have : (0 : α) < (n_inputs : α) := by exact_mod_cast hpos.1
      have : (0 : α) ≤ (n_hidden : α) := by exact_mod_cast Nat.zero_le _
      positivity
    have h := (initWeights_spec (u32 (n_inputs * n_hidden))
      (sqrt (((6 : Nat) : α) / ((u32 (n_inputs + n_hidden) : Nat) : α))) rand
      (List.replicate (u32 (n_inputs * n_hidden)) 0) s).2.2.1 t (by rw [e1]; exact ht)
      (by rw [List.length_replicate, e1]; exact ht)
    simp only []
    rw [h, e3]
    push_cast
    rw [mul_comm (randDraw rand s t) 2]
    exact ⟨rfl, range _ _ (hrand _).1 (hrand _).2 hL⟩
  · intro u hu
    have hpos : 0 < n_hidden ∧ 0 < n_outputs := by
      constructor
      · rcases Nat.eq_zero_or_pos n_hidden with h | h
        · rw [h, Nat.zero_mul] at hu; omega
        · exact h
      · rcases Nat.eq_zero_or_pos n_outputs with h | h
        · rw [h, Nat.mul_zero] at hu; omega
        · exact h
    have hL : 0 < sqrt (6 / ((n_hidden : α) + (n_outputs : α))) := by
      apply hsqrt
      have : (0 : α) < (n_hidden : α) := by exact_mod_cast hpos.1
      have : (0 : α) ≤ (n_outputs : α) := by exact_mod_cast Nat.zero_le _
      positivity
    have h := (initWeights_spec (u32 (n_hidden * n_outputs))
      (sqrt (((6 : Nat) : α) / ((u32 (n_hidden + n_outputs) : Nat) : α))) rand
      (List.replicate (u32 (n_hidden * n_outputs)) 0)
      (randState rand s (u32 (n_inputs * n_hidden)))).2.2.1 u (by rw [e2]; exact hu)
      (by rw [List.length_replicate, e2]; exact hu)
    simp only []
    rw [h, e4, e1, randDraw_add]
    push_cast
    rw [mul_comm (randDraw rand s (n_inputs * n_hidden + u)) 2]
    exact ⟨rfl, range _ _ (hrand _).1 (hrand _).2 hL⟩
  · rw [e1, e2]

/-- C13 fails for the shape `(4294967295, 1, 1)`: both element counts fit a `uint32_t` and
the six buffers are sized to the shape, but the fan sum `n_inputs + n_hidden` is `2 ^ 32`,
which the source computes in `uint32_t` as 0, so that every hidden-layer weight is
`(2·r_t - 1)·sqrt(6.0 / 0)` and not `(2·r_t - 1)·sqrt(6 / 2 ^ 32)`. -/
theorem network_init_fan_sum_overflow {α : Type} [Zero α] [One α] [Sub α] [Mul α] [Div α]
    [NatCast α] {ρ : Type} (rand : ρ → α × ρ) (s : ρ) (sqrt : α → α) :
    ∃ nw s', network_init 4294967295 1 1 rand s sqrt true = some (nw, s') ∧
      nw.n_inputs = 4294967295 ∧ nw.n_hidden = 1 ∧ nw.n_outputs = 1 ∧ nw.WF ∧
      nw.n_inputs + nw.n_hidden = 2 ^ 32 ∧
      u32 (nw.n_inputs + nw.n_hidden) = 0 ∧
      ∀ t, t < nw.n_inputs * nw.n_hidden →
        rd nw.weights_hidden t
          = (randDraw rand s t * ((2 : Nat) : α) - 1)
            * sqrt (((6 : Nat) : α) / ((0 : Nat) : α)) := by
  obtain ⟨nw, s', h, e1, e2, e3, hwf⟩ := network_init_wf 4294967295 1 1 rand s sqrt
    (by decide) (by decide) (by decide) (by decide) (by decide)
  refine ⟨nw, s', h, e1, e2, e3, hwf, by rw [e1, e2]; decide, by rw [e1, e2]; decide, ?_⟩
  intro t ht
  rw [e1, e2] at ht
  have h2 := network_init_eq 4294967295 1 1 rand s sqrt
  rw [h] at h2
  have h3 := congrArg (fun p : Network α × ρ => p.1.weights_hidden) (Option.some.inj h2)
  simp only [] at h3
  have e4 : u32 (4294967295 * 1) = 4294967295 := by decide
  have e5 : u32 (4294967295 + 1) = 0 := by decide
  rw [h3, e4, e5]
  exact (initWeights_spec 4294967295 _ rand (List.replicate 4294967295 0) s).2.2.1 t ht
    (by rw [List.length_replicate]; exact ht)

/-- C14: for every shape and every random source, after `network_init` every element of
`biases_hidden`, `biases_output`, `hidden` and `output` is exactly `0.0`. -/
theorem network_init_zeroes {α : Type} [Zero α] [One α] [Sub α] [Mul α] [Div α] [NatCast α]
    {ρ : Type} (n_inputs n_hidden n_outputs : Nat) (rand : ρ → α × ρ) (s : ρ)
    (sqrt : α → α) :
    ∃ nw s', network_init n_inputs n_hidden n_outputs rand s sqrt true = some (nw, s') ∧
      nw.biases_hidden = List.replicate n_hidden 0 ∧
      nw.biases_output = List.replicate n_outputs 0 ∧
      nw.hidden = List.replicate n_hidden 0 ∧
      nw.output = List.replicate n_outputs 0 ∧
      (∀ x, x ∈ nw.biases_hidden ∨ x ∈ nw.biases_output ∨ x ∈ nw.hidden ∨ x ∈ nw.output →
        x = 0) := by
  refine ⟨_, _, network_init_eq n_inputs n_hidden n_outputs rand s sqrt, rfl, rfl, rfl, rfl, ?_⟩
  intro x hx
  rcases hx with h | h | h | h <;> exact List.eq_of_mem_replicate h

/-- C15 fails for the shape `(65536, 65537, 1)`: the element count `n_inputs * n_hidden` is
`2 ^ 32 + 65536`, `calloc` is asked for `(2 ^ 32 + 65536) mod 2 ^ 32 = 65536` elements, and
the index `1 * n_hidden + 0 = 65537` that `network_predict` and `trainer_train` use for
`i = 1`, `j = 0` is outside `weights_hidden`. -/
theorem network_init_overflow {α : Type} [Zero α] [One α] [Sub α] [Mul α] [Div α] [NatCast α]
    {ρ : Type} (rand : ρ → α × ρ) (s : ρ) (sqrt : α → α) :
    ∃ nw s', network_init 65536 65537 1 rand s sqrt true = some (nw, s') ∧
      nw.n_inputs = 65536 ∧ nw.n_hidden = 65537 ∧ nw.n_outputs = 1 ∧
      nw.n_inputs * nw.n_hidden = 2 ^ 32 + 65536 ∧
      nw.weights_hidden.length = 65536 ∧
      1 < nw.n_inputs ∧ 0 < nw.n_hidden ∧
      ¬ (u32 (1 * nw.n_hidden + 0) < nw.weights_hidden.length) ∧
      ¬ nw.WF := by
  obtain ⟨nw, s', h, e1, e2, e3, hal⟩ :=
    network_init_allocated 65536 65537 1 rand s sqrt (by decide) (by decide) (by decide)
  have hlen : nw.weights_hidden.length = 65536 := by
    rw [hal.2.2.2.1, e1, e2]
    decide
  refine ⟨nw, s', h, e1, e2, e3, by rw [e1, e2]; decide, hlen, by rw [e1]; decide,
    by rw [e2]; decide, by rw [hlen, e2]; decide, ?_⟩
  intro hwf
  have := hwf.2.2.2.1
  rw [e1, e2] at this
  exact absurd this (by decide)

end InitClaims

/-! ## The driver's random source -/

section RandClaims

/-- The multiplier and the modulus of the generator have no common factor. -/
theorem coprime_P_A : Nat.Coprime P A := by
  unfold P A
  norm_num

/-- The new state of `Rand`, without the machine arithmetic: from a state below `2 ^ 32`
neither the 64-bit product nor the store into the 32-bit global wraps. -/
theorem Rand_state {α : Type} [NatCast α] [Div α] (current : Nat) (h : current < 2 ^ 32) :
    (Rand current : α × Nat).2 = current * A % P := by
  have hP : current * A % P < P := Nat.mod_lt _ (by unfold P; decide)
  have h64 : current * A < 2 ^ 64 := by unfold A; omega
  simp only [Rand, u32, Nat.mod_eq_of_lt h64]
  exact Nat.mod_eq_of_lt (by unfold P at hP ⊢; omega)

/-- A state between 1 and `P - 1` is followed by a state between 1 and `P - 1`. -/
theorem Rand_state_range (current : Nat) (h1 : 1 ≤ current) (h2 : current ≤ P - 1) :
    1 ≤ current * A % P ∧ current * A % P ≤ P - 1 := by
  have hP : 0 < P := by unfold P; decide
  refine ⟨?_, Nat.le_sub_one_of_lt (Nat.mod_lt _ hP)⟩
  rcases Nat.eq_zero_or_pos (current * A % P) with h0 | h0
  · exfalso
    have hd : P ∣ current := coprime_P_A.dvd_of_dvd_mul_right (Nat.dvd_of_mod_eq_zero h0)
    have := Nat.le_of_dvd h1 hd
    omega
  · exact h0

/-- The value `Rand` returns is the new state divided by `P`. -/
theorem Rand_value {α : Type} [NatCast α] [Div α] (current : Nat) :
    (Rand current : α × Nat).1
      = (((Rand current : α × Nat).2 : Nat) : α) / ((P : Nat) : α) := rfl

/-- From every state `Rand` returns a value in `[0,1)`. -/
theorem Rand_unit_interval {α : Type} [LinearOrderedField α] (current : Nat) :
    0 ≤ (Rand current : α × Nat).1 ∧ (Rand current : α × Nat).1 < 1 := by
  have hP : (0 : α) < ((P : Nat) : α) := by unfold P; norm_num
  have hlt : (Rand current : α × Nat).2 < P := by
    have h1 : current * A % 2 ^ 64 % P < P := Nat.mod_lt _ (by unfold P; decide)
    have h2 : u32 (current * A % 2 ^ 64 % P) ≤ current * A % 2 ^ 64 % P := Nat.mod_le _ _
    exact Nat.lt_of_le_of_lt h2 h1
  rw [Rand_value]
  constructor
  · exact div_nonneg (Nat.cast_nonneg _) hP.le
  · rw [div_lt_one hP]
    exact_mod_cast hlt

/-- One call of `Rand` from a state between 1 and `P - 1`: the value lies strictly between
0 and 1. -/
theorem Rand_value_range {α : Type} [LinearOrderedField α] (current : Nat)
    (h1 : 1 ≤ current) (h2 : current ≤ P - 1) :
    0 < (Rand current : α × Nat).1 ∧ (Rand current : α × Nat).1 < 1 := by
  have hlt : current < 2 ^ 32 := by unfold P at h2; omega
  obtain ⟨r1, r2⟩ := Rand_state_range current h1 h2
  have hP : (0 : α) < ((P : Nat) : α) := by unfold P; norm_num
  rw [Rand_value, Rand_state current hlt]
  constructor
  · exact div_pos (by exact_mod_cast r1) hP
  · rw [div_lt_one hP]
    have : current * A % P < P := by unfold P at r2 ⊢; omega
    exact_mod_cast this

/-- Every state `Rand` reaches from a state between 1 and `P - 1` lies between 1 and
`P - 1`. -/
theorem randState_Rand_range {α : Type} [NatCast α] [Div α] (s : Nat) (h1 : 1 ≤ s)
    (h2 : s ≤ P - 1) (n : Nat) :
    1 ≤ randState (Rand : Nat → α × Nat) s n ∧ randState (Rand : Nat → α × Nat) s n ≤ P - 1 := by
  induction n with
  | zero => exact ⟨h1, h2⟩
  | succ n ih =>
    have e : randState (Rand : Nat → α × Nat) s (n + 1)
        = (Rand (randState (Rand : Nat → α × Nat) s n) : α × Nat).2 := rfl
    rw [e, Rand_state _ (by have := ih.2; unfold P at this; omega)]
    exact Rand_state_range _ ih.1 ih.2

/-- C20: with `P = 2147483647` and `A = 16807`, for every state `current` with
`1 ≤ current ≤ P - 1` the step `current' = (current * A) mod P`, which `Rand` computes
without overflow, again satisfies `1 ≤ current' ≤ P - 1` and the value returned,
`current' / P`, lies strictly between 0 and 1; so from `current = 1` the state never becomes
0 and every call returns a value strictly between 0 and 1. -/
theorem Rand_contract {α : Type} [LinearOrderedField α] :
    P = 2147483647 ∧ A = 16807 ∧
    (∀ current, 1 ≤ current → current ≤ P - 1 →
      (Rand current : α × Nat).2 = current * A % P ∧
      1 ≤ (Rand current : α × Nat).2 ∧ (Rand current : α × Nat).2 ≤ P - 1 ∧
      (Rand current : α × Nat).1 = (((Rand current : α × Nat).2 : Nat) : α) / ((P : Nat) : α) ∧
      0 < (Rand current : α × Nat).1 ∧ (Rand current : α × Nat).1 < 1) ∧
    (∀ n, randState (Rand : Nat → α × Nat) 1 n ≠ 0 ∧
      1 ≤ randState (Rand : Nat → α × Nat) 1 n ∧
      randState (Rand : Nat → α × Nat) 1 n ≤ P - 1 ∧
      0 < randDraw (Rand : Nat → α × Nat) 1 n ∧ randDraw (Rand : Nat → α × Nat) 1 n < 1) := by
  refine ⟨rfl, rfl, ?_, ?_⟩
  · intro current h1 h2
    have hlt : current < 2 ^ 32 := by unfold P at h2; omega
    obtain ⟨r1, r2⟩ := Rand_state_range current h1 h2
    obtain ⟨v1, v2⟩ := @Rand_value_range α _ current h1 h2
    rw [Rand_state current hlt]
    exact ⟨rfl, r1, r2, by rw [Rand_value, Rand_state current hlt], v1, v2⟩
  · intro n
    obtain ⟨s1, s2⟩ := @randState_Rand_range α _ _ 1 (Nat.le_refl 1) (by unfold P; decide) n
    obtain ⟨v1, v2⟩ := @Rand_value_range α _ _ s1 s2
    exact ⟨by omega, s1, s2, v1, v2⟩

end RandClaims

/-! ## Worked instances -/

section Instances

/-- The forward pass of `netQ` on the input `(1, 0)`: hidden unit 0 gets the value the
formula gives, which is `2/3`. -/
theorem network_predict_spec_witness :
    netQ.WF ∧ ([1, 0] : List ℚ).length = netQ.n_inputs ∧
    rd (network_predict expQ netQ [1, 0]).hidden 0
      = sigmoid expQ ((∑ i ∈ Finset.range netQ.n_inputs,
          rd ([1, 0] : List ℚ) i * rd netQ.weights_hidden (i * netQ.n_hidden + 0))
          + rd netQ.biases_hidden 0) ∧
    rd (network_predict expQ netQ [1, 0]).hidden 0 = 2 / 3 :=
  ⟨by decide, rfl, (network_predict_spec expQ netQ [1, 0] (by decide) rfl).1 0 (by decide),
    by norm_num [network_predict, forLoop, rd, wr, sigmoid, expQ, netQ, u32]⟩

/-- One training step of `netQ` with `trainerQ`: the output-layer equations at `j = k = 0`. -/
theorem trainer_train_output_layer_witness :
    netQ.WF ∧ trainerQ.WF netQ ∧ ([1, 0] : List ℚ).length = netQ.n_inputs ∧
    ([1] : List ℚ).length = netQ.n_outputs ∧
    rd (trainer_train expQ trainerQ netQ [1, 0] [1] (1 / 10) (9 / 10)).1.velocity_output
        (0 * netQ.n_outputs + 0)
      = 9 / 10 * rd trainerQ.velocity_output (0 * netQ.n_outputs + 0)
        + 1 / 10 * rd (trainer_train expQ trainerQ netQ [1, 0] [1] (1 / 10) (9 / 10)).1.grad_output 0
          * rd (network_predict expQ netQ [1, 0]).hidden 0 :=
  ⟨by decide, by decide, rfl, rfl,
    ((trainer_train_output_layer expQ trainerQ netQ [1, 0] [1] (1 / 10) (9 / 10)
      (by decide) (by decide) rfl rfl).2 0 0 (by decide) (by decide)).1⟩

/-- One training step of `netQ` with `trainerQ`: the hidden-layer equations at `i = 1`,
`j = 0`. -/
theorem trainer_train_hidden_layer_witness :
    netQ.WF ∧ trainerQ.WF netQ ∧ ([1, 0] : List ℚ).length = netQ.n_inputs ∧
    ([1] : List ℚ).length = netQ.n_outputs ∧
    rd (trainer_train expQ trainerQ netQ [1, 0] [1] (1 / 10) (9 / 10)).2.weights_hidden
        (1 * netQ.n_hidden + 0)
      = rd netQ.weights_hidden (1 * netQ.n_hidden + 0)
        - rd (trainer_train expQ trainerQ netQ [1, 0] [1] (1 / 10) (9 / 10)).1.velocity_hidden
            (1 * netQ.n_hidden + 0) :=
  ⟨by decide, by decide, rfl, rfl,
    ((trainer_train_hidden_layer expQ trainerQ netQ [1, 0] [1] (1 / 10) (9 / 10)
      (by decide) (by decide) rfl rfl).2 1 0 (by decide) (by decide)).2⟩

/-- One training step of `netQ` with `trainerQ`: the output bias. -/
theorem trainer_train_biases_witness :
    netQ.WF ∧ trainerQ.WF netQ ∧ ([1, 0] : List ℚ).length = netQ.n_inputs ∧
    ([1] : List ℚ).length = netQ.n_outputs ∧
    rd (trainer_train expQ trainerQ netQ [1, 0] [1] (1 / 10) (9 / 10)).2.biases_output 0
      = rd netQ.biases_output 0
        - 1 / 10 * rd (trainer_train expQ trainerQ netQ [1, 0] [1] (1 / 10) (9 / 10)).1.grad_output 0 :=
  ⟨by decide, by decide, rfl, rfl,
    (trainer_train_biases expQ trainerQ netQ [1, 0] [1] (1 / 10) (9 / 10)
      (by decide) (by decide) rfl rfl).1 0 (by decide)⟩

/-- Saving `ckptA` and loading the record into `ckptB`, which has the same shape. -/
theorem network_save_load_roundtrip_witness :
    ckptA.Allocated ∧ ckptB.Allocated ∧ ckptB.n_inputs = ckptA.n_inputs ∧ ckptB.n_hidden = ckptA.n_hidden ∧
    ckptB.n_outputs = ckptA.n_outputs ∧
    (network_load ckptB (network_save ckptA true none).1 (7, 8, 9)).ret = 0 ∧
    (network_load ckptB (network_save ckptA true none).1 (7, 8, 9)).network.weights_hidden
      = ckptA.weights_hidden :=
  ⟨by decide, by decide, rfl, rfl, rfl,
    (network_save_load_roundtrip ckptA ckptB none (7, 8, 9) (by decide) (by decide)
      rfl rfl rfl).1,
    (network_save_load_roundtrip ckptA ckptB none (7, 8, 9) (by decide) (by decide)
      rfl rfl rfl).2.1⟩

/-- Loading the record of the 2-2-1 network `ckptA` into the 3-2-1 network `ckptC`. -/
theorem network_load_shape_mismatch_witness :
    12 ≤ (le32 2 ++ le32 2 ++ le32 1 ++ encodeArr ckptA.weights_hidden).length ∧
    (network_load ckptC (some (le32 2 ++ le32 2 ++ le32 1 ++ encodeArr ckptA.weights_hidden))
        (0, 0, 0)).ret ≠ 0 ∧
    (network_load ckptC (some (le32 2 ++ le32 2 ++ le32 1 ++ encodeArr ckptA.weights_hidden))
        (0, 0, 0)).network = ckptC :=
  ⟨by decide,
    network_load_shape_mismatch ckptC
      (le32 2 ++ le32 2 ++ le32 1 ++ encodeArr ckptA.weights_hidden) (0, 0, 0)
      (by decide) (Or.inl (by decide))⟩

/-- The two failures of `network_load` on the 3-2-1 network `ckptC`. -/
theorem network_load_failure_codes_witness :
    12 ≤ (le32 2 ++ le32 2 ++ le32 1 ++ encodeArr ckptA.weights_hidden).length ∧
    (network_load ckptC (some (le32 2 ++ le32 2 ++ le32 1 ++ encodeArr ckptA.weights_hidden))
        (0, 0, 0)).ret = -1 ∧
    (network_load ckptC none (0, 0, 0)).ret = -1 :=
  ⟨by decide,
    (network_load_failure_codes ckptC
      (le32 2 ++ le32 2 ++ le32 1 ++ encodeArr ckptA.weights_hidden) (0, 0, 0) (0, 0, 0)
      (by decide) (Or.inl (by decide))).1,
    (network_load_failure_codes ckptC
      (le32 2 ++ le32 2 ++ le32 1 ++ encodeArr ckptA.weights_hidden) (0, 0, 0) (0, 0, 0)
      (by decide) (Or.inl (by decide))).2.1⟩

/-- The record of the 2-2-1 network `ckptA`: 84 bytes. -/
theorem network_save_layout_witness :
    ckptA.WF ∧
    ∃ record : List Byte,
      network_save ckptA true none = (some record, []) ∧ record.length = 84 := by
  refine ⟨by decide, ?_⟩
  obtain ⟨record, h1, _, _, _, _, _, _, _, _, _, _, _, h2⟩ :=
    network_save_layout ckptA none (by decide)
  exact ⟨record, h1, h2⟩

/-- Loading the 20-byte `truncatedRecord` into `ckptB`: the result is 0, element 0 of
`weights_hidden` is the one `double` the record holds, and element 1, which the record ends
before, is the one `ckptB` held. -/
theorem network_load_unchecked_reads_witness :
    ckptB.WF ∧ 12 ≤ truncatedRecord.length ∧
    de32 (truncatedRecord.take 4) = ckptB.n_inputs ∧
    de32 ((truncatedRecord.drop 4).take 4) = ckptB.n_hidden ∧
    de32 ((truncatedRecord.drop 8).take 4) = ckptB.n_outputs ∧
    (network_load ckptB (some truncatedRecord) (0, 0, 0)).ret = 0 ∧
    (network_load ckptB (some truncatedRecord) (0, 0, 0)).network.weights_hidden[0]?
      = some (DoubleRep.ofBytes ((truncatedRecord.drop (12 + 8 * 0)).take 8)) ∧
    (network_load ckptB (some truncatedRecord) (0, 0, 0)).network.weights_hidden[1]?
      = ckptB.weights_hidden[1]? :=
  ⟨by decide, by decide, by decide, by decide, by decide,
    (network_load_unchecked_reads ckptB truncatedRecord (0, 0, 0)
      (by decide) (by decide) (by decide) (by decide) (by decide)).1,
    ((network_load_unchecked_reads ckptB truncatedRecord (0, 0, 0)
      (by decide) (by decide) (by decide) (by decide) (by decide)).2.2.1 0 (by decide)).1
        (by decide),
    ((network_load_unchecked_reads ckptB truncatedRecord (0, 0, 0)
      (by decide) (by decide) (by decide) (by decide) (by decide)).2.2.1 1 (by decide)).2
        (by decide)⟩

/-- The driver's `Rand` started at 1 fills a 2-2-1 network over the rationals: hidden weight
0 comes from the first draw, `16807 / 2147483647`. -/
theorem network_init_weights_witness :
    2 * 2 < 2 ^ 32 ∧ 2 * 1 < 2 ^ 32 ∧ 2 + 2 < 2 ^ 32 ∧ 2 + 1 < 2 ^ 32 ∧
    (∀ s, 0 ≤ (Rand s : ℚ × Nat).1 ∧ (Rand s : ℚ × Nat).1 < 1) ∧
    (∀ x : ℚ, 0 < x → 0 < sqrtQ x) ∧
    randDraw (Rand : Nat → ℚ × Nat) 1 0 = 16807 / 2147483647 ∧
    ∃ nw s', network_init 2 2 1 (Rand : Nat → ℚ × Nat) 1 sqrtQ true = some (nw, s') ∧
      rd nw.weights_hidden 0
        = (2 * randDraw (Rand : Nat → ℚ × Nat) 1 0 - 1) * sqrtQ (6 / (((2 : Nat) : ℚ) + ((2 : Nat) : ℚ))) ∧
      s' = randState (Rand : Nat → ℚ × Nat) 1 (2 * 2 + 2 * 1) := by
  have hs : ∀ x : ℚ, 0 < x → 0 < sqrtQ x := by
    intro x hx
    unfold sqrtQ
    positivity
  refine ⟨by decide, by decide, by decide, by decide, Rand_unit_interval, hs, ?_, ?_⟩
  · norm_num [randDraw, randState, forLoop, Rand, u32, A, P]
  · obtain ⟨nw, s', h, h1, _, h3⟩ :=
      network_init_weights 2 2 1 (Rand : Nat → ℚ × Nat) 1 sqrtQ (by decide) (by decide)
        (by decide) (by decide) Rand_unit_interval hs
    exact ⟨nw, s', h, (h1 0 (by decide)).1, h3⟩

/-- One step of `Rand` from the initial state 1. -/
theorem Rand_contract_witness :
    (1 : Nat) ≤ 1 ∧ 1 ≤ P - 1 ∧
    (Rand 1 : ℚ × Nat).2 = 1 * A % P ∧ (Rand 1 : ℚ × Nat).2 = 16807 ∧
    0 < (Rand 1 : ℚ × Nat).1 ∧ (Rand 1 : ℚ × Nat).1 < 1 := by
  have h := (@Rand_contract ℚ _).2.2.1 1 (by decide) (by decide)
  exact ⟨by decide, by decide, h.1, by decide, h.2.2.2.2.1, h.2.2.2.2.2⟩

/-- Two training steps of `netQ` on one example with momentum `9/10`, from a fresh trainer:
the velocity of output weight `(0, 0)`. -/
theorem momentum_accumulates_witness :
    netQ.WF ∧
    ∃ tr0, trainer_init netQ true = some tr0 ∧
      rd (train_loop expQ (9 / 10) examplesQ 2 (tr0, netQ)).1.velocity_output
          (0 * netQ.n_outputs + 0)
        = ∑ t ∈ Finset.range 2, (9 / 10 : ℚ) ^ (2 - 1 - t)
            * ((examplesQ t).2.2
              * ((rd (network_predict expQ (train_loop expQ (9 / 10) examplesQ t (tr0, netQ)).2
                    (examplesQ t).1).output 0 - rd (examplesQ t).2.1 0)
                * sigmoid_prim
                    (rd (network_predict expQ (train_loop expQ (9 / 10) examplesQ t (tr0, netQ)).2
                      (examplesQ t).1).output 0))
              * rd (network_predict expQ (train_loop expQ (9 / 10) examplesQ t (tr0, netQ)).2
                  (examplesQ t).1).hidden 0) := by
  refine ⟨by decide, ?_⟩
  obtain ⟨tr0, h0, _, _, _, h⟩ := momentum_accumulates expQ (9 / 10) examplesQ netQ (by decide)
  have h2 := ((h 2).1 0 0 (by decide) (by decide)).1
  refine ⟨tr0, h0, ?_⟩
  convert h2 using 1

/-- One training step of `netR` with momentum 0 on the example `(1, 0) ↦ 1`: the output bias
moves by `-lr` times the derivative of the squared error with respect to it. -/
theorem trainer_train_backpropagation_witness :
    netR.WF ∧ trainerR.WF netR ∧ ([1, 0] : List ℝ).length = netR.n_inputs ∧
    ([1] : List ℝ).length = netR.n_outputs ∧
    HasDerivAt (sigmoid Real.exp) (sigmoid_prim (sigmoid Real.exp 0)) 0 ∧
    ∃ D : ℝ,
      HasDerivAt (fun w => predictError Real.exp
          { netR with biases_output := wr netR.biases_output 0 w } [1, 0] [1])
        D (rd netR.biases_output 0) ∧
      rd (trainer_train Real.exp trainerR netR [1, 0] [1] (1 / 10) 0).2.biases_output 0
        = rd netR.biases_output 0 - 1 / 10 * D :=
  ⟨by decide, by decide, rfl, rfl,
    (trainer_train_backpropagation trainerR netR [1, 0] [1] (1 / 10)
      (by decide) (by decide) rfl rfl).1 0,
    (trainer_train_backpropagation trainerR netR [1, 0] [1] (1 / 10)
      (by decide) (by decide) rfl rfl).2.2.2.2.2.2.1 0 (by decide)⟩

end Instances

end NeuralNet
